import Mathlib

/-!
# unubirefimg: re-materialising a sparse UBIFS image

A shallow embedding of `main` of `ubi-utils/new-utils/src/unubirefimg.c`
as a deterministic transition system.  One transition is one statement
(or one statement together with the error test that follows it) of the C
source; the program counter names the source line.

Modelling conventions:

* a byte is a `Fin 256`;
* the `int` cursor `i` and the `unsigned int` index `lnum` are kept as their
  32-bit patterns, natural numbers below `2^32`; `i++` is taken modulo
  `2^32` and `i != lnum` compares the patterns (the usual conversion of the
  `int` operand to `unsigned int`); `intValue` is the value of the `int`
  with a given pattern;
* the source file is a regular file: `read` returns the requested number of
  bytes or, at the end of the file, the bytes that are left;
* the result of the k-th call of `write` is given by the environment.
-/

namespace Unubirefimg

/-- One byte (`unsigned char`). -/
abbrev Byte := Fin 256

/-- The constant `UBI_LEB_SIZE` (line 20). -/
def UBI_LEB_SIZE : Nat := 516096

/-- The value of `sizeof(unsigned int)`. -/
def SIZEOF_UINT : Nat := 4

/-- The modulus of `unsigned int` arithmetic, `2^32`. -/
def UINT_MOD : Nat := 4294967296

/-- The erase pattern written by `memset(buf, 0xff, UBI_LEB_SIZE)`. -/
def ERASED : Byte := 255

/-- The two file descriptors of the program. -/
inductive Fd
  | ifd
  | ofd
  deriving DecidableEq, Repr

/-- The messages printed by the program, one for each format string of a
`printf` of the source. -/
inductive Msg
  /-- line 34, "no mem" -/
  | noMem
  /-- line 40, "stat failed on" -/
  | statFailed
  /-- line 46, "cannot open" -/
  | cannotOpen
  /-- line 52, "cannot create" -/
  | cannotCreate
  /-- lines 63 and 81, "read error" -/
  | readError
  /-- lines 73 and 87, "write error" -/
  | writeError
  deriving DecidableEq, Repr

/-- The system calls and library calls with an outside effect, in the order
in which the program issues them.  A `read` carries the requested count and
the returned count, a `write` the requested count and the returned value. -/
inductive Event
  | stat (ok : Bool)
  | openIn (ok : Bool)
  | openOut (ok : Bool)
  | read (count : Nat) (ret : Nat)
  | write (count : Nat) (ret : Int)
  | printf (m : Msg)
  | close (fd : Fd)
  deriving DecidableEq, Repr

/-- True of the `read` and `write` events. -/
def Event.isReadWrite : Event → Bool
  | .read _ _ => true
  | .write _ _ => true
  | _ => false

/-- True of the `write` events. -/
def Event.isWrite : Event → Bool
  | .write _ _ => true
  | _ => false

/-- Everything outside the program that a run depends on. -/
structure World where
  /-- the byte order of `unsigned int` on the machine -/
  bigEndian : Bool
  /-- whether `malloc` returns a buffer -/
  mallocOk : Bool
  /-- the (uninitialised) contents of the buffer returned by `malloc` -/
  buf0 : List Byte
  /-- whether `stat(argv[1])` succeeds -/
  statOk : Bool
  /-- whether `open(argv[1], O_RDONLY)` succeeds -/
  openInOk : Bool
  /-- whether `open(argv[2], O_WRONLY | O_TRUNC | O_CREAT)` succeeds -/
  openOutOk : Bool
  /-- the contents of the source file -/
  input : List Byte
  /-- the value returned by the k-th call of `write` (k counted from 0) -/
  wr : Nat → Int

/-- Program points of `main`, named after what the statement there does. -/
inductive PC
  /-- lines 32-36 -/
  | malloc
  /-- lines 38-42 -/
  | stat
  /-- lines 44-48 -/
  | openIn
  /-- lines 50-56 -/
  | openOut
  /-- lines 57-65, the head of the `for (;;)` loop -/
  | readLnum
  /-- lines 68-69 -/
  | cmpFill
  /-- line 70, the test `i++ != lnum` -/
  | fillTest
  /-- lines 71-75 -/
  | fillWrite
  /-- lines 79-83 -/
  | readData
  /-- lines 85-89 -/
  | writeData
  /-- lines 92-95 -/
  | exitOk
  /-- line 98 -/
  | outClose1
  /-- line 100 -/
  | outClose
  /-- lines 102-103 -/
  | outFree
  /-- the program has returned -/
  | done (ret : Int)
  deriving DecidableEq, Repr

/-- The state of a run. -/
structure State where
  pc : PC
  /-- the cursor `int i` -/
  i : Nat
  /-- the index `unsigned int lnum` read last -/
  lnum : Nat
  /-- the contents of `buf` -/
  buf : List Byte
  /-- the part of the source file that has not been read -/
  inp : List Byte
  /-- the bytes written to the destination so far -/
  out : List Byte
  /-- the number of calls of `write` so far -/
  nwr : Nat
  /-- the events so far, oldest first -/
  trace : List Event

/-- Little-endian value of four bytes. -/
def le32 : List Byte → Nat
  | [b0, b1, b2, b3] => b0.val + 256 * b1.val + 65536 * b2.val + 16777216 * b3.val
  | _ => 0

/-- The `unsigned int` stored in four bytes of memory. -/
def lnumOf (bigEndian : Bool) (bs : List Byte) : Nat :=
  if bigEndian then le32 bs.reverse else le32 bs

/-- The four bytes in memory of the `unsigned int` with value `k % 2^32`. -/
def encLnum (bigEndian : Bool) (k : Nat) : List Byte :=
  let le : List Byte :=
    [Fin.ofNat k, Fin.ofNat (k / 256), Fin.ofNat (k / 65536), Fin.ofNat (k / 16777216)]
  if bigEndian then le.reverse else le

/-- The state before the first statement of `main`. -/
def initState (w : World) : State :=
  { pc := .malloc, i := 0, lnum := 0, buf := w.buf0, inp := w.input, out := [],
    nwr := 0, trace := [] }

/-- One statement of `main`. -/
def step (w : World) (s : State) : State :=
  match s.pc with
  | .malloc =>
    if w.mallocOk then { s with pc := .stat }
    else { s with pc := .outFree, trace := s.trace ++ [.printf .noMem] }
  | .stat =>
    if w.statOk then { s with pc := .openIn, trace := s.trace ++ [.stat true] }
    else { s with pc := .outFree, trace := s.trace ++ [.stat false, .printf .statFailed] }
  | .openIn =>
    if w.openInOk then { s with pc := .openOut, trace := s.trace ++ [.openIn true] }
    else { s with pc := .outClose, trace := s.trace ++ [.openIn false, .printf .cannotOpen] }
  | .openOut =>
    if w.openOutOk then
      { s with pc := .readLnum, i := 0, trace := s.trace ++ [.openOut true] }
    else { s with pc := .outClose, trace := s.trace ++ [.openOut false, .printf .cannotCreate] }
  | .readLnum =>
    let got := s.inp.take SIZEOF_UINT
    let tr := s.trace ++ [.read SIZEOF_UINT got.length]
    if got.length = 0 then
      { s with pc := .exitOk, trace := tr }
    else if got.length ≠ SIZEOF_UINT then
      { s with pc := .outClose1, inp := s.inp.drop SIZEOF_UINT,
               trace := tr ++ [.printf .readError] }
    else
      { s with pc := .cmpFill, lnum := lnumOf w.bigEndian got,
               inp := s.inp.drop SIZEOF_UINT, trace := tr }
  | .cmpFill =>
    if s.i ≠ s.lnum then
      { s with pc := .fillTest, buf := List.replicate UBI_LEB_SIZE ERASED }
    else { s with pc := .fillTest }
  | .fillTest =>
    if s.i ≠ s.lnum then { s with pc := .fillWrite, i := (s.i + 1) % UINT_MOD }
    else { s with pc := .readData, i := (s.i + 1) % UINT_MOD }
  | .fillWrite =>
    let r := w.wr s.nwr
    let o := s.out ++ s.buf.take r.toNat
    let tr := s.trace ++ [.write UBI_LEB_SIZE r]
    if r ≠ (UBI_LEB_SIZE : Int) then
      { s with pc := .outClose1, out := o, nwr := s.nwr + 1,
               trace := tr ++ [.printf .writeError] }
    else
      { s with pc := .fillTest, out := o, nwr := s.nwr + 1, trace := tr }
  | .readData =>
    let got := s.inp.take UBI_LEB_SIZE
    let tr := s.trace ++ [.read UBI_LEB_SIZE got.length]
    if got.length ≠ UBI_LEB_SIZE then
      { s with pc := .outClose1, buf := got ++ s.buf.drop got.length,
               inp := s.inp.drop UBI_LEB_SIZE, trace := tr ++ [.printf .readError] }
    else
      { s with pc := .writeData, buf := got ++ s.buf.drop got.length,
               inp := s.inp.drop UBI_LEB_SIZE, trace := tr }
  | .writeData =>
    let r := w.wr s.nwr
    let o := s.out ++ s.buf.take r.toNat
    let tr := s.trace ++ [.write UBI_LEB_SIZE r]
    if r ≠ (UBI_LEB_SIZE : Int) then
      { s with pc := .outClose1, out := o, nwr := s.nwr + 1,
               trace := tr ++ [.printf .writeError] }
    else
      { s with pc := .readLnum, out := o, nwr := s.nwr + 1, trace := tr }
  | .exitOk =>
    { s with pc := .done 0, trace := s.trace ++ [.close .ifd, .close .ofd] }
  | .outClose1 => { s with pc := .outClose, trace := s.trace ++ [.close .ofd] }
  | .outClose => { s with pc := .outFree, trace := s.trace ++ [.close .ifd] }
  | .outFree => { s with pc := .done (-1) }
  | .done _ => s

/-- Whether `main` has returned. -/
def halted (s : State) : Bool :=
  match s.pc with
  | .done _ => true
  | _ => false

/-- The state after at most `n` statements. -/
def run (w : World) : Nat → State → State
  | 0, s => s
  | n + 1, s => if halted s then s else run w n (step w s)

/-- The distance from the cursor to the index in `unsigned int` arithmetic:
the number of times the body of `while (i++ != lnum)` runs. -/
def gap (i lnum : Nat) : Nat := (lnum % UINT_MOD + UINT_MOD - i % UINT_MOD) % UINT_MOD

/-- An upper bound on the number of statements that remain to be run. -/
def fuel (s : State) : Nat :=
  UINT_MOD * s.inp.length +
    match s.pc with
    | .malloc => 16
    | .stat => 15
    | .openIn => 14
    | .openOut => 13
    | .readLnum => 12
    | .cmpFill => 2 * gap s.i s.lnum + 11
    | .fillTest => 2 * gap s.i s.lnum + 10
    | .fillWrite => 2 * gap s.i s.lnum + 11
    | .readData => 8
    | .writeData => 13
    | .exitOk => 5
    | .outClose1 => 3
    | .outClose => 2
    | .outFree => 1
    | .done _ => 0

/-- What a run of the program leaves behind. -/
structure Result where
  /-- the value returned by `main`, if it returns -/
  ret : Option Int
  /-- the bytes written to the destination -/
  out : List Byte
  /-- the events of the run -/
  trace : List Event

/-- The value returned, once `main` has returned. -/
def exitCode (s : State) : Option Int :=
  match s.pc with
  | .done r => some r
  | _ => none

/-- The last state of the run of `main` in the world `w`. -/
def finalState (w : World) : State := run w (fuel (initState w)) (initState w)

/-- The function `main` (lines 26-104).  `argc` is received and, as in the
source, never consulted. -/
def main (_argc : Nat) (w : World) : Result :=
  let s := finalState w
  { ret := exitCode s, out := s.out, trace := s.trace }

/-- The cursor and the index are 32-bit patterns. -/
def WF (s : State) : Prop := s.i < UINT_MOD ∧ s.lnum < UINT_MOD

/-- The state `t` is reached from `s` after some number of statements. -/
def Reach (w : World) (s t : State) : Prop := ∃ n, run w n s = t

/-! ## The environments and inputs of the specification -/

/-- Every call of `write` returns `UBI_LEB_SIZE`. -/
def WritesOk (w : World) : Prop := ∀ k, w.wr k = (UBI_LEB_SIZE : Int)

/-- The buffer is allocated and both files open. -/
def FilesOpen (w : World) : Prop :=
  w.mallocOk = true ∧ w.statOk = true ∧ w.openInOk = true ∧ w.openOutOk = true

/-- A record of the source file as it lies in the file: the bytes of the
index and the bytes of the payload. -/
structure Record where
  hdr : List Byte
  payload : List Byte

/-- A complete record: four index bytes and `UBI_LEB_SIZE` payload bytes. -/
def Record.Complete (r : Record) : Prop :=
  r.hdr.length = SIZEOF_UINT ∧ r.payload.length = UBI_LEB_SIZE

/-- The index of a record. -/
def Record.index (bigEndian : Bool) (r : Record) : Nat := lnumOf bigEndian r.hdr

/-- The bytes of a sequence of records. -/
def stream : List Record → List Byte
  | [] => []
  | r :: rs => r.hdr ++ (r.payload ++ stream rs)

/-- The image of a sequence of records when the cursor is `c`: for each
record the fill blocks up to its index, then its payload. -/
def expand (bigEndian : Bool) (c : Nat) : List Record → List Byte
  | [] => []
  | r :: rs =>
    List.replicate (gap c (r.index bigEndian) * UBI_LEB_SIZE) ERASED ++
      (r.payload ++ expand bigEndian ((r.index bigEndian + 1) % UINT_MOD) rs)

/-- The cursor after a sequence of records when it was `c` before. -/
def cursorAfter (bigEndian : Bool) (c : Nat) : List Record → Nat
  | [] => c
  | r :: rs => cursorAfter bigEndian ((r.index bigEndian + 1) % UINT_MOD) rs

/-- The block of `UBI_LEB_SIZE` bytes at block index `j` of an image. -/
def blockAt (img : List Byte) (j : Nat) : List Byte :=
  (img.drop (j * UBI_LEB_SIZE)).take UBI_LEB_SIZE

/-- A fill block. -/
def fillBlock : List Byte := List.replicate UBI_LEB_SIZE ERASED

/-- The largest value of `int`, `2^31 - 1`. -/
def INT_MAX : Nat := 2147483647

/-- A valid input stream: complete records whose indices are strictly
increasing and below `bound`. -/
def ValidStream (bigEndian : Bool) (bound : Nat) (rs : List Record) : Prop :=
  (∀ r ∈ rs, r.Complete) ∧
    (rs.map (Record.index bigEndian)).Pairwise (fun a b => a < b) ∧
    ∀ r ∈ rs, r.index bigEndian < bound

/-- A world for the examples: a little-endian machine on which the buffer
is allocated, both files open and every write succeeds. -/
def sampleWorld (input : List Byte) : World :=
  { bigEndian := false, mallocOk := true, buf0 := [], statOk := true, openInOk := true,
    openOutOk := true, input := input, wr := fun _ => (UBI_LEB_SIZE : Int) }

/-- A complete record for the examples: index `b0` (below 256) and a payload
of bytes `fillByte`. -/
def sampleRecord (b0 : Nat) (fillByte : Byte) : Record :=
  { hdr := [Fin.ofNat b0, 0, 0, 0], payload := List.replicate UBI_LEB_SIZE fillByte }

/-- A stream for the examples: records with indices 2 and 5. -/
def sampleRecords : List Record := [sampleRecord 2 7, sampleRecord 5 9]

/-- The number of `write` events of a trace. -/
def countWrites (tr : List Event) : Nat := tr.countP Event.isWrite

/-- The invariant of the loop: as long as no write has failed, the
destination holds `nwr` whole blocks; the cursor equals that number (modulo
`2^32`) at the head of the loop, at lines 68-70 and at the successful exit,
and is one ahead of it from the `i++` of line 70 to the write that follows
and from the end of the fill loop to the write of the payload.  The buffer
holds a whole block whenever it is about to be written. -/
def Inv (s : State) : Prop :=
  match s.pc with
  | .malloc => s.nwr = 0 ∧ s.out = []
  | .stat => s.nwr = 0 ∧ s.out = []
  | .openIn => s.nwr = 0 ∧ s.out = []
  | .openOut => s.nwr = 0 ∧ s.out = []
  | .readLnum => s.out.length = UBI_LEB_SIZE * s.nwr ∧ s.i = s.nwr % UINT_MOD
  | .cmpFill => s.out.length = UBI_LEB_SIZE * s.nwr ∧ s.i = s.nwr % UINT_MOD
  | .fillTest =>
    s.out.length = UBI_LEB_SIZE * s.nwr ∧ s.i = s.nwr % UINT_MOD ∧
      (s.i ≠ s.lnum → UBI_LEB_SIZE ≤ s.buf.length)
  | .fillWrite =>
    s.out.length = UBI_LEB_SIZE * s.nwr ∧ s.i = (s.nwr + 1) % UINT_MOD ∧
      UBI_LEB_SIZE ≤ s.buf.length
  | .readData => s.out.length = UBI_LEB_SIZE * s.nwr ∧ s.i = (s.nwr + 1) % UINT_MOD
  | .writeData =>
    s.out.length = UBI_LEB_SIZE * s.nwr ∧ s.i = (s.nwr + 1) % UINT_MOD ∧
      UBI_LEB_SIZE ≤ s.buf.length
  | .exitOk => s.out.length = UBI_LEB_SIZE * s.nwr ∧ s.i = s.nwr % UINT_MOD
  | .outClose1 => True
  | .outClose => True
  | .outFree => True
  | .done r => r = 0 → s.out.length = UBI_LEB_SIZE * s.nwr ∧ s.i = s.nwr % UINT_MOD

/-- The invariant of the trace: every `write` asks for `UBI_LEB_SIZE` bytes,
and `nwr` counts the `write` events. -/
def TraceInv (s : State) : Prop :=
  (∀ e ∈ s.trace, ∀ c r, e = Event.write c r → c = UBI_LEB_SIZE) ∧
    s.nwr = countWrites s.trace

/-- The value of an `int` whose 32-bit pattern is `p` (two's complement). -/
def intValue (p : Nat) : Int :=
  if p < 2147483648 then (p : Int) else (p : Int) - 4294967296

/-- A stream of complete records whose indices never decrease and are below
`INT_MAX`, so that `i++` never takes the `int` cursor past `INT_MAX` when it
steps over an index. -/
def MonotoneStream (bigEndian : Bool) (rs : List Record) : Prop :=
  (∀ r ∈ rs, r.Complete) ∧
    (rs.map (Record.index bigEndian)).Pairwise (fun a b => a ≤ b) ∧
    ∀ r ∈ rs, r.index bigEndian < INT_MAX

/-- The unread input is a monotone stream of records with indices at least
`lo`. -/
def Tail (bigEndian : Bool) (lo : Nat) (inp : List Byte) : Prop :=
  ∃ rs, MonotoneStream bigEndian rs ∧ inp = stream rs ∧ ∀ r ∈ rs, lo ≤ r.index bigEndian

/-- The unread input is a payload followed by a monotone stream of records
with indices at least `lnum`, and `lnum` is below `INT_MAX`. -/
def Body (bigEndian : Bool) (s : State) : Prop :=
  (∃ P rest, P.length = UBI_LEB_SIZE ∧ s.inp = P ++ rest ∧ Tail bigEndian s.lnum rest) ∧
    s.lnum < INT_MAX

/-- The value that the cursor has at the head of the loop, or will have at
the next head of the loop; `2^32` once the loop has been left. -/
def nextHead (s : State) : Nat :=
  match s.pc with
  | .malloc => 0
  | .stat => 0
  | .openIn => 0
  | .openOut => 0
  | .readLnum => s.i
  | .cmpFill => s.lnum + 1
  | .fillTest => s.lnum + 1
  | .fillWrite => s.lnum + 1
  | .readData => s.lnum + 1
  | .writeData => s.lnum + 1
  | _ => UINT_MOD

/-- The invariant of a run on a monotone stream: what is left of the input
is a monotone stream with indices at or above the last one, and the cursor
is at most `INT_MAX` at the head of the loop. -/
def Ord (bigEndian : Bool) (s : State) : Prop :=
  match s.pc with
  | .malloc => Tail bigEndian 0 s.inp
  | .stat => Tail bigEndian 0 s.inp
  | .openIn => Tail bigEndian 0 s.inp
  | .openOut => Tail bigEndian 0 s.inp
  | .readLnum => Tail bigEndian (s.i - 1) s.inp ∧ s.i ≤ INT_MAX
  | .cmpFill => Body bigEndian s
  | .fillTest => Body bigEndian s
  | .fillWrite => Body bigEndian s
  | .readData => Body bigEndian s ∧ s.i = s.lnum + 1
  | .writeData => Tail bigEndian s.lnum s.inp ∧ s.lnum < INT_MAX ∧ s.i = s.lnum + 1
  | _ => True

/-- A stream for the examples whose indices decrease: records with indices
1 and 0. -/
def unorderedRecords : List Record := [sampleRecord 1 7, sampleRecord 0 9]

/-- A world for the examples in which every `write` is short: it returns
100. -/
def shortWriteWorld (input : List Byte) : World :=
  { sampleWorld input with wr := fun _ => 100 }

/-- A world for the examples in which no file can be found: `stat` and both
`open` calls fail, as they do when `argv[1]` and `argv[2]` are missing. -/
def noFileWorld : World :=
  { sampleWorld [] with statOk := false, openInOk := false, openOutOk := false }

/-- Two states of two runs that differ at most in the contents of the
buffer; the buffers hold `UBI_LEB_SIZE` bytes each and are equal whenever the
buffer is about to be written to the destination. -/
def BufAgree (s1 s2 : State) : Prop :=
  s1.pc = s2.pc ∧ s1.i = s2.i ∧ s1.lnum = s2.lnum ∧ s1.inp = s2.inp ∧ s1.out = s2.out ∧
    s1.nwr = s2.nwr ∧ s1.trace = s2.trace ∧
    s1.buf.length = UBI_LEB_SIZE ∧ s2.buf.length = UBI_LEB_SIZE ∧
    match s1.pc with
    | .fillTest => s1.i ≠ s1.lnum → s1.buf = s2.buf
    | .fillWrite => s1.buf = s2.buf
    | .writeData => s1.buf = s2.buf
    | _ => True

/-- The buffer has been initialised whenever it is about to be written: it
holds the fill pattern at line 71, and at line 85 its first `UBI_LEB_SIZE`
bytes are the bytes of the source file that precede the unread part. -/
def BufInit (w : World) (s : State) : Prop :=
  (∃ pre, w.input = pre ++ s.inp) ∧
    match s.pc with
    | .fillTest => s.i ≠ s.lnum → s.buf = fillBlock
    | .fillWrite => s.buf = fillBlock
    | .writeData =>
      (s.buf.take UBI_LEB_SIZE).length = UBI_LEB_SIZE ∧
        ∃ pre, w.input = pre ++ (s.buf.take UBI_LEB_SIZE ++ s.inp)
    | _ => True

/-- A stream for the examples with a repeated index: two records with
index 3. -/
def duplicateRecords : List Record := [sampleRecord 3 7, sampleRecord 3 9]

/-- Whether the event is a call that failed: a `stat` or an `open` that
returned an error, a `read` that returned fewer bytes than requested (the
read of an index that returns 0, the end of the source, apart), a `write`
that did not return the requested count. -/
def Event.failed : Event → Bool
  | .stat ok => !ok
  | .openIn ok => !ok
  | .openOut ok => !ok
  | .read c r => decide (r ≠ c) && !(decide (c = SIZEOF_UINT) && decide (r = 0))
  | .write c r => decide (r ≠ (c : Int))
  | .printf _ => false
  | .close _ => false

/-- A call of the run has failed: `malloc`, or one of the calls in the
trace. -/
def CallFailed (w : World) (tr : List Event) : Prop :=
  w.mallocOk = false ∨ ∃ e ∈ tr, e.failed = true

/-- The failed call that a message reports: `malloc` for the message of
line 34, `stat` for line 40, the `open` of the source for line 46, the `open`
of the destination for line 52, a short `read` for lines 63 and 81, a `write`
that did not return its count for lines 73 and 87. -/
def MsgCause (w : World) (tr : List Event) : Msg → Prop
  | .noMem => w.mallocOk = false
  | .statFailed => Event.stat false ∈ tr
  | .cannotOpen => Event.openIn false ∈ tr
  | .cannotCreate => Event.openOut false ∈ tr
  | .readError => ∃ c r, Event.read c r ∈ tr ∧ r ≠ c ∧ ¬ (c = SIZEOF_UINT ∧ r = 0)
  | .writeError => ∃ c r, Event.write c r ∈ tr ∧ r ≠ (c : Int)

/-- No call has failed and no message has been printed. -/
def Clean (w : World) (tr : List Event) : Prop :=
  w.mallocOk = true ∧ (∀ e ∈ tr, e.failed = false) ∧ ∀ m, Event.printf m ∉ tr

/-- A call has failed, a message has been printed, and every message printed
reports a call that failed. -/
def Failing (w : World) (tr : List Event) : Prop :=
  CallFailed w tr ∧ (∃ m, Event.printf m ∈ tr) ∧ ∀ m, Event.printf m ∈ tr → MsgCause w tr m

/-- The invariant of the messages: up to the first failed call nothing is
printed, and on the way out after a failed call what has been printed
reports failed calls. -/
def MsgInv (w : World) (s : State) : Prop :=
  match s.pc with
  | .malloc => s.trace = []
  | .outClose1 => Failing w s.trace
  | .outClose => Failing w s.trace
  | .outFree => Failing w s.trace
  | .done r => (r = 0 ∧ Clean w s.trace) ∨ (r = -1 ∧ Failing w s.trace)
  | _ => Clean w s.trace

end Unubirefimg

/-!
# ubimkvol: the parameters of a volume

A shallow embedding of `param_sanity_check`, `parse_opt` and `main` of
`ubi-utils/src/ubimkvol.c`.  The calls of `getopt_long` are replaced by
their results: the list of the keys returned, each with its `optarg`, and
the arguments left over at `optind`.  The functions of the C library and of
libubi, and the constants of the headers that are not part of the sources,
are parameters of the model.  Messages are not modelled.
-/

namespace Ubimkvol

/-- The conversion of an integer to `int`: the value modulo `2^32` in the
range `-2^31 .. 2^31 - 1`. -/
def toInt32 (n : Int) : Int := (n + 2147483648) % 4294967296 - 2147483648

/-- The conversion of an integer to `long long`: the value modulo `2^64` in
the range `-2^63 .. 2^63 - 1`. -/
def toInt64 (n : Int) : Int :=
  (n + 9223372036854775808) % 18446744073709551616 - 9223372036854775808

/-- A string (`char *`), without its final NUL. -/
abbrev CString := List Char

/-- What the file takes from outside: the constants of `ubi-user.h` and
`libubi.h`, the functions `strtoul` and `strtoull` of the C library and the
function `ubiutils_get_multiplier` of `common.c`.  `strtoul s` and
`strtoull s` give the value returned and the number of characters consumed,
so that `endp = s + consumed`. -/
structure Env where
  UBI_MAX_VOLUME_NAME : Int
  UBI_VOL_NUM_AUTO : Int
  UBI_DYNAMIC_VOLUME : Int
  UBI_STATIC_VOLUME : Int
  strtoul : CString → Nat × Nat
  strtoull : CString → Nat × Nat
  ubiutils_get_multiplier : CString → Int

/-- The structure `struct args` (lines 40-50).  A pointer is `none` when it
is `NULL`. -/
structure Args where
  vol_id : Int
  vol_type : Int
  bytes : Int
  lebs : Int
  alignment : Int
  name : Option CString
  nlen : Int
  node : Option CString
  maxavs : Int
  deriving DecidableEq

/-- The initial value of the variable `args` (lines 52-62). -/
def args (e : Env) : Args :=
  { vol_type := e.UBI_DYNAMIC_VOLUME, bytes := -1, lebs := -1, alignment := 1,
    vol_id := e.UBI_VOL_NUM_AUTO, name := none, nlen := 0, node := none, maxavs := 0 }

/-- The value of `strlen(s)` stored in an `int`. -/
def strlenInt (s : CString) : Int := toInt32 s.length

/-- The function `param_sanity_check` (lines 103-132) on the value `a` of the
variable `args`. -/
def param_sanity_check (e : Env) (a : Args) : Int :=
  if a.bytes = -1 ∧ a.maxavs = 0 ∧ a.lebs = -1 then -1
  else if (a.bytes ≠ -1 ∧ (a.maxavs ≠ 0 ∨ a.lebs ≠ -1)) ∨
      (a.lebs ≠ -1 ∧ (a.maxavs ≠ 0 ∨ a.bytes ≠ -1)) ∨
      (a.maxavs ≠ 0 ∧ (a.bytes ≠ -1 ∨ a.lebs ≠ -1)) then -1
  else
    match a.name with
    | none => -1
    | some nm =>
      let len := strlenInt nm
      if len > e.UBI_MAX_VOLUME_NAME then -1 else 0

/-- The values that `getopt_long` returns for the option string
`"a:n:N:s:S:t:hVm"`, one constructor for each label of the `switch` of
`parse_opt`: the letters, `':'` (`colon`), and any other value (`other`, the
label `default`). -/
inductive Key
  | t
  | s
  | S
  | a
  | n
  | N
  | h
  | V
  | m
  | colon
  | other
  deriving DecidableEq, Repr

/-- How `parse_opt` ends: it returns `ret`, leaving the value `args` in
the variable `args`, or it calls `exit`. -/
inductive Outcome
  | returned (ret : Int) (args : Args)
  | exited (status : Int)
  deriving DecidableEq

/-- The body of the `switch` of `parse_opt` (lines 144-224) for one key
returned by `getopt_long`: the new value of `args` when the body ends with
`break`, or the way in which `parse_opt` is left. -/
def switchKey (e : Env) (a : Args) (key : Key) (optarg : CString) : Except Outcome Args :=
  match key with
  | .t =>
    if optarg = "dynamic".toList then .ok { a with vol_type := e.UBI_DYNAMIC_VOLUME }
    else if optarg = "static".toList then .ok { a with vol_type := e.UBI_STATIC_VOLUME }
    else .error (.returned (-1) a)
  | .s =>
    let r := e.strtoull optarg
    let endp := optarg.drop r.2
    let a1 := { a with bytes := toInt64 r.1 }
    if r.2 = 0 ∨ a1.bytes ≤ 0 then .error (.returned (-1) a1)
    else if endp ≠ [] then
      let mult := e.ubiutils_get_multiplier endp
      if mult = -1 then .error (.returned (-1) a1)
      else .ok { a1 with bytes := toInt64 (a1.bytes * mult) }
    else .ok a1
  | .S =>
    let r := e.strtoull optarg
    let endp := optarg.drop r.2
    let a1 := { a with lebs := toInt32 r.1 }
    if r.2 = 0 ∨ a1.lebs ≤ 0 ∨ endp ≠ [] then .error (.returned (-1) a1) else .ok a1
  | .a =>
    let r := e.strtoul optarg
    let endp := optarg.drop r.2
    let a1 := { a with alignment := toInt32 r.1 }
    if endp ≠ [] ∨ r.2 = 0 ∨ a1.alignment ≤ 0 then .error (.returned (-1) a1) else .ok a1
  | .n =>
    let r := e.strtoul optarg
    let endp := optarg.drop r.2
    let a1 := { a with vol_id := toInt32 r.1 }
    if endp ≠ [] ∨ r.2 = 0 ∨ a1.vol_id < 0 then .error (.returned (-1) a1) else .ok a1
  | .N => .ok { a with name := some optarg, nlen := strlenInt optarg }
  | .h => .error (.exited 0)
  | .V => .error (.exited 0)
  | .m => .ok { a with maxavs := 1 }
  | .colon => .error (.returned (-1) a)
  | .other => .error (.returned (-1) a)

/-- The loop of `parse_opt` (lines 136-225) over the keys that `getopt_long`
returns before it returns -1. -/
def parseLoop (e : Env) (a : Args) : List (Key × CString) → Except Outcome Args
  | [] => .ok a
  | (key, optarg) :: rest =>
    match switchKey e a key optarg with
    | .error o => .error o
    | .ok a1 => parseLoop e a1 rest

/-- The function `parse_opt` (lines 134-241).  `opts` are the keys returned
by `getopt_long`, `rest` the arguments `argv[optind], ..., argv[argc - 1]`
that are left when it returns -1. -/
def parse_opt (e : Env) (opts : List (Key × CString)) (rest : List CString) : Outcome :=
  match parseLoop e (args e) opts with
  | .error o => o
  | .ok a =>
    if rest.length = 0 then .returned (-1) a
    else if rest.length ≠ 1 then .returned (-1) a
    else
      let a1 := { a with node := rest.head? }
      if param_sanity_check e a1 ≠ 0 then .returned (-1) a1 else .returned 0 a1

/-- The fields of `struct ubi_dev_info` that `main` reads. -/
structure DevInfo where
  dev_num : Int
  leb_size : Int
  avail_bytes : Int

/-- The structure `struct ubi_mkvol_request`. -/
structure Request where
  vol_id : Int
  alignment : Int
  bytes : Int
  vol_type : Int
  name : Option CString
  deriving DecidableEq

/-- The functions of libubi that `main` calls.  `libubi_open` tells whether
the library is opened; `ubi_get_dev_info` gives the error code and the device
information; `ubi_mkvol` gives the error code and the volume ID that it
stores in the request. -/
structure Libubi where
  libubi_open : Bool
  ubi_node_type : Option CString → Int
  ubi_get_dev_info : Option CString → Int × DevInfo
  ubi_mkvol : Option CString → Request → Int × Int
  ubi_get_vol_info1 : Int → Int → Int

/-- How `main` ends: it returns, `parse_opt` has called `exit`, or the
remainder of line 287 has a zero divisor. -/
inductive MainOutcome
  | returned (ret : Int)
  | exited (status : Int)
  | divisionByZero
  deriving DecidableEq

/-- A run of `main`: how it ends and the request passed to `ubi_mkvol`, if
`ubi_mkvol` is called. -/
structure MainRun where
  outcome : MainOutcome
  req : Option Request

/-- Lines 286-288: the size in bytes of `args.lebs` eraseblocks, in
`long long` arithmetic; the operator `%` of line 287 on two `int` is the
remainder of the division that truncates. -/
def bytesOfLebs (a : Args) (leb_size : Int) : Int :=
  let b0 := leb_size
  let b1 := toInt64 (b0 - Int.tmod leb_size a.alignment)
  toInt64 (b1 * a.lebs)

/-- Lines 280-289: the value of `args` once the size is known; `none` when
the remainder of line 287 has a zero divisor. -/
def sizeArgs (a : Args) (di : DevInfo) : Option Args :=
  let a1 := if a.maxavs ≠ 0 then { a with bytes := di.avail_bytes } else a
  if a1.lebs ≠ -1 then
    if a1.alignment = 0 then none
    else some { a1 with bytes := bytesOfLebs a1 di.leb_size }
  else some a1

/-- Lines 291-295: the request built from `args`. -/
def requestOf (a : Args) : Request :=
  { vol_id := a.vol_id, alignment := a.alignment, bytes := a.bytes, vol_type := a.vol_type,
    name := a.name }

/-- Lines 255-327: the part of `main` that follows a call of `parse_opt`
that has returned 0 and left `a` in `args`. -/
def createVolume (l : Libubi) (a : Args) : MainRun :=
  if l.libubi_open = false then { outcome := .returned (-1), req := none }
  else
    let nt := l.ubi_node_type a.node
    if nt = 2 then { outcome := .returned (-1), req := none }
    else if nt < 0 then { outcome := .returned (-1), req := none }
    else
      let di := l.ubi_get_dev_info a.node
      if di.1 ≠ 0 then { outcome := .returned (-1), req := none }
      else
        match sizeArgs a di.2 with
        | none => { outcome := .divisionByZero, req := none }
        | some a2 =>
          let req := requestOf a2
          let mk := l.ubi_mkvol a2.node req
          if mk.1 < 0 then { outcome := .returned (-1), req := some req }
          else if l.ubi_get_vol_info1 di.2.dev_num mk.2 ≠ 0 then
            { outcome := .returned (-1), req := some req }
          else { outcome := .returned 0, req := some req }

/-- The function `main` (lines 243-328). -/
def main (e : Env) (l : Libubi) (opts : List (Key × CString)) (rest : List CString) :
    MainRun :=
  match parse_opt e opts rest with
  | .exited st => { outcome := .exited st, req := none }
  | .returned err a =>
    if err ≠ 0 then { outcome := .returned err, req := none } else createVolume l a

/-- The number of size options that are set in `args`: `-s` (`bytes`), `-S`
(`lebs`) and `-m` (`maxavs`). -/
def sizeOptions (a : Args) : Nat :=
  (if a.bytes ≠ -1 then 1 else 0) + (if a.lebs ≠ -1 then 1 else 0) +
    (if a.maxavs ≠ 0 then 1 else 0)

/-- The condition of lines 112-114. -/
def moreThanOneOption (a : Args) : Prop :=
  (a.bytes ≠ -1 ∧ (a.maxavs ≠ 0 ∨ a.lebs ≠ -1)) ∨
    (a.lebs ≠ -1 ∧ (a.maxavs ≠ 0 ∨ a.bytes ≠ -1)) ∨
    (a.maxavs ≠ 0 ∧ (a.bytes ≠ -1 ∨ a.lebs ≠ -1))

/-- An environment for the examples: the constants of `ubi-user.h`, a
`strtoul` that knows the strings `"16"`, `"0"` and `"4294967296"`, and no
multipliers. -/
def sampleEnv : Env :=
  { UBI_MAX_VOLUME_NAME := 127, UBI_VOL_NUM_AUTO := -1, UBI_DYNAMIC_VOLUME := 3,
    UBI_STATIC_VOLUME := 4,
    strtoul := fun s =>
      if s = "16".toList then (16, 2)
      else if s = "0".toList then (0, 1)
      else if s = "4294967296".toList then (4294967296, 10)
      else (0, 0),
    strtoull := fun s =>
      if s = "16".toList then (16, 2)
      else if s = "0".toList then (0, 1)
      else if s = "4294967296".toList then (4294967296, 10)
      else (0, 0),
    ubiutils_get_multiplier := fun _ => -1 }

/-- A device for the examples with eraseblocks of 129030 bytes, on which
every call of libubi succeeds. -/
def sampleLibubi : Libubi :=
  { libubi_open := true, ubi_node_type := fun _ => 1,
    ubi_get_dev_info := fun _ => (0, { dev_num := 0, leb_size := 129030, avail_bytes := 0 }),
    ubi_mkvol := fun _ r => (0, r.vol_id),
    ubi_get_vol_info1 := fun _ _ => 0 }

/-- A name of `2^31` characters. -/
def hugeName : CString := List.replicate 2147483648 (Char.ofNat 97)

/-- Arguments for the examples: the size given in bytes and the name
`hugeName`. -/
def hugeNameArgs : Args := { args sampleEnv with bytes := 1, name := some hugeName }

/-- Arguments for the examples: the size given as 4 eraseblocks and the
name `"vol"`. -/
def sampleArgs : Args := { args sampleEnv with lebs := 4, name := some "vol".toList }

/-- The invariant of the loop of `parse_opt`: `lebs` is -1 or a positive
`int`, and `alignment` is a positive `int`. -/
def ParseInv (a : Args) : Prop :=
  (a.lebs = -1 ∨ (0 < a.lebs ∧ a.lebs < 2147483648)) ∧
    1 ≤ a.alignment ∧ a.alignment < 2147483648

/-- The keys of a command line for the examples: `-a 16 -S 16 -N vol`. -/
def sampleOpts : List (Key × CString) :=
  [(Key.a, "16".toList), (Key.S, "16".toList), (Key.N, "vol".toList)]

/-- The value of `args` after `parse_opt` on `sampleOpts` and the device
`/dev/ubi0`. -/
def sampleParsed : Args :=
  { args sampleEnv with
    alignment := 16, lebs := 16, name := some ("vol".toList), nlen := 3,
    node := some ("/dev/ubi0".toList) }

end Ubimkvol

/-! # Theorems -/

namespace Unubirefimg

/-! ## Runs of the transition system -/

theorem step_of_halted (w : World) (s : State) (h : halted s = true) : step w s = s := by
  cases hpc : s.pc <;> simp [halted, hpc] at h
  simp [step, hpc]

theorem run_of_halted (w : World) (n : Nat) (s : State) (h : halted s = true) :
    run w n s = s := by
  cases n <;> simp [run, h]

theorem run_succ (w : World) (n : Nat) (s : State) :
    run w (n + 1) s = run w n (step w s) := by
  by_cases h : halted s = true
  · rw [step_of_halted w s h, run_of_halted w _ s h, run_of_halted w _ s h]
  · simp [run, h]

theorem run_add (w : World) (a b : Nat) (s : State) :
    run w (a + b) s = run w b (run w a s) := by
  induction a generalizing s with
  | zero => simp [run]
  | succ a ih =>
    rw [Nat.add_right_comm, run_succ, run_succ, ih]

theorem run_succ_last (w : World) (n : Nat) (s : State) :
    run w (n + 1) s = step w (run w n s) := by
  rw [run_add, show run w 1 (run w n s) = step w (run w n s) from by
    rw [run_succ]; rfl]

theorem run_stable (w : World) (s : State) (n m : Nat) (h : halted (run w n s) = true)
    (hnm : n ≤ m) : run w m s = run w n s := by
  obtain ⟨k, rfl⟩ := Nat.exists_eq_add_of_le hnm
  rw [run_add, run_of_halted w k _ h]

theorem le32_lt (bs : List Byte) : le32 bs < UINT_MOD := by
  unfold le32 UINT_MOD
  split
  · rename_i b0 b1 b2 b3
    have h0 := b0.isLt
    have h1 := b1.isLt
    have h2 := b2.isLt
    have h3 := b3.isLt
    omega
  · omega

theorem lnumOf_lt (be : Bool) (bs : List Byte) : lnumOf be bs < UINT_MOD := by
  unfold lnumOf
  split <;> exact le32_lt _

theorem step_WF (w : World) (s : State) (h : WF s) : WF (step w s) := by
  obtain ⟨hi, hl⟩ := h
  have hm : ∀ k, k % UINT_MOD < UINT_MOD := fun k => Nat.mod_lt _ (by unfold UINT_MOD; omega)
  have hz : 0 < UINT_MOD := by unfold UINT_MOD; omega
  have hn := lnumOf_lt w.bigEndian (List.take SIZEOF_UINT s.inp)
  unfold WF
  cases hpc : s.pc <;> simp only [step, hpc] <;> (repeat' split) <;>
    first
      | exact ⟨hi, hl⟩
      | exact ⟨hm _, hl⟩
      | exact ⟨hi, hn⟩
      | exact ⟨hz, hl⟩

theorem run_WF (w : World) (n : Nat) (s : State) (h : WF s) : WF (run w n s) := by
  induction n generalizing s with
  | zero => exact h
  | succ n ih => rw [run_succ]; exact ih _ (step_WF w s h)

theorem initState_WF (w : World) : WF (initState w) := by
  simp [WF, initState, UINT_MOD]

/-! ## Termination -/

theorem gap_lt (i l : Nat) : gap i l < UINT_MOD :=
  Nat.mod_lt _ (by unfold UINT_MOD; omega)

theorem gap_succ (i l : Nat) (hi : i < UINT_MOD) (hl : l < UINT_MOD) (h : i ≠ l) :
    gap ((i + 1) % UINT_MOD) l + 1 = gap i l := by
  unfold gap UINT_MOD at *
  omega

theorem gap_self (i : Nat) : gap i i = 0 := by
  unfold gap UINT_MOD
  omega

theorem gap_eq_sub (i l : Nat) (hil : i ≤ l) (hl : l < UINT_MOD) : gap i l = l - i := by
  unfold gap UINT_MOD at *
  omega

theorem fuel_step (w : World) (s : State) (hwf : WF s) (hh : halted s = false) :
    fuel (step w s) < fuel s := by
  obtain ⟨hi, hl⟩ := hwf
  have hg := gap_lt s.i s.lnum
  have hg0 := gap_lt s.i (lnumOf w.bigEndian (List.take 4 s.inp))
  have hS : UBI_LEB_SIZE = 516096 := rfl
  have h4 : SIZEOF_UINT = 4 := rfl
  have hU : UINT_MOD = 4294967296 := rfl
  cases hpc : s.pc with
  | done r => simp [halted, hpc] at hh
  | fillTest =>
    by_cases hne : s.i = s.lnum
    · simp only [step, hpc, fuel, hne, ne_eq, not_true_eq_false, if_false]
      omega
    · have := gap_succ s.i s.lnum hi hl hne
      simp only [step, hpc, fuel, hne, ne_eq, not_false_eq_true, if_true]
      omega
  | readLnum =>
    simp only [step, hpc, fuel]
    have hlen : (List.take SIZEOF_UINT s.inp).length = min SIZEOF_UINT s.inp.length :=
      List.length_take _ _
    split
    · simp only [fuel]; omega
    · split
      · simp only [fuel, List.length_drop, hU, h4]; omega
      · rename_i h1 h2
        simp only [fuel, List.length_drop, hU, h4]
        have : 4 ≤ s.inp.length := by
          simp only [ne_eq, not_not] at h2
          omega
        omega
  | readData =>
    simp only [step, hpc, fuel]
    have hlen : (List.take UBI_LEB_SIZE s.inp).length = min UBI_LEB_SIZE s.inp.length :=
      List.length_take _ _
    split
    · simp only [fuel, List.length_drop, hU, hS]; omega
    · rename_i h2
      simp only [fuel, List.length_drop, hU, hS]
      have : UBI_LEB_SIZE ≤ s.inp.length := by
        simp only [ne_eq, not_not] at h2
        omega
      omega
  | malloc => simp only [step, hpc, fuel]; split <;> simp only [fuel] <;> omega
  | stat => simp only [step, hpc, fuel]; split <;> simp only [fuel] <;> omega
  | openIn => simp only [step, hpc, fuel]; split <;> simp only [fuel] <;> omega
  | openOut => simp only [step, hpc, fuel]; split <;> simp only [fuel] <;> omega
  | cmpFill => simp only [step, hpc, fuel]; split <;> simp only [fuel] <;> omega
  | fillWrite => simp only [step, hpc, fuel]; split <;> simp only [fuel] <;> omega
  | writeData => simp only [step, hpc, fuel]; split <;> simp only [fuel] <;> omega
  | exitOk => simp only [step, hpc, fuel]; omega
  | outClose1 => simp only [step, hpc, fuel]; omega
  | outClose => simp only [step, hpc, fuel]; omega
  | outFree => simp only [step, hpc, fuel]; omega

theorem run_fuel_halted (w : World) (n : Nat) (s : State) (hwf : WF s) (hn : fuel s ≤ n) :
    halted (run w n s) = true := by
  induction n generalizing s with
  | zero =>
    cases hh : halted s
    · have := fuel_step w s hwf hh
      omega
    · simpa [run] using hh
  | succ n ih =>
    cases hh : halted s
    · have := fuel_step w s hwf hh
      rw [run_succ]
      exact ih _ (step_WF w s hwf) (by omega)
    · rw [run_of_halted w _ s hh]; exact hh

theorem finalState_halted (w : World) : halted (finalState w) = true :=
  run_fuel_halted w _ _ (initState_WF w) (Nat.le_refl _)

/-- Whatever halted state a run reaches is the final state. -/
theorem finalState_eq (w : World) (n : Nat) (s : State)
    (hr : run w n (initState w) = s) (hh : halted s = true) : finalState w = s := by
  subst hr
  unfold finalState
  rcases Nat.le_total n (fuel (initState w)) with h | h
  · exact run_stable w _ _ _ hh h
  · exact (run_stable w _ _ _ (finalState_halted w) h).symm

theorem Reach.refl (w : World) (s : State) : Reach w s s := ⟨0, rfl⟩

theorem Reach.trans {w : World} {s t u : State} (h1 : Reach w s t) (h2 : Reach w t u) :
    Reach w s u := by
  obtain ⟨a, rfl⟩ := h1
  obtain ⟨b, rfl⟩ := h2
  exact ⟨a + b, run_add w a b s⟩

theorem Reach.head {w : World} {s t : State} (h : Reach w (step w s) t) : Reach w s t := by
  obtain ⟨n, rfl⟩ := h
  exact ⟨n + 1, run_succ w n s⟩

theorem Reach.WF {w : World} {s t : State} (h : Reach w s t) (hwf : WF s) : WF t := by
  obtain ⟨n, rfl⟩ := h
  exact run_WF w n s hwf

theorem finalState_of_reach (w : World) (s : State) (hr : Reach w (initState w) s)
    (hh : halted s = true) : finalState w = s := by
  obtain ⟨n, hn⟩ := hr
  exact finalState_eq w n s hn hh

/-! ## The statements of the loop, one at a time -/

theorem step_readLnum_eof (w : World) (s : State) (hpc : s.pc = .readLnum) (hin : s.inp = []) :
    step w s = { s with pc := .exitOk, trace := s.trace ++ [.read SIZEOF_UINT 0] } := by
  simp [step, hpc, hin]

theorem step_readLnum_short (w : World) (s : State) (hpc : s.pc = .readLnum)
    (h0 : s.inp ≠ []) (h4 : s.inp.length < SIZEOF_UINT) :
    step w s = { s with pc := .outClose1, inp := [],
                        trace := s.trace ++ [.read SIZEOF_UINT s.inp.length,
                          .printf .readError] } := by
  have hl : 0 < s.inp.length := List.length_pos.mpr h0
  have ht : List.take SIZEOF_UINT s.inp = s.inp := List.take_of_length_le (by omega)
  have hd : List.drop SIZEOF_UINT s.inp = [] := List.drop_of_length_le (by omega)
  have hne : s.inp.length ≠ SIZEOF_UINT := by omega
  simp [step, hpc, ht, hd, h0, hne]

theorem step_readLnum_full (w : World) (s : State) (hpc : s.pc = .readLnum)
    (hdr rest : List Byte) (hin : s.inp = hdr ++ rest) (hh : hdr.length = SIZEOF_UINT) :
    step w s = { s with pc := .cmpFill, lnum := lnumOf w.bigEndian hdr, inp := rest,
                        trace := s.trace ++ [.read SIZEOF_UINT SIZEOF_UINT] } := by
  have ht : List.take SIZEOF_UINT s.inp = hdr := by
    rw [hin, ← hh, List.take_left]
  have hd : List.drop SIZEOF_UINT s.inp = rest := by
    rw [hin, ← hh, List.drop_left]
  simp only [step, hpc, ht, hd, hh]
  simp [SIZEOF_UINT]

theorem step_cmpFill_ne (w : World) (s : State) (hpc : s.pc = .cmpFill) (h : s.i ≠ s.lnum) :
    step w s = { s with pc := .fillTest, buf := fillBlock } := by
  simp [step, hpc, h, fillBlock]

theorem step_cmpFill_eq (w : World) (s : State) (hpc : s.pc = .cmpFill) (h : s.i = s.lnum) :
    step w s = { s with pc := .fillTest } := by
  simp [step, hpc, h]

theorem step_fillTest_ne (w : World) (s : State) (hpc : s.pc = .fillTest) (h : s.i ≠ s.lnum) :
    step w s = { s with pc := .fillWrite, i := (s.i + 1) % UINT_MOD } := by
  simp [step, hpc, h]

theorem step_fillTest_eq (w : World) (s : State) (hpc : s.pc = .fillTest) (h : s.i = s.lnum) :
    step w s = { s with pc := .readData, i := (s.i + 1) % UINT_MOD } := by
  simp [step, hpc, h]

theorem step_fillWrite_ok (w : World) (s : State) (hpc : s.pc = .fillWrite)
    (h : w.wr s.nwr = (UBI_LEB_SIZE : Int)) :
    step w s = { s with pc := .fillTest, out := s.out ++ s.buf.take UBI_LEB_SIZE,
                        nwr := s.nwr + 1,
                        trace := s.trace ++ [.write UBI_LEB_SIZE UBI_LEB_SIZE] } := by
  simp [step, hpc, h]

theorem step_fillWrite_fail (w : World) (s : State) (hpc : s.pc = .fillWrite)
    (h : w.wr s.nwr ≠ (UBI_LEB_SIZE : Int)) :
    step w s = { s with pc := .outClose1, out := s.out ++ s.buf.take (w.wr s.nwr).toNat,
                        nwr := s.nwr + 1,
                        trace := s.trace ++ [.write UBI_LEB_SIZE (w.wr s.nwr),
                          .printf .writeError] } := by
  simp [step, hpc, h]

theorem step_readData_full (w : World) (s : State) (hpc : s.pc = .readData)
    (data rest : List Byte) (hin : s.inp = data ++ rest) (hd : data.length = UBI_LEB_SIZE) :
    step w s = { s with pc := .writeData, buf := data ++ s.buf.drop UBI_LEB_SIZE, inp := rest,
                        trace := s.trace ++ [.read UBI_LEB_SIZE UBI_LEB_SIZE] } := by
  have ht : List.take UBI_LEB_SIZE s.inp = data := by
    rw [hin, ← hd, List.take_left]
  have hdr : List.drop UBI_LEB_SIZE s.inp = rest := by
    rw [hin, ← hd, List.drop_left]
  simp [step, hpc, ht, hdr, hd]

theorem step_readData_short (w : World) (s : State) (hpc : s.pc = .readData)
    (h : s.inp.length < UBI_LEB_SIZE) :
    step w s = { s with pc := .outClose1, buf := s.inp ++ s.buf.drop s.inp.length, inp := [],
                        trace := s.trace ++ [.read UBI_LEB_SIZE s.inp.length,
                          .printf .readError] } := by
  have ht : List.take UBI_LEB_SIZE s.inp = s.inp := List.take_of_length_le (by omega)
  have hd : List.drop UBI_LEB_SIZE s.inp = [] := List.drop_of_length_le (by omega)
  have hne : s.inp.length ≠ UBI_LEB_SIZE := by omega
  simp [step, hpc, ht, hd, hne]

theorem step_writeData_ok (w : World) (s : State) (hpc : s.pc = .writeData)
    (h : w.wr s.nwr = (UBI_LEB_SIZE : Int)) :
    step w s = { s with pc := .readLnum, out := s.out ++ s.buf.take UBI_LEB_SIZE,
                        nwr := s.nwr + 1,
                        trace := s.trace ++ [.write UBI_LEB_SIZE UBI_LEB_SIZE] } := by
  simp [step, hpc, h]

theorem step_writeData_fail (w : World) (s : State) (hpc : s.pc = .writeData)
    (h : w.wr s.nwr ≠ (UBI_LEB_SIZE : Int)) :
    step w s = { s with pc := .outClose1, out := s.out ++ s.buf.take (w.wr s.nwr).toNat,
                        nwr := s.nwr + 1,
                        trace := s.trace ++ [.write UBI_LEB_SIZE (w.wr s.nwr),
                          .printf .writeError] } := by
  simp [step, hpc, h]

/-- From line 92 the program returns 0 after closing both files. -/
theorem run_exitOk (w : World) (s : State) (hpc : s.pc = .exitOk) :
    run w 1 s = { s with pc := .done 0, trace := s.trace ++ [.close .ifd, .close .ofd] } := by
  simp [run, halted, step, hpc]

/-- From the label `out_close1` the program returns -1 after closing both
files. -/
theorem run_outClose1 (w : World) (s : State) (hpc : s.pc = .outClose1) :
    run w 3 s = { s with pc := .done (-1), trace := s.trace ++ [.close .ofd, .close .ifd] } := by
  simp [run, halted, step, hpc]

/-! ## The fill loop and one pass of the outer loop -/

theorem take_fillBlock : List.take UBI_LEB_SIZE fillBlock = fillBlock :=
  List.take_of_length_le (by simp [fillBlock])

theorem replicate_succ_blocks (d : Nat) :
    fillBlock ++ List.replicate (d * UBI_LEB_SIZE) ERASED =
      List.replicate ((d + 1) * UBI_LEB_SIZE) ERASED := by
  unfold fillBlock
  rw [← List.replicate_add]
  congr 1
  rw [Nat.succ_mul, Nat.add_comm]

theorem run_two (w : World) (s : State) : run w 2 s = step w (step w s) := by
  rw [run_succ, run_succ]
  rfl

/-- The loop `while (i++ != lnum)` of lines 70-76 writes `gap i lnum` fill
blocks in `2 * gap i lnum + 1` statements and leaves the cursor at
`lnum + 1`. -/
theorem fill_loop_steps (w : World) (hw : WritesOk w) (d : Nat) (s : State)
    (hpc : s.pc = .fillTest) (hwf : WF s) (hd : gap s.i s.lnum = d)
    (hb : d ≠ 0 → s.buf = fillBlock) :
    ∃ t, run w (2 * d + 1) s = t ∧ t.pc = .readData ∧ t.i = (s.lnum + 1) % UINT_MOD ∧
      t.lnum = s.lnum ∧ t.inp = s.inp ∧
      t.out = s.out ++ List.replicate (d * UBI_LEB_SIZE) ERASED := by
  induction d generalizing s with
  | zero =>
    have hil : s.i = s.lnum := by
      obtain ⟨hi, hl⟩ := hwf
      unfold gap UINT_MOD at *
      omega
    refine ⟨step w s, by rw [run_succ]; rfl, ?_⟩
    rw [step_fillTest_eq w s hpc hil]
    simp [hil]
  | succ d ih =>
    have hne : s.i ≠ s.lnum := by
      intro h
      rw [h, gap_self] at hd
      omega
    have hg := gap_succ s.i s.lnum hwf.1 hwf.2 hne
    have hbuf := hb (by omega)
    have e1 := step_fillTest_ne w s hpc hne
    have e2 : step w (step w s) =
        { s with pc := .fillTest, i := (s.i + 1) % UINT_MOD, out := s.out ++ fillBlock,
                 nwr := s.nwr + 1,
                 trace := s.trace ++ [.write UBI_LEB_SIZE UBI_LEB_SIZE] } := by
      rw [step_fillWrite_ok w (step w s) (by rw [e1]) (hw _), e1]
      simp [hbuf, take_fillBlock]
    obtain ⟨t, hr, h1, h2, h3, h4, h5⟩ := ih (step w (step w s)) (by rw [e2])
      (step_WF w _ (step_WF w _ hwf)) (by rw [e2]; simp only; omega)
      (by intro _; rw [e2]; exact hbuf)
    refine ⟨t, ?_, h1, ?_, ?_, ?_, ?_⟩
    · rw [show 2 * (d + 1) + 1 = (2 * d + 1) + 1 + 1 from by omega, run_succ, run_succ]
      exact hr
    · rw [h2, e2]
    · rw [h3, e2]
    · rw [h4, e2]
    · rw [h5, e2]
      simp only [List.append_assoc, replicate_succ_blocks]

/-- Lines 68-69: the buffer is filled with 0xFF unless the cursor is at the
index. -/
theorem step_cmpFill (w : World) (s : State) (hpc : s.pc = .cmpFill) :
    ∃ b, step w s = { s with pc := .fillTest, buf := b } ∧
      (gap s.i s.lnum ≠ 0 → b = fillBlock) := by
  by_cases h : s.i = s.lnum
  · refine ⟨s.buf, step_cmpFill_eq w s hpc h, ?_⟩
    intro hg
    rw [h] at hg
    exact absurd (gap_self _) hg
  · exact ⟨fillBlock, step_cmpFill_ne w s hpc h, fun _ => rfl⟩

/-- One pass of the outer loop over a complete record, in
`2 * gap i index + 5` statements: the fill blocks up to the index of the
record, then its payload; the cursor is left one past the index. -/
theorem one_record_steps (w : World) (hw : WritesOk w) (s : State) (hpc : s.pc = .readLnum)
    (hwf : WF s) (r : Record) (hr : r.Complete) (rest : List Byte)
    (hin : s.inp = r.hdr ++ (r.payload ++ rest)) :
    ∃ t, run w (2 * gap s.i (r.index w.bigEndian) + 5) s = t ∧ t.pc = .readLnum ∧
      t.i = (r.index w.bigEndian + 1) % UINT_MOD ∧ t.inp = rest ∧
      t.out = s.out ++ (List.replicate (gap s.i (r.index w.bigEndian) * UBI_LEB_SIZE) ERASED ++
        r.payload) := by
  obtain ⟨hh, hp⟩ := hr
  have e1 := step_readLnum_full w s hpc r.hdr _ hin hh
  -- lines 68-69
  have hwf1 : WF (step w s) := step_WF w s hwf
  obtain ⟨b, e2, hb⟩ := step_cmpFill w (step w s) (by rw [e1])
  have hwf2 : WF (step w (step w s)) := step_WF w _ hwf1
  have hgap : gap (step w (step w s)).i (step w (step w s)).lnum =
      gap s.i (r.index w.bigEndian) := by
    rw [e2, e1]
    rfl
  -- lines 70-76
  obtain ⟨t, hrt, h1, h2, h3, h4, h5⟩ := fill_loop_steps w hw _ (step w (step w s))
    (by rw [e2]) hwf2 hgap (by
      intro hg
      rw [e2]
      apply hb
      rw [e1]
      exact hg)
  rw [e2, e1] at h2 h3 h4 h5
  simp only at h2 h3 h4 h5
  -- lines 79-89
  have e3 := step_readData_full w t h1 r.payload rest h4 hp
  have e4 := step_writeData_ok w (step w t) (by rw [e3]) (hw _)
  refine ⟨step w (step w t), ?_, ?_, ?_, ?_, ?_⟩
  · rw [show 2 * gap s.i (r.index w.bigEndian) + 5 =
      2 + ((2 * gap s.i (r.index w.bigEndian) + 1) + 2) from by omega, run_add, run_add,
      run_two w s, hrt, run_two]
  · rw [e4]
  · rw [e4, e3]; exact h2
  · rw [e4, e3]
  · rw [e4, e3]
    simp only
    rw [List.take_left' hp, h5, Record.index, List.append_assoc]

theorem fill_loop (w : World) (hw : WritesOk w) (d : Nat) (s : State)
    (hpc : s.pc = .fillTest) (hwf : WF s) (hd : gap s.i s.lnum = d)
    (hb : d ≠ 0 → s.buf = fillBlock) :
    ∃ t, Reach w s t ∧ t.pc = .readData ∧ t.i = (s.lnum + 1) % UINT_MOD ∧
      t.lnum = s.lnum ∧ t.inp = s.inp ∧
      t.out = s.out ++ List.replicate (d * UBI_LEB_SIZE) ERASED := by
  obtain ⟨t, hr, h⟩ := fill_loop_steps w hw d s hpc hwf hd hb
  exact ⟨t, ⟨_, hr⟩, h⟩

theorem one_record (w : World) (hw : WritesOk w) (s : State) (hpc : s.pc = .readLnum)
    (hwf : WF s) (r : Record) (hr : r.Complete) (rest : List Byte)
    (hin : s.inp = r.hdr ++ (r.payload ++ rest)) :
    ∃ t, Reach w s t ∧ t.pc = .readLnum ∧ t.i = (r.index w.bigEndian + 1) % UINT_MOD ∧
      t.inp = rest ∧
      t.out = s.out ++ (List.replicate (gap s.i (r.index w.bigEndian) * UBI_LEB_SIZE) ERASED ++
        r.payload) := by
  obtain ⟨t, hrt, h⟩ := one_record_steps w hw s hpc hwf r hr rest hin
  exact ⟨t, ⟨_, hrt⟩, h⟩

/-! ## Whole runs -/

theorem stream_append (rs : List Record) (r : Record) (rest : List Byte) :
    stream (r :: rs) ++ rest = r.hdr ++ (r.payload ++ (stream rs ++ rest)) := by
  simp [stream]

/-- The outer loop over a sequence of complete records. -/
theorem records_loop (w : World) (hw : WritesOk w) (rs : List Record)
    (hrs : ∀ r ∈ rs, r.Complete) (s : State) (hpc : s.pc = .readLnum) (hwf : WF s)
    (rest : List Byte) (hin : s.inp = stream rs ++ rest) :
    ∃ t, Reach w s t ∧ t.pc = .readLnum ∧ t.i = cursorAfter w.bigEndian s.i rs ∧
      t.inp = rest ∧ t.out = s.out ++ expand w.bigEndian s.i rs := by
  induction rs generalizing s with
  | nil => exact ⟨s, Reach.refl w s, hpc, rfl, by simpa [stream] using hin, by simp [expand]⟩
  | cons r rs ih =>
    rw [stream_append] at hin
    obtain ⟨t, hrt, h1, h2, h3, h4⟩ :=
      one_record w hw s hpc hwf r (hrs r (List.mem_cons_self _ _)) _ hin
    obtain ⟨u, hru, g1, g2, g3, g4⟩ :=
      ih (fun x hx => hrs x (List.mem_cons_of_mem _ hx)) t h1 (hrt.WF hwf) h3
    refine ⟨u, hrt.trans hru, g1, ?_, g3, ?_⟩
    · rw [g2, h2]; rfl
    · rw [g4, h4, h2]
      simp only [expand, List.append_assoc]

/-- With the buffer allocated and both files open, the program reaches the
head of the loop with the cursor at 0 and nothing written. -/
theorem prelude (w : World) (ho : FilesOpen w) :
    ∃ t, Reach w (initState w) t ∧ t.pc = .readLnum ∧ t.i = 0 ∧ t.inp = w.input ∧
      t.out = [] ∧ WF t := by
  obtain ⟨h1, h2, h3, h4⟩ := ho
  refine ⟨run w 4 (initState w), ⟨4, rfl⟩, ?_, ?_, ?_, ?_, run_WF w _ _ (initState_WF w)⟩ <;>
    simp [run, halted, step, initState, h1, h2, h3, h4]

/-- At the end of the file the program returns 0. -/
theorem finish_eof (w : World) (s : State) (hpc : s.pc = .readLnum) (hin : s.inp = []) :
    ∃ t, Reach w s t ∧ t.pc = .done 0 ∧ t.out = s.out := by
  have e1 := step_readLnum_eof w s hpc hin
  refine ⟨run w 1 (step w s), Reach.head ⟨1, rfl⟩, ?_, ?_⟩ <;>
    rw [run_exitOk w _ (by rw [e1]), e1]

/-- A file that ends inside an index makes the program return -1. -/
theorem finish_short_hdr (w : World) (s : State) (hpc : s.pc = .readLnum)
    (h0 : s.inp ≠ []) (h4 : s.inp.length < SIZEOF_UINT) :
    ∃ t, Reach w s t ∧ t.pc = .done (-1) ∧ t.out = s.out := by
  have e1 := step_readLnum_short w s hpc h0 h4
  refine ⟨run w 3 (step w s), Reach.head ⟨3, rfl⟩, ?_, ?_⟩ <;>
    rw [run_outClose1 w _ (by rw [e1]), e1]

/-- A file that ends inside a payload makes the program return -1 after the
fill blocks up to the index of the cut record. -/
theorem finish_short_data (w : World) (hw : WritesOk w) (s : State) (hpc : s.pc = .readLnum)
    (hwf : WF s) (hdr part : List Byte) (hin : s.inp = hdr ++ part)
    (hh : hdr.length = SIZEOF_UINT) (hp : part.length < UBI_LEB_SIZE) :
    ∃ t, Reach w s t ∧ t.pc = .done (-1) ∧
      t.out = s.out ++
        List.replicate (gap s.i (lnumOf w.bigEndian hdr) * UBI_LEB_SIZE) ERASED := by
  have e1 := step_readLnum_full w s hpc hdr _ hin hh
  have hwf1 : WF (step w s) := step_WF w s hwf
  have hpc1 : (step w s).pc = .cmpFill := by rw [e1]
  have e2 : ∃ b, step w (step w s) = { step w s with pc := .fillTest, buf := b } ∧
      (gap s.i (lnumOf w.bigEndian hdr) ≠ 0 → b = fillBlock) := by
    by_cases h : (step w s).i = (step w s).lnum
    · refine ⟨(step w s).buf, step_cmpFill_eq w _ hpc1 h, ?_⟩
      intro hg
      rw [e1] at h
      simp only at h
      rw [h] at hg
      exact absurd (gap_self _) hg
    · exact ⟨fillBlock, step_cmpFill_ne w _ hpc1 h, fun _ => rfl⟩
  obtain ⟨b, e2, hb⟩ := e2
  obtain ⟨t, hrt, h1, _, _, h4, h5⟩ := fill_loop w hw _ (step w (step w s)) (by rw [e2])
    (step_WF w _ hwf1) rfl (by
      intro hg
      rw [e2]
      apply hb
      rw [e2, e1] at hg
      exact hg)
  rw [e2, e1] at h4 h5
  simp only at h4 h5
  have e3 := step_readData_short w t h1 (by rw [h4]; exact hp)
  refine ⟨run w 3 (step w t), ?_, ?_, ?_⟩
  · exact Reach.head (Reach.head (hrt.trans (Reach.head ⟨3, rfl⟩)))
  · rw [run_outClose1 w _ (by rw [e3])]
  · rw [run_outClose1 w _ (by rw [e3]), e3]
    exact h5

/-- The result of `main` is read off any halted state that the run reaches. -/
theorem main_of_reach (argc : Nat) (w : World) (t : State) (r : Int)
    (hr : Reach w (initState w) t) (hpc : t.pc = .done r) :
    (main argc w).ret = some r ∧ (main argc w).out = t.out ∧
      (main argc w).trace = t.trace := by
  have hf := finalState_of_reach w t hr (by simp [halted, hpc])
  simp [main, hf, exitCode, hpc]

/-- The image written for a sequence of complete records. -/
theorem main_records (argc : Nat) (w : World) (ho : FilesOpen w) (hw : WritesOk w)
    (rs : List Record) (hrs : ∀ r ∈ rs, r.Complete) (hin : w.input = stream rs) :
    (main argc w).ret = some 0 ∧ (main argc w).out = expand w.bigEndian 0 rs := by
  obtain ⟨t, hrt, h1, h2, h3, h4, hwf⟩ := prelude w ho
  obtain ⟨u, hru, g1, _, g3, g4⟩ :=
    records_loop w hw rs hrs t h1 hwf [] (by rw [h3, hin, List.append_nil])
  obtain ⟨v, hrv, k1, k2⟩ := finish_eof w u g1 g3
  obtain ⟨m1, m2, _⟩ := main_of_reach argc w v 0 (hrt.trans (hru.trans hrv)) k1
  refine ⟨m1, ?_⟩
  rw [m2, k2, g4, h4, h2, List.nil_append]

/-- The image written for a sequence of complete records followed by an
index and a cut payload. -/
theorem main_truncated (argc : Nat) (w : World) (ho : FilesOpen w) (hw : WritesOk w)
    (rs : List Record) (hrs : ∀ r ∈ rs, r.Complete) (hdr part : List Byte)
    (hh : hdr.length = SIZEOF_UINT) (hp : part.length < UBI_LEB_SIZE)
    (hin : w.input = stream rs ++ (hdr ++ part)) :
    (main argc w).ret = some (-1) ∧
      (main argc w).out = expand w.bigEndian 0 rs ++
        List.replicate (gap (cursorAfter w.bigEndian 0 rs) (lnumOf w.bigEndian hdr) *
          UBI_LEB_SIZE) ERASED := by
  obtain ⟨t, hrt, h1, h2, h3, h4, hwf⟩ := prelude w ho
  obtain ⟨u, hru, g1, g2, g3, g4⟩ :=
    records_loop w hw rs hrs t h1 hwf (hdr ++ part) (by rw [h3, hin])
  obtain ⟨v, hrv, k1, k2⟩ := finish_short_data w hw u g1 (hru.WF hwf) hdr part g3 hh hp
  obtain ⟨m1, m2, _⟩ := main_of_reach argc w v (-1) (hrt.trans (hru.trans hrv)) k1
  refine ⟨m1, ?_⟩
  rw [m2, k2, g4, g2, h4, h2, List.nil_append]

/-! ## Blocks of an image -/

theorem blockAt_fill_lt (d a : Nat) (t : List Byte) (h : a < d) :
    blockAt (List.replicate (d * UBI_LEB_SIZE) ERASED ++ t) a = fillBlock := by
  have h1 : a * UBI_LEB_SIZE + UBI_LEB_SIZE ≤ d * UBI_LEB_SIZE := by
    rw [← Nat.succ_mul]
    exact Nat.mul_le_mul_right _ h
  unfold blockAt fillBlock
  rw [List.drop_append_of_le_length (by rw [List.length_replicate]; omega),
    List.drop_replicate, List.take_append_of_le_length (by rw [List.length_replicate]; omega),
    List.take_replicate]
  congr 1
  omega

theorem blockAt_fill_eq (d : Nat) (p t : List Byte) (hp : p.length = UBI_LEB_SIZE) :
    blockAt (List.replicate (d * UBI_LEB_SIZE) ERASED ++ (p ++ t)) d = p := by
  unfold blockAt
  have h : d * UBI_LEB_SIZE = (List.replicate (d * UBI_LEB_SIZE) ERASED).length := by
    rw [List.length_replicate]
  rw [show List.drop (d * UBI_LEB_SIZE) (List.replicate (d * UBI_LEB_SIZE) ERASED ++ (p ++ t))
      = p ++ t from by
    conv_lhs => lhs; rw [h]
    exact List.drop_left _ _]
  exact List.take_left' hp

theorem blockAt_fill_gt (d a : Nat) (p t : List Byte) (hp : p.length = UBI_LEB_SIZE)
    (h : d < a) :
    blockAt (List.replicate (d * UBI_LEB_SIZE) ERASED ++ (p ++ t)) a =
      blockAt t (a - (d + 1)) := by
  unfold blockAt
  have hl : (List.replicate (d * UBI_LEB_SIZE) ERASED ++ p).length = (d + 1) * UBI_LEB_SIZE := by
    rw [List.length_append, List.length_replicate, hp, Nat.succ_mul]
  have hle : (d + 1) * UBI_LEB_SIZE ≤ a * UBI_LEB_SIZE := Nat.mul_le_mul_right _ h
  rw [← List.append_assoc, List.drop_append_eq_append_drop, hl,
    List.drop_of_length_le (by rw [hl]; exact hle), List.nil_append, Nat.sub_mul]

/-! ## The image of a valid stream -/

theorem expand_cons_sorted (be : Bool) (c : Nat) (r : Record) (rs : List Record)
    (hc : c ≤ r.index be) (hb : r.index be + 1 < UINT_MOD) :
    expand be c (r :: rs) =
      List.replicate ((r.index be - c) * UBI_LEB_SIZE) ERASED ++
        (r.payload ++ expand be (r.index be + 1) rs) := by
  rw [expand, gap_eq_sub c _ hc (by omega), Nat.mod_eq_of_lt hb]

theorem cursorAfter_cons_sorted (be : Bool) (c : Nat) (r : Record) (rs : List Record)
    (hb : r.index be + 1 < UINT_MOD) :
    cursorAfter be c (r :: rs) = cursorAfter be (r.index be + 1) rs := by
  rw [cursorAfter, Nat.mod_eq_of_lt hb]

/-- The hypotheses on a stream that the proofs by induction carry: the
records are complete, sorted, at or above the cursor and below `2^32 - 1`. -/
theorem sorted_tail (be : Bool) (c : Nat) (r : Record) (rs : List Record)
    (hs : ((r :: rs).map (Record.index be)).Pairwise (fun a b => a < b))
    (hb : ∀ x ∈ r :: rs, c ≤ x.index be ∧ x.index be + 1 < UINT_MOD) :
    (rs.map (Record.index be)).Pairwise (fun a b => a < b) ∧
      (∀ x ∈ rs, r.index be + 1 ≤ x.index be ∧ x.index be + 1 < UINT_MOD) ∧
      (∀ x ∈ rs, r.index be < x.index be) := by
  rw [List.map_cons, List.pairwise_cons] at hs
  have h3 : ∀ x ∈ rs, r.index be < x.index be :=
    fun x hx => hs.1 _ (List.mem_map_of_mem _ hx)
  exact ⟨hs.2, fun x hx => ⟨h3 x hx, (hb x (List.mem_cons_of_mem _ hx)).2⟩, h3⟩

theorem cursorAfter_sorted (be : Bool) (rs : List Record) (c : Nat)
    (hb : ∀ x ∈ rs, x.index be + 1 < UINT_MOD) :
    cursorAfter be c rs =
      match rs.getLast? with
      | none => c
      | some r => r.index be + 1 := by
  induction rs generalizing c with
  | nil => rfl
  | cons r rs ih =>
    rw [cursorAfter_cons_sorted be c r rs (hb r (List.mem_cons_self _ _))]
    cases rs with
    | nil => rfl
    | cons y ys =>
      rw [ih (r.index be + 1) (fun x hx => hb x (List.mem_cons_of_mem _ hx)),
        List.getLast?_cons_cons]
      cases h : (y :: ys).getLast? with
      | none => simp at h
      | some z => rfl

theorem expand_length_sorted (be : Bool) (rs : List Record) (c : Nat)
    (hc : ∀ r ∈ rs, r.Complete)
    (hs : (rs.map (Record.index be)).Pairwise (fun a b => a < b))
    (hb : ∀ x ∈ rs, c ≤ x.index be ∧ x.index be + 1 < UINT_MOD) :
    c ≤ cursorAfter be c rs ∧
      (expand be c rs).length = (cursorAfter be c rs - c) * UBI_LEB_SIZE := by
  induction rs generalizing c with
  | nil => simp [expand, cursorAfter]
  | cons r rs ih =>
    obtain ⟨hcr, hbr⟩ := hb r (List.mem_cons_self _ _)
    obtain ⟨hs', hb', _⟩ := sorted_tail be c r rs hs hb
    obtain ⟨h1, h2⟩ := ih (r.index be + 1) (fun x hx => hc x (List.mem_cons_of_mem _ hx)) hs' hb'
    rw [expand_cons_sorted be c r rs hcr hbr, cursorAfter_cons_sorted be c r rs hbr]
    refine ⟨by omega, ?_⟩
    rw [List.length_append, List.length_append, List.length_replicate, h2,
      (hc r (List.mem_cons_self _ _)).2]
    have e : cursorAfter be (r.index be + 1) rs - c =
        (r.index be - c) + 1 + (cursorAfter be (r.index be + 1) rs - (r.index be + 1)) := by
      omega
    rw [e, Nat.add_mul, Nat.add_mul, Nat.one_mul, Nat.add_assoc]

theorem blockAt_expand_payload (be : Bool) (rs : List Record) (c : Nat)
    (hc : ∀ r ∈ rs, r.Complete)
    (hs : (rs.map (Record.index be)).Pairwise (fun a b => a < b))
    (hb : ∀ x ∈ rs, c ≤ x.index be ∧ x.index be + 1 < UINT_MOD)
    (r : Record) (hr : r ∈ rs) :
    blockAt (expand be c rs) (r.index be - c) = r.payload := by
  induction rs generalizing c with
  | nil => simp at hr
  | cons x rs ih =>
    obtain ⟨hcx, hbx⟩ := hb x (List.mem_cons_self _ _)
    obtain ⟨hs', hb', hlt⟩ := sorted_tail be c x rs hs hb
    have hpx := (hc x (List.mem_cons_self _ _)).2
    rw [expand_cons_sorted be c x rs hcx hbx]
    rcases List.mem_cons.1 hr with rfl | hmem
    · exact blockAt_fill_eq _ _ _ hpx
    · have hxr := hlt r hmem
      rw [blockAt_fill_gt _ _ _ _ hpx (by omega)]
      have e : r.index be - c - (x.index be - c + 1) = r.index be - (x.index be + 1) := by
        omega
      rw [e]
      exact ih (x.index be + 1) (fun y hy => hc y (List.mem_cons_of_mem _ hy)) hs' hb' hmem

theorem blockAt_expand_fill (be : Bool) (rs : List Record) (c : Nat)
    (hc : ∀ r ∈ rs, r.Complete)
    (hs : (rs.map (Record.index be)).Pairwise (fun a b => a < b))
    (hb : ∀ x ∈ rs, c ≤ x.index be ∧ x.index be + 1 < UINT_MOD)
    (j : Nat) (hcj : c ≤ j) (hmax : ∃ r ∈ rs, j ≤ r.index be)
    (hj : ∀ r ∈ rs, r.index be ≠ j) :
    blockAt (expand be c rs) (j - c) = fillBlock := by
  induction rs generalizing c with
  | nil =>
    obtain ⟨r, hr, _⟩ := hmax
    simp at hr
  | cons x rs ih =>
    obtain ⟨hcx, hbx⟩ := hb x (List.mem_cons_self _ _)
    obtain ⟨hs', hb', hlt⟩ := sorted_tail be c x rs hs hb
    have hpx := (hc x (List.mem_cons_self _ _)).2
    have hjx := hj x (List.mem_cons_self _ _)
    rw [expand_cons_sorted be c x rs hcx hbx]
    rcases Nat.lt_or_gt_of_ne hjx with hlt1 | hgt
    · -- the block lies after the record `x`
      rw [blockAt_fill_gt _ _ _ _ hpx (by omega)]
      have e : j - c - (x.index be - c + 1) = j - (x.index be + 1) := by omega
      rw [e]
      refine ih (x.index be + 1) (fun y hy => hc y (List.mem_cons_of_mem _ hy)) hs' hb'
        (by omega) ?_ (fun y hy => hj y (List.mem_cons_of_mem _ hy))
      obtain ⟨r, hr, hjr⟩ := hmax
      rcases List.mem_cons.1 hr with rfl | hmem
      · omega
      · exact ⟨r, hmem, hjr⟩
    · exact blockAt_fill_lt _ _ _ (by omega)

theorem ValidStream.bounds {be : Bool} {rs : List Record} (h : ValidStream be INT_MAX rs) :
    ∀ x ∈ rs, 0 ≤ x.index be ∧ x.index be + 1 < UINT_MOD := by
  intro x hx
  have := h.2.2 x hx
  unfold INT_MAX at this
  unfold UINT_MOD
  omega

/-! ## Properties of the specification -/

/-- C1: for an input that is a sequence of complete records with strictly
increasing indices below `2^31 - 1`, with the files open and every write
succeeding, `main` returns 0 and writes `(last index + 1) * 516096` bytes;
for the empty input it returns 0 and writes nothing. -/
theorem C1_output_length (argc : Nat) (w : World) (rs : List Record)
    (ho : FilesOpen w) (hw : WritesOk w) (hin : w.input = stream rs)
    (hv : ValidStream w.bigEndian INT_MAX rs) :
    (main argc w).ret = some 0 ∧
      (main argc w).out.length =
        match rs.getLast? with
        | none => 0
        | some r => (r.index w.bigEndian + 1) * 516096 := by
  obtain ⟨m1, m2⟩ := main_records argc w ho hw rs hv.1 hin
  refine ⟨m1, ?_⟩
  obtain ⟨_, h2⟩ := expand_length_sorted w.bigEndian rs 0 hv.1 hv.2.1 hv.bounds
  rw [m2, h2, cursorAfter_sorted w.bigEndian rs 0 (fun x hx => (hv.bounds x hx).2)]
  cases rs.getLast? with
  | none => simp
  | some r => simp [UBI_LEB_SIZE]

/-- C2: for a valid input stream and every record of it, the output block at
the index of the record is the payload of the record, byte for byte. -/
theorem C2_payload_blocks (argc : Nat) (w : World) (rs : List Record)
    (ho : FilesOpen w) (hw : WritesOk w) (hin : w.input = stream rs)
    (hv : ValidStream w.bigEndian INT_MAX rs) (r : Record) (hr : r ∈ rs) :
    ((main argc w).out.drop (r.index w.bigEndian * 516096)).take 516096 = r.payload := by
  obtain ⟨_, m2⟩ := main_records argc w ho hw rs hv.1 hin
  rw [m2]
  exact blockAt_expand_payload w.bigEndian rs 0 hv.1 hv.2.1 hv.bounds r hr

/-- C3: for a valid input stream and every index up to the largest index of
the stream that is the index of no record, the output block at that index is
516096 bytes 0xFF. -/
theorem C3_fill_blocks (argc : Nat) (w : World) (rs : List Record)
    (ho : FilesOpen w) (hw : WritesOk w) (hin : w.input = stream rs)
    (hv : ValidStream w.bigEndian INT_MAX rs) (j : Nat)
    (hmax : ∃ r ∈ rs, j ≤ r.index w.bigEndian) (hj : ∀ r ∈ rs, r.index w.bigEndian ≠ j) :
    ((main argc w).out.drop (j * 516096)).take 516096 = List.replicate 516096 (255 : Byte) := by
  obtain ⟨_, m2⟩ := main_records argc w ho hw rs hv.1 hin
  rw [m2]
  exact blockAt_expand_fill w.bigEndian rs 0 hv.1 hv.2.1 hv.bounds j (Nat.zero_le _) hmax hj

theorem sampleWorld_filesOpen (input : List Byte) : FilesOpen (sampleWorld input) :=
  ⟨rfl, rfl, rfl, rfl⟩

theorem sampleWorld_writesOk (input : List Byte) : WritesOk (sampleWorld input) :=
  fun _ => rfl

theorem sampleRecord_complete (b0 : Nat) (x : Byte) : (sampleRecord b0 x).Complete :=
  ⟨rfl, List.length_replicate _ _⟩

theorem sampleRecord_index (be : Bool) (b0 : Nat) (x : Byte) (h : be = false)
    (hb : b0 < 256) : (sampleRecord b0 x).index be = b0 := by
  subst h
  simp [sampleRecord, Record.index, lnumOf, le32, Fin.ofNat, Nat.mod_eq_of_lt hb]

theorem sampleWorld_index (input : List Byte) (b0 : Nat) (x : Byte) (hb : b0 < 256) :
    (sampleRecord b0 x).index (sampleWorld input).bigEndian = b0 :=
  sampleRecord_index _ b0 x rfl hb

theorem sampleRecords_valid : ValidStream false INT_MAX sampleRecords := by
  refine ⟨?_, ?_, ?_⟩
  · intro r hr
    simp only [sampleRecords, List.mem_cons, List.mem_singleton, List.not_mem_nil,
      or_false] at hr
    rcases hr with rfl | rfl <;> exact sampleRecord_complete _ _
  · simp [sampleRecords, sampleRecord_index]
  · intro r hr
    simp only [sampleRecords, List.mem_cons, List.mem_singleton, List.not_mem_nil,
      or_false] at hr
    rcases hr with rfl | rfl <;> simp [sampleRecord_index, INT_MAX]

/-- C1 at the stream with records 2 and 5: six blocks are written. -/
theorem C1_output_length_witness :
    FilesOpen (sampleWorld (stream sampleRecords)) ∧
      WritesOk (sampleWorld (stream sampleRecords)) ∧
      ValidStream false INT_MAX sampleRecords ∧
      (main 3 (sampleWorld (stream sampleRecords))).ret = some 0 ∧
      (main 3 (sampleWorld (stream sampleRecords))).out.length = 6 * 516096 := by
  have h := C1_output_length 3 (sampleWorld (stream sampleRecords)) sampleRecords
    (sampleWorld_filesOpen _) (sampleWorld_writesOk _) rfl sampleRecords_valid
  refine ⟨sampleWorld_filesOpen _, sampleWorld_writesOk _, sampleRecords_valid, h.1, ?_⟩
  rw [h.2]
  simp [sampleRecords, sampleWorld, sampleRecord_index]

/-- C2 at the stream with records 2 and 5: block 5 is the second payload. -/
theorem C2_payload_blocks_witness :
    FilesOpen (sampleWorld (stream sampleRecords)) ∧
      WritesOk (sampleWorld (stream sampleRecords)) ∧
      ValidStream false INT_MAX sampleRecords ∧
      sampleRecord 5 9 ∈ sampleRecords ∧
      ((main 3 (sampleWorld (stream sampleRecords))).out.drop (5 * 516096)).take 516096 =
        List.replicate UBI_LEB_SIZE 9 := by
  have hm : sampleRecord 5 9 ∈ sampleRecords := by simp [sampleRecords]
  have h := C2_payload_blocks 3 (sampleWorld (stream sampleRecords)) sampleRecords
    (sampleWorld_filesOpen _) (sampleWorld_writesOk _) rfl sampleRecords_valid _ hm
  refine ⟨sampleWorld_filesOpen _, sampleWorld_writesOk _, sampleRecords_valid, hm, ?_⟩
  rw [show Record.index (sampleWorld (stream sampleRecords)).bigEndian (sampleRecord 5 9) = 5
    from sampleRecord_index _ _ _ rfl (by omega)] at h
  exact h

/-- C3 at the stream with records 2 and 5: block 3 is a fill block. -/
theorem C3_fill_blocks_witness :
    FilesOpen (sampleWorld (stream sampleRecords)) ∧
      WritesOk (sampleWorld (stream sampleRecords)) ∧
      ValidStream false INT_MAX sampleRecords ∧
      (∃ r ∈ sampleRecords, 3 ≤ r.index false) ∧
      (∀ r ∈ sampleRecords, r.index false ≠ 3) ∧
      ((main 3 (sampleWorld (stream sampleRecords))).out.drop (3 * 516096)).take 516096 =
        List.replicate 516096 (255 : Byte) := by
  have hmax : ∃ r ∈ sampleRecords, 3 ≤ r.index false :=
    ⟨sampleRecord 5 9, by simp [sampleRecords], by simp [sampleRecord_index]⟩
  have hj : ∀ r ∈ sampleRecords, r.index false ≠ 3 := by
    intro r hr
    simp only [sampleRecords, List.mem_cons, List.mem_singleton, List.not_mem_nil,
      or_false] at hr
    rcases hr with rfl | rfl <;> simp [sampleRecord_index]
  exact ⟨sampleWorld_filesOpen _, sampleWorld_writesOk _, sampleRecords_valid, hmax, hj,
    C3_fill_blocks 3 (sampleWorld (stream sampleRecords)) sampleRecords
      (sampleWorld_filesOpen _) (sampleWorld_writesOk _) rfl sampleRecords_valid 3 hmax hj⟩

/-- From the head of the loop, with every write succeeding, the program
returns 0 when the rest of the file is a whole number of records and -1
otherwise. -/
theorem any_input (w : World) (hw : WritesOk w) (n : Nat) (s : State)
    (hpc : s.pc = .readLnum) (hwf : WF s) (hn : s.inp.length = n) :
    ∃ t, Reach w s t ∧
      t.pc = .done (if n % (SIZEOF_UINT + UBI_LEB_SIZE) = 0 then 0 else -1) := by
  have h4 : SIZEOF_UINT = 4 := rfl
  have hS : UBI_LEB_SIZE = 516096 := rfl
  induction n using Nat.strong_induction_on generalizing s with
  | _ n ih =>
    by_cases h0 : n = 0
    · have hnil : s.inp = [] := List.length_eq_zero.mp (by omega)
      obtain ⟨t, hr, h1, _⟩ := finish_eof w s hpc hnil
      exact ⟨t, hr, by rw [h1, h0]; simp⟩
    by_cases h1 : n < SIZEOF_UINT
    · have hne : s.inp ≠ [] := by
        intro h
        rw [h] at hn
        simp at hn
        omega
      obtain ⟨t, hr, h2, _⟩ := finish_short_hdr w s hpc hne (by omega)
      refine ⟨t, hr, ?_⟩
      rw [h2, if_neg]
      rw [Nat.mod_eq_of_lt (by omega)]
      exact h0
    have hsplit : s.inp = s.inp.take SIZEOF_UINT ++ s.inp.drop SIZEOF_UINT :=
      (List.take_append_drop _ _).symm
    have hlen : (s.inp.take SIZEOF_UINT).length = SIZEOF_UINT := by
      rw [List.length_take]
      omega
    by_cases h2 : n < SIZEOF_UINT + UBI_LEB_SIZE
    · obtain ⟨t, hr, h3, _⟩ := finish_short_data w hw s hpc hwf _ _ hsplit hlen
        (by rw [List.length_drop]; omega)
      refine ⟨t, hr, ?_⟩
      rw [h3, if_neg]
      rw [Nat.mod_eq_of_lt h2]
      exact h0
    · have hsplit2 : s.inp.drop SIZEOF_UINT =
          (s.inp.drop SIZEOF_UINT).take UBI_LEB_SIZE ++
            (s.inp.drop SIZEOF_UINT).drop UBI_LEB_SIZE :=
        (List.take_append_drop _ _).symm
      have hlen2 : ((s.inp.drop SIZEOF_UINT).take UBI_LEB_SIZE).length = UBI_LEB_SIZE := by
        rw [List.length_take, List.length_drop]
        omega
      obtain ⟨t, hr, g1, _, g3, _⟩ := one_record w hw s hpc hwf
        ⟨s.inp.take SIZEOF_UINT, (s.inp.drop SIZEOF_UINT).take UBI_LEB_SIZE⟩ ⟨hlen, hlen2⟩
        ((s.inp.drop SIZEOF_UINT).drop UBI_LEB_SIZE) (by
          simp only
          rw [← hsplit2, ← hsplit])
      have hlt : ((s.inp.drop SIZEOF_UINT).drop UBI_LEB_SIZE).length =
          n - (SIZEOF_UINT + UBI_LEB_SIZE) := by
        rw [List.length_drop, List.length_drop]
        omega
      obtain ⟨u, hru, k1⟩ := ih (n - (SIZEOF_UINT + UBI_LEB_SIZE)) (by omega) t g1
        (hr.WF hwf) (by rw [g3, hlt])
      refine ⟨u, hr.trans hru, ?_⟩
      rw [k1]
      have hmod : (n - (SIZEOF_UINT + UBI_LEB_SIZE)) % (SIZEOF_UINT + UBI_LEB_SIZE) =
          n % (SIZEOF_UINT + UBI_LEB_SIZE) := by
        conv_rhs => rw [show n = n - (SIZEOF_UINT + UBI_LEB_SIZE) + (SIZEOF_UINT + UBI_LEB_SIZE)
          from by omega]
        rw [Nat.add_mod_right]
      rw [hmod]

/-- C4: with the files open and every write succeeding, `main` returns 0 if
and only if the length of the input is a multiple of `4 + 516096`; any other
input (one that ends inside an index or inside a payload) makes it return
-1. -/
theorem C4_return_iff_record_boundary (argc : Nat) (w : World) (ho : FilesOpen w)
    (hw : WritesOk w) :
    ((main argc w).ret = some 0 ↔ w.input.length % (4 + 516096) = 0) ∧
      (w.input.length % (4 + 516096) ≠ 0 → (main argc w).ret = some (-1)) := by
  obtain ⟨t, hrt, h1, _, h3, _, hwf⟩ := prelude w ho
  obtain ⟨u, hru, k1⟩ := any_input w hw _ t h1 hwf rfl
  obtain ⟨m1, _, _⟩ := main_of_reach argc w u _ (hrt.trans hru) k1
  rw [h3, show SIZEOF_UINT + UBI_LEB_SIZE = 4 + 516096 from rfl] at m1
  rw [m1]
  by_cases h : w.input.length % (4 + 516096) = 0
  · simp [h]
  · simp [h]

/-- C4 at an input of three bytes, which ends inside an index. -/
theorem C4_return_iff_record_boundary_witness :
    FilesOpen (sampleWorld [0, 0, 0]) ∧ WritesOk (sampleWorld [0, 0, 0]) ∧
      (((main 3 (sampleWorld [0, 0, 0])).ret = some 0 ↔
          (sampleWorld [0, 0, 0]).input.length % (4 + 516096) = 0) ∧
        ((sampleWorld [0, 0, 0]).input.length % (4 + 516096) ≠ 0 →
          (main 3 (sampleWorld [0, 0, 0])).ret = some (-1))) :=
  ⟨sampleWorld_filesOpen _, sampleWorld_writesOk _,
    C4_return_iff_record_boundary 3 (sampleWorld [0, 0, 0]) (sampleWorld_filesOpen _)
      (sampleWorld_writesOk _)⟩

theorem le32_enc (k : Nat) (hk : k < UINT_MOD) :
    le32 [Fin.ofNat k, Fin.ofNat (k / 256), Fin.ofNat (k / 65536), Fin.ofNat (k / 16777216)]
      = k := by
  unfold UINT_MOD at hk
  simp only [le32, Fin.ofNat]
  omega

theorem lnumOf_encLnum (be : Bool) (k : Nat) (hk : k < UINT_MOD) :
    lnumOf be (encLnum be k) = k := by
  cases be
  · simpa [lnumOf, encLnum] using le32_enc k hk
  · simpa [lnumOf, encLnum] using le32_enc k hk

theorem length_encLnum (be : Bool) (k : Nat) : (encLnum be k).length = SIZEOF_UINT := by
  cases be <;> rfl

/-- C5: for an input made of a valid sequence of complete records followed by
a larger index and fewer than 516096 payload bytes, `main`
returns -1 and the bytes written are the output for the complete records
followed by the whole fill blocks of the gap up to the index of the cut
record, and nothing else. -/
theorem C5_truncated_payload (argc : Nat) (w : World) (rs : List Record)
    (hdr part : List Byte) (ho : FilesOpen w) (hw : WritesOk w)
    (hv : ValidStream w.bigEndian INT_MAX rs) (hh : hdr.length = 4)
    (hp : part.length < 516096)
    (hk : ∀ r ∈ rs, r.index w.bigEndian < lnumOf w.bigEndian hdr)
    (hin : w.input = stream rs ++ (hdr ++ part)) :
    (main argc w).ret = some (-1) ∧
      (main argc w).out =
        (main argc { w with input := stream rs }).out ++
          List.replicate
            ((lnumOf w.bigEndian hdr -
                match rs.getLast? with
                | none => 0
                | some r => r.index w.bigEndian + 1) * 516096)
            (255 : Byte) := by
  obtain ⟨m1, m2⟩ := main_truncated argc w ho hw rs hv.1 hdr part hh hp hin
  obtain ⟨_, p2⟩ := main_records argc { w with input := stream rs } ho hw rs hv.1 rfl
  refine ⟨m1, ?_⟩
  rw [m2, p2]
  have hc := cursorAfter_sorted w.bigEndian rs 0 (fun x hx => (hv.bounds x hx).2)
  have hle : cursorAfter w.bigEndian 0 rs ≤ lnumOf w.bigEndian hdr := by
    rw [hc]
    cases hl : rs.getLast? with
    | none => exact Nat.zero_le _
    | some r => exact hk r (List.mem_of_getLast?_eq_some hl)
  have hU : lnumOf w.bigEndian hdr < UINT_MOD := lnumOf_lt _ _
  rw [gap_eq_sub _ _ hle hU, hc]
  rfl

/-- C7: the input holding the single record with index `k` (below
`2^31 - 1`) and payload `P` makes `main` return 0 and write `k` fill blocks
followed by `P`, that is `k + 1` blocks. -/
theorem C7_single_record (argc : Nat) (w : World) (k : Nat) (P : List Byte)
    (ho : FilesOpen w) (hw : WritesOk w) (hk : k < 2147483647) (hP : P.length = 516096)
    (hin : w.input = encLnum w.bigEndian k ++ P) :
    (main argc w).ret = some 0 ∧
      (main argc w).out = List.replicate (k * 516096) (255 : Byte) ++ P ∧
      (main argc w).out.length = (k + 1) * 516096 := by
  have hkU : k < UINT_MOD := by unfold UINT_MOD; omega
  have hidx : Record.index w.bigEndian ⟨encLnum w.bigEndian k, P⟩ = k :=
    lnumOf_encLnum _ _ hkU
  obtain ⟨m1, m2⟩ := main_records argc w ho hw [⟨encLnum w.bigEndian k, P⟩]
    (by
      intro r hr
      rw [List.mem_singleton] at hr
      subst hr
      exact ⟨length_encLnum _ _, hP⟩)
    (by rw [hin]; simp [stream])
  have hout : (main argc w).out = List.replicate (k * 516096) (255 : Byte) ++ P := by
    rw [m2]
    simp only [expand, hidx, List.append_nil]
    rw [gap_eq_sub 0 k (Nat.zero_le _) hkU]
    rfl
  refine ⟨m1, hout, ?_⟩
  rw [hout, List.length_append, List.length_replicate, hP]
  omega

/-- C5 at the records 2 and 5 followed by the index 8 and two payload bytes:
the two fill blocks 6 and 7 follow the output for the records. -/
theorem C5_truncated_payload_witness :
    FilesOpen (sampleWorld (stream sampleRecords ++ ([8, 0, 0, 0] ++ [3, 3]))) ∧
      WritesOk (sampleWorld (stream sampleRecords ++ ([8, 0, 0, 0] ++ [3, 3]))) ∧
      ValidStream false INT_MAX sampleRecords ∧
      (∀ r ∈ sampleRecords, r.index false < lnumOf false [8, 0, 0, 0]) ∧
      (main 3 (sampleWorld (stream sampleRecords ++ ([8, 0, 0, 0] ++ [3, 3])))).ret =
        some (-1) ∧
      (main 3 (sampleWorld (stream sampleRecords ++ ([8, 0, 0, 0] ++ [3, 3])))).out =
        (main 3 (sampleWorld (stream sampleRecords))).out ++
          List.replicate (2 * 516096) (255 : Byte) := by
  have hk : ∀ r ∈ sampleRecords, r.index false < lnumOf false [8, 0, 0, 0] := by
    intro r hr
    simp only [sampleRecords, List.mem_cons, List.mem_singleton, List.not_mem_nil,
      or_false] at hr
    rcases hr with rfl | rfl <;> simp [sampleRecord_index, lnumOf, le32] <;> decide
  have h := C5_truncated_payload 3
    (sampleWorld (stream sampleRecords ++ ([8, 0, 0, 0] ++ [3, 3]))) sampleRecords
    [8, 0, 0, 0] [3, 3] (sampleWorld_filesOpen _) (sampleWorld_writesOk _)
    sampleRecords_valid rfl (by simp) hk rfl
  refine ⟨sampleWorld_filesOpen _, sampleWorld_writesOk _, sampleRecords_valid, hk, h.1, ?_⟩
  rw [h.2]
  congr 3

/-- C7 at the index 5: five fill blocks, then the payload. -/
theorem C7_single_record_witness :
    FilesOpen (sampleWorld (encLnum false 5 ++ List.replicate 516096 9)) ∧
      WritesOk (sampleWorld (encLnum false 5 ++ List.replicate 516096 9)) ∧
      (main 3 (sampleWorld (encLnum false 5 ++ List.replicate 516096 9))).ret = some 0 ∧
      (main 3 (sampleWorld (encLnum false 5 ++ List.replicate 516096 9))).out =
        List.replicate (5 * 516096) (255 : Byte) ++ List.replicate 516096 9 ∧
      (main 3 (sampleWorld (encLnum false 5 ++ List.replicate 516096 9))).out.length =
        (5 + 1) * 516096 :=
  ⟨sampleWorld_filesOpen _, sampleWorld_writesOk _,
    C7_single_record 3 (sampleWorld (encLnum false 5 ++ List.replicate 516096 9)) 5
      (List.replicate 516096 9) (sampleWorld_filesOpen _) (sampleWorld_writesOk _)
      (by omega) (List.length_replicate _ _) rfl⟩

/-! ## Invariants -/

theorem initState_Inv (w : World) : Inv (initState w) := by
  simp [Inv, initState]

theorem step_Inv (w : World) (s : State) (h : Inv s) : Inv (step w s) := by
  have hU : UINT_MOD = 4294967296 := rfl
  unfold Inv at h
  cases hpc : s.pc with
  | malloc => rw [hpc] at h; simp only [step, hpc]; split <;> simp [Inv, h.1, h.2]
  | stat => rw [hpc] at h; simp only [step, hpc]; split <;> simp [Inv, h.1, h.2]
  | openIn => rw [hpc] at h; simp only [step, hpc]; split <;> simp [Inv, h.1, h.2]
  | openOut =>
    rw [hpc] at h
    simp only [step, hpc]
    split
    · simp [Inv, h.1, h.2]
    · simp [Inv]
  | readLnum =>
    rw [hpc] at h
    simp only [step, hpc]
    split
    · exact h
    · split
      · trivial
      · exact h
  | cmpFill =>
    rw [hpc] at h
    simp only [step, hpc]
    split
    · exact ⟨h.1, h.2, fun _ => by simp⟩
    · rename_i hne
      exact ⟨h.1, h.2, fun hc => absurd hc hne⟩
  | fillTest =>
    rw [hpc] at h
    simp only at h
    obtain ⟨h1, h2, h3⟩ := h
    simp only [step, hpc]
    split
    · rename_i hne
      refine ⟨h1, ?_, h3 hne⟩
      show (s.i + 1) % UINT_MOD = (s.nwr + 1) % UINT_MOD
      rw [hU] at h2 ⊢
      omega
    · refine ⟨h1, ?_⟩
      show (s.i + 1) % UINT_MOD = (s.nwr + 1) % UINT_MOD
      rw [hU] at h2 ⊢
      omega
  | fillWrite =>
    rw [hpc] at h
    simp only at h
    obtain ⟨h1, h2, h3⟩ := h
    simp only [step, hpc]
    split
    · trivial
    · rename_i hr
      simp only [ne_eq, not_not] at hr
      refine ⟨?_, h2, fun _ => h3⟩
      show (s.out ++ s.buf.take (w.wr s.nwr).toNat).length = UBI_LEB_SIZE * (s.nwr + 1)
      rw [hr, Int.toNat_ofNat, List.length_append, List.length_take, h1, Nat.min_eq_left h3,
        Nat.mul_succ]
  | readData =>
    rw [hpc] at h
    simp only at h
    obtain ⟨h1, h2⟩ := h
    simp only [step, hpc]
    split
    · trivial
    · rename_i hr
      simp only [ne_eq, not_not] at hr
      refine ⟨h1, h2, ?_⟩
      show UBI_LEB_SIZE ≤ (s.inp.take UBI_LEB_SIZE ++ _).length
      rw [List.length_append, hr]
      omega
  | writeData =>
    rw [hpc] at h
    simp only at h
    obtain ⟨h1, h2, h3⟩ := h
    simp only [step, hpc]
    split
    · trivial
    · rename_i hr
      simp only [ne_eq, not_not] at hr
      refine ⟨?_, h2⟩
      show (s.out ++ s.buf.take (w.wr s.nwr).toNat).length = UBI_LEB_SIZE * (s.nwr + 1)
      rw [hr, Int.toNat_ofNat, List.length_append, List.length_take, h1, Nat.min_eq_left h3,
        Nat.mul_succ]
  | exitOk =>
    rw [hpc] at h
    simp only [step, hpc]
    exact fun _ => h
  | outClose1 => simp only [step, hpc]; trivial
  | outClose => simp only [step, hpc]; trivial
  | outFree =>
    simp only [step, hpc]
    intro hc
    simp at hc
  | done r => rw [step_of_halted w s (by simp [halted, hpc])]; unfold Inv; rw [hpc]; rw [hpc] at h; exact h

theorem run_Inv (w : World) (n : Nat) (s : State) (h : Inv s) : Inv (run w n s) := by
  induction n generalizing s with
  | zero => exact h
  | succ n ih => rw [run_succ]; exact ih _ (step_Inv w s h)

theorem countWrites_append (a b : List Event) :
    countWrites (a ++ b) = countWrites a + countWrites b := by
  simp [countWrites, List.countP_append]

theorem traceInv_append_other (s : State) (es : List Event) (h : TraceInv s)
    (hes : ∀ e ∈ es, e.isWrite = false) :
    (∀ e ∈ s.trace ++ es, ∀ c r, e = Event.write c r → c = UBI_LEB_SIZE) ∧
      s.nwr = countWrites (s.trace ++ es) := by
  refine ⟨?_, ?_⟩
  · intro e he c r hcr
    rcases List.mem_append.1 he with h1 | h1
    · exact h.1 e h1 c r hcr
    · have := hes e h1
      rw [hcr] at this
      simp [Event.isWrite] at this
  · rw [countWrites_append, ← h.2]
    have : countWrites es = 0 := by
      unfold countWrites
      rw [List.countP_eq_zero]
      intro e he
      simp [hes e he]
    omega

theorem traceInv_append_write (s : State) (r : Int) (es : List Event) (h : TraceInv s)
    (hes : ∀ e ∈ es, e.isWrite = false) :
    (∀ e ∈ s.trace ++ [Event.write UBI_LEB_SIZE r] ++ es,
        ∀ c r, e = Event.write c r → c = UBI_LEB_SIZE) ∧
      s.nwr + 1 = countWrites (s.trace ++ [Event.write UBI_LEB_SIZE r] ++ es) := by
  refine ⟨?_, ?_⟩
  · intro e he c r' hcr
    rcases List.mem_append.1 he with h1 | h1
    · rcases List.mem_append.1 h1 with h2 | h2
      · exact h.1 e h2 c r' hcr
      · rw [List.mem_singleton] at h2
        rw [h2] at hcr
        injection hcr with hc _
        exact hc.symm
    · have := hes e h1
      rw [hcr] at this
      simp [Event.isWrite] at this
  · rw [countWrites_append, countWrites_append, ← h.2]
    have h0 : countWrites es = 0 := by
      unfold countWrites
      rw [List.countP_eq_zero]
      intro e he
      simp [hes e he]
    have h1 : countWrites [Event.write UBI_LEB_SIZE r] = 1 := by
      simp [countWrites, Event.isWrite]
    omega

theorem initState_TraceInv (w : World) : TraceInv (initState w) := by
  simp [TraceInv, initState, countWrites]

theorem step_TraceInv (w : World) (s : State) (h : TraceInv s) : TraceInv (step w s) := by
  have hnil := traceInv_append_other s [] h (by simp)
  rw [List.append_nil] at hnil
  cases hpc : s.pc with
  | fillWrite =>
    simp only [step, hpc]
    split
    · have := traceInv_append_write s (w.wr s.nwr) [.printf .writeError] h
        (by simp [Event.isWrite])
      exact this
    · have := traceInv_append_write s (w.wr s.nwr) [] h (by simp)
      rw [List.append_nil] at this
      exact this
  | writeData =>
    simp only [step, hpc]
    split
    · have := traceInv_append_write s (w.wr s.nwr) [.printf .writeError] h
        (by simp [Event.isWrite])
      exact this
    · have := traceInv_append_write s (w.wr s.nwr) [] h (by simp)
      rw [List.append_nil] at this
      exact this
  | malloc =>
    simp only [step, hpc]
    split
    · exact hnil
    · exact traceInv_append_other s _ h (by simp [Event.isWrite])
  | stat =>
    simp only [step, hpc]
    split <;> exact traceInv_append_other s _ h (by simp [Event.isWrite])
  | openIn =>
    simp only [step, hpc]
    split <;> exact traceInv_append_other s _ h (by simp [Event.isWrite])
  | openOut =>
    simp only [step, hpc]
    split <;> exact traceInv_append_other s _ h (by simp [Event.isWrite])
  | readLnum =>
    simp only [step, hpc]
    split
    · exact traceInv_append_other s _ h (by simp [Event.isWrite])
    · split
      · have := traceInv_append_other s
          [.read SIZEOF_UINT (List.take SIZEOF_UINT s.inp).length, .printf .readError] h
          (by simp [Event.isWrite])
        simpa [TraceInv] using this
      · exact traceInv_append_other s _ h (by simp [Event.isWrite])
  | readData =>
    simp only [step, hpc]
    split
    · have := traceInv_append_other s
        [.read UBI_LEB_SIZE (List.take UBI_LEB_SIZE s.inp).length, .printf .readError] h
        (by simp [Event.isWrite])
      simpa [TraceInv] using this
    · exact traceInv_append_other s _ h (by simp [Event.isWrite])
  | cmpFill => simp only [step, hpc]; split <;> exact hnil
  | fillTest => simp only [step, hpc]; split <;> exact hnil
  | exitOk =>
    simp only [step, hpc]
    exact traceInv_append_other s _ h (by simp [Event.isWrite])
  | outClose1 =>
    simp only [step, hpc]
    exact traceInv_append_other s _ h (by simp [Event.isWrite])
  | outClose =>
    simp only [step, hpc]
    exact traceInv_append_other s _ h (by simp [Event.isWrite])
  | outFree => simp only [step, hpc]; exact hnil
  | done r => rw [step_of_halted w s (by simp [halted, hpc])]; exact h

theorem run_TraceInv (w : World) (n : Nat) (s : State) (h : TraceInv s) :
    TraceInv (run w n s) := by
  induction n generalizing s with
  | zero => exact h
  | succ n ih => rw [run_succ]; exact ih _ (step_TraceInv w s h)

/-- With every write succeeding the destination always holds `nwr` whole
blocks. -/
theorem step_out_length (w : World) (hw : WritesOk w) (s : State) (hi : Inv s)
    (h : s.out.length = UBI_LEB_SIZE * s.nwr) :
    (step w s).out.length = UBI_LEB_SIZE * (step w s).nwr := by
  cases hpc : s.pc with
  | fillWrite =>
    unfold Inv at hi
    rw [hpc] at hi
    rw [step_fillWrite_ok w s hpc (hw _)]
    simp only [List.length_append, List.length_take, Nat.min_eq_left hi.2.2, h, Nat.mul_succ]
  | writeData =>
    unfold Inv at hi
    rw [hpc] at hi
    rw [step_writeData_ok w s hpc (hw _)]
    simp only [List.length_append, List.length_take, Nat.min_eq_left hi.2.2, h, Nat.mul_succ]
  | readLnum => simp only [step, hpc]; split <;> [exact h; (split <;> exact h)]
  | done r => rw [step_of_halted w s (by simp [halted, hpc])]; exact h
  | malloc => simp only [step, hpc]; split <;> exact h
  | stat => simp only [step, hpc]; split <;> exact h
  | openIn => simp only [step, hpc]; split <;> exact h
  | openOut => simp only [step, hpc]; split <;> exact h
  | cmpFill => simp only [step, hpc]; split <;> exact h
  | fillTest => simp only [step, hpc]; split <;> exact h
  | readData => simp only [step, hpc]; split <;> exact h
  | exitOk => simp only [step, hpc]; exact h
  | outClose1 => simp only [step, hpc]; exact h
  | outClose => simp only [step, hpc]; exact h
  | outFree => simp only [step, hpc]; exact h

theorem run_out_length (w : World) (hw : WritesOk w) (n : Nat) (s : State) (hi : Inv s)
    (h : s.out.length = UBI_LEB_SIZE * s.nwr) :
    (run w n s).out.length = UBI_LEB_SIZE * (run w n s).nwr := by
  induction n generalizing s with
  | zero => exact h
  | succ n ih => rw [run_succ]; exact ih _ (step_Inv w s hi) (step_out_length w hw s hi h)

/-- C6: whatever the input and however the run ends, every `write` that
`main` issues asks for 516096 bytes; with every write succeeding the number
of bytes written is 516096 times the number of writes, a multiple of
516096. -/
theorem C6_whole_block_writes (argc : Nat) (w : World) :
    (∀ e ∈ (main argc w).trace, ∀ c r, e = Event.write c r → c = 516096) ∧
      (WritesOk w →
        (main argc w).out.length = 516096 * countWrites (main argc w).trace ∧
          (main argc w).out.length % 516096 = 0) := by
  have ht := run_TraceInv w (fuel (initState w)) _ (initState_TraceInv w)
  refine ⟨ht.1, ?_⟩
  intro hw
  have hl := run_out_length w hw (fuel (initState w)) _ (initState_Inv w) rfl
  have e : (main argc w).out.length = 516096 * countWrites (main argc w).trace := by
    show (finalState w).out.length = UBI_LEB_SIZE * countWrites (finalState w).trace
    unfold finalState
    rw [hl, ht.2]
  exact ⟨e, by rw [e]; exact Nat.mul_mod_right _ _⟩

/-- C6 at two complete records followed by two bytes of an index. -/
theorem C6_whole_block_writes_witness :
    WritesOk (sampleWorld (stream sampleRecords ++ [0, 1])) ∧
      (main 3 (sampleWorld (stream sampleRecords ++ [0, 1]))).out.length =
        516096 * countWrites (main 3 (sampleWorld (stream sampleRecords ++ [0, 1]))).trace ∧
      (main 3 (sampleWorld (stream sampleRecords ++ [0, 1]))).out.length % 516096 = 0 :=
  ⟨sampleWorld_writesOk _,
    (C6_whole_block_writes 3 (sampleWorld (stream sampleRecords ++ [0, 1]))).2
      (sampleWorld_writesOk _)⟩

theorem lnumOf_ff : lnumOf false [255, 255, 255, 255] = 4294967295 := by
  decide

/-- C8 fails as stated.  On the input that holds the index 0 and no payload
the cursor is 1 after the fill loop, when the payload is about to be read,
and still 1 when `main` has returned -1, while nothing has been written.  On
the input that holds the record with index `2^32 - 1` the program is back at
the head of the loop with `2^32` blocks written and the cursor at 0. -/
theorem C8_counterexample :
    ((run (sampleWorld [0, 0, 0, 0]) 7 (initState (sampleWorld [0, 0, 0, 0]))).pc = .readData ∧
      (run (sampleWorld [0, 0, 0, 0]) 7 (initState (sampleWorld [0, 0, 0, 0]))).i = 1 ∧
      (run (sampleWorld [0, 0, 0, 0]) 7 (initState (sampleWorld [0, 0, 0, 0]))).out = []) ∧
    ((finalState (sampleWorld [0, 0, 0, 0])).pc = .done (-1) ∧
      (finalState (sampleWorld [0, 0, 0, 0])).i = 1 ∧
      (finalState (sampleWorld [0, 0, 0, 0])).out = []) ∧
    (∃ n, (run (sampleWorld ([255, 255, 255, 255] ++ List.replicate UBI_LEB_SIZE 0)) n
            (initState (sampleWorld ([255, 255, 255, 255] ++
              List.replicate UBI_LEB_SIZE 0)))).pc = .readLnum ∧
          (run (sampleWorld ([255, 255, 255, 255] ++ List.replicate UBI_LEB_SIZE 0)) n
            (initState (sampleWorld ([255, 255, 255, 255] ++
              List.replicate UBI_LEB_SIZE 0)))).i = 0 ∧
          (run (sampleWorld ([255, 255, 255, 255] ++ List.replicate UBI_LEB_SIZE 0)) n
            (initState (sampleWorld ([255, 255, 255, 255] ++
              List.replicate UBI_LEB_SIZE 0)))).out.length = 4294967296 * UBI_LEB_SIZE) := by
  refine ⟨by decide, by decide, ?_⟩
  · obtain ⟨t, ⟨a, ha⟩, h1, h2, h3, h4, hwf⟩ :=
      prelude (sampleWorld ([255, 255, 255, 255] ++ List.replicate UBI_LEB_SIZE 0))
        (sampleWorld_filesOpen _)
    obtain ⟨u, ⟨b, hb⟩, g1, g2, _, g4⟩ :=
      one_record _ (sampleWorld_writesOk _) t h1 hwf
        ⟨[255, 255, 255, 255], List.replicate UBI_LEB_SIZE 0⟩
        ⟨rfl, List.length_replicate _ _⟩ [] (by rw [h3]; simp [sampleWorld])
    refine ⟨a + b, ?_⟩
    rw [run_add, ha, hb]
    refine ⟨g1, ?_, ?_⟩
    · rw [g2]
      show (lnumOf false [255, 255, 255, 255] + 1) % UINT_MOD = 0
      rw [lnumOf_ff]
      rfl
    · rw [g4, h4, h2]
      show ([] ++ (List.replicate (gap 0 (lnumOf false [255, 255, 255, 255]) * UBI_LEB_SIZE)
        ERASED ++ List.replicate UBI_LEB_SIZE 0)).length = _
      rw [lnumOf_ff, List.nil_append, List.length_append, List.length_replicate,
        List.length_replicate, show gap 0 4294967295 = 4294967295 from by
          unfold gap UINT_MOD; omega]
      omega

/-- C8 as amended: in every state of a run in which no write has failed the
destination holds a whole number of blocks; that number, modulo `2^32`, is
the cursor at the head of the loop, at lines 68-70 before the `i++` and at
the successful exit, and the cursor is one more (modulo `2^32`) from the
`i++` of line 70 to the write that follows it and from the end of the fill
loop to the write of the payload. -/
theorem C8_blocks_written_vs_cursor (w : World) (n : Nat) :
    ((run w n (initState w)).pc = .readLnum ∨ (run w n (initState w)).pc = .cmpFill ∨
        (run w n (initState w)).pc = .fillTest ∨ (run w n (initState w)).pc = .exitOk ∨
        (run w n (initState w)).pc = .done 0 →
      (run w n (initState w)).out.length % 516096 = 0 ∧
        (run w n (initState w)).i =
          ((run w n (initState w)).out.length / 516096) % 4294967296) ∧
    ((run w n (initState w)).pc = .fillWrite ∨ (run w n (initState w)).pc = .readData ∨
        (run w n (initState w)).pc = .writeData →
      (run w n (initState w)).out.length % 516096 = 0 ∧
        (run w n (initState w)).i =
          ((run w n (initState w)).out.length / 516096 + 1) % 4294967296) := by
  have hi := run_Inv w n _ (initState_Inv w)
  have key : ∀ (l k : Nat), l = UBI_LEB_SIZE * k → l % 516096 = 0 ∧ l / 516096 = k := by
    intro l k h
    subst h
    exact ⟨Nat.mul_mod_right _ _, Nat.mul_div_cancel_left _ (by decide)⟩
  unfold Inv at hi
  refine ⟨?_, ?_⟩
  · intro hpc
    rcases hpc with hpc | hpc | hpc | hpc | hpc <;> rw [hpc] at hi <;> simp only at hi
    · obtain ⟨k1, k2⟩ := key _ _ hi.1
      exact ⟨k1, by rw [k2]; exact hi.2⟩
    · obtain ⟨k1, k2⟩ := key _ _ hi.1
      exact ⟨k1, by rw [k2]; exact hi.2⟩
    · obtain ⟨k1, k2⟩ := key _ _ hi.1
      exact ⟨k1, by rw [k2]; exact hi.2.1⟩
    · obtain ⟨k1, k2⟩ := key _ _ hi.1
      exact ⟨k1, by rw [k2]; exact hi.2⟩
    · obtain ⟨k1, k2⟩ := key _ _ (hi trivial).1
      exact ⟨k1, by rw [k2]; exact (hi trivial).2⟩
  · intro hpc
    rcases hpc with hpc | hpc | hpc <;> rw [hpc] at hi <;> simp only at hi
    · obtain ⟨k1, k2⟩ := key _ _ hi.1
      exact ⟨k1, by rw [k2]; exact hi.2.1⟩
    · obtain ⟨k1, k2⟩ := key _ _ hi.1
      exact ⟨k1, by rw [k2]; exact hi.2⟩
    · obtain ⟨k1, k2⟩ := key _ _ hi.1
      exact ⟨k1, by rw [k2]; exact hi.2.1⟩

/-! ## The cursor on a monotone stream -/

theorem MonotoneStream.tail {be : Bool} {r : Record} {rs : List Record}
    (h : MonotoneStream be (r :: rs)) :
    MonotoneStream be rs ∧ ∀ x ∈ rs, r.index be ≤ x.index be := by
  obtain ⟨h1, h2, h3⟩ := h
  rw [List.map_cons, List.pairwise_cons] at h2
  exact ⟨⟨fun x hx => h1 x (List.mem_cons_of_mem _ hx), h2.2,
    fun x hx => h3 x (List.mem_cons_of_mem _ hx)⟩,
    fun x hx => h2.1 _ (List.mem_map_of_mem _ hx)⟩

theorem step_Ord (w : World) (s : State) (hwf : WF s) (h : Ord w.bigEndian s) :
    Ord w.bigEndian (step w s) ∧ nextHead s ≤ nextHead (step w s) := by
  have hU : UINT_MOD = 4294967296 := rfl
  have hI : INT_MAX = 2147483647 := rfl
  obtain ⟨hi, hl⟩ := hwf
  unfold Ord at h
  cases hpc : s.pc with
  | malloc =>
    rw [hpc] at h
    simp only [step, hpc]
    split
    · exact ⟨h, by simp [nextHead, hpc]⟩
    · exact ⟨trivial, by simp [nextHead, hpc]⟩
  | stat =>
    rw [hpc] at h
    simp only [step, hpc]
    split
    · exact ⟨h, by simp [nextHead, hpc]⟩
    · exact ⟨trivial, by simp [nextHead, hpc]⟩
  | openIn =>
    rw [hpc] at h
    simp only [step, hpc]
    split
    · exact ⟨h, by simp [nextHead, hpc]⟩
    · exact ⟨trivial, by simp [nextHead, hpc]⟩
  | openOut =>
    rw [hpc] at h
    simp only [step, hpc]
    split
    · exact ⟨⟨h, Nat.zero_le _⟩, by simp [nextHead, hpc]⟩
    · exact ⟨trivial, by simp [nextHead, hpc]⟩
  | readLnum =>
    rw [hpc] at h
    obtain ⟨⟨rs, hm, hin, hlo⟩, _⟩ := h
    cases rs with
    | nil =>
      rw [step_readLnum_eof w s hpc hin]
      refine ⟨trivial, ?_⟩
      simp only [nextHead, hpc]
      omega
    | cons r rs =>
      obtain ⟨hm', hle⟩ := hm.tail
      have hc := hm.1 r (List.mem_cons_self _ _)
      have hb := hm.2.2 r (List.mem_cons_self _ _)
      have hr := hlo r (List.mem_cons_self _ _)
      rw [step_readLnum_full w s hpc r.hdr _ hin hc.1]
      refine ⟨⟨⟨r.payload, stream rs, hc.2, rfl, rs, hm', rfl, hle⟩, hb⟩, ?_⟩
      simp only [nextHead, hpc]
      unfold Record.index at hr
      omega
  | cmpFill =>
    rw [hpc] at h
    simp only [step, hpc]
    split
    · exact ⟨h, by simp [nextHead, hpc]⟩
    · exact ⟨h, by simp [nextHead, hpc]⟩
  | fillTest =>
    rw [hpc] at h
    simp only [step, hpc]
    split
    · exact ⟨h, by simp [nextHead, hpc]⟩
    · rename_i heq
      simp only [ne_eq, not_not] at heq
      refine ⟨⟨h, ?_⟩, by simp [nextHead, hpc]⟩
      show (s.i + 1) % UINT_MOD = s.lnum + 1
      have := h.2
      rw [heq]
      exact Nat.mod_eq_of_lt (by omega)
  | fillWrite =>
    rw [hpc] at h
    have hb := h.2
    simp only [step, hpc]
    split
    · exact ⟨trivial, by simp only [nextHead, hpc]; omega⟩
    · exact ⟨h, by simp [nextHead, hpc]⟩
  | readData =>
    rw [hpc] at h
    obtain ⟨⟨⟨P, rest, hP, hin, ht⟩, hb⟩, hi1⟩ := h
    simp only [step, hpc]
    split
    · exact ⟨trivial, by simp only [nextHead, hpc]; omega⟩
    · refine ⟨⟨?_, hb, hi1⟩, by simp [nextHead, hpc]⟩
      show Tail w.bigEndian s.lnum (List.drop UBI_LEB_SIZE s.inp)
      rw [hin, ← hP, List.drop_left]
      exact ht
  | writeData =>
    rw [hpc] at h
    obtain ⟨ht, hb, hi1⟩ := h
    simp only [step, hpc]
    split
    · exact ⟨trivial, by simp only [nextHead, hpc]; omega⟩
    · refine ⟨⟨?_, ?_⟩, by simp only [nextHead, hpc]; omega⟩
      · show Tail w.bigEndian (s.i - 1) s.inp
        rw [hi1]
        exact ht
      · show s.i ≤ INT_MAX
        omega
  | exitOk => simp only [step, hpc]; exact ⟨trivial, by simp [nextHead, hpc]⟩
  | outClose1 => simp only [step, hpc]; exact ⟨trivial, by simp [nextHead, hpc]⟩
  | outClose => simp only [step, hpc]; exact ⟨trivial, by simp [nextHead, hpc]⟩
  | outFree => simp only [step, hpc]; exact ⟨trivial, by simp [nextHead, hpc]⟩
  | done r =>
    rw [step_of_halted w s (by simp [halted, hpc])]
    exact ⟨by unfold Ord; rw [hpc]; trivial, Nat.le_refl _⟩

theorem run_Ord (w : World) (n : Nat) (s : State) (hwf : WF s) (h : Ord w.bigEndian s) :
    Ord w.bigEndian (run w n s) ∧ nextHead s ≤ nextHead (run w n s) := by
  induction n generalizing s with
  | zero => exact ⟨h, Nat.le_refl _⟩
  | succ n ih =>
    rw [run_succ]
    obtain ⟨h1, h2⟩ := step_Ord w s hwf h
    obtain ⟨h3, h4⟩ := ih _ (step_WF w s hwf) h1
    exact ⟨h3, Nat.le_trans h2 h4⟩

/-- With the buffer allocated and both files open, the head of the loop is
reached after four statements. -/
theorem prelude_steps (w : World) (ho : FilesOpen w) :
    (run w 4 (initState w)).pc = .readLnum ∧ (run w 4 (initState w)).i = 0 ∧
      (run w 4 (initState w)).inp = w.input ∧ (run w 4 (initState w)).out = [] := by
  obtain ⟨h1, h2, h3, h4⟩ := ho
  simp [run, halted, step, initState, h1, h2, h3, h4]

/-- The head of the loop is not reached before the fourth statement, and
there the cursor is 0 (line 56). -/
theorem first_head (w : World) (k : Nat) (hk : k ≤ 4)
    (hpc : (run w k (initState w)).pc = .readLnum) :
    k = 4 ∧ (run w k (initState w)).i = 0 := by
  interval_cases k <;>
    cases h1 : w.mallocOk <;> cases h2 : w.statOk <;> cases h3 : w.openInOk <;>
    cases h4 : w.openOutOk <;>
    simp [run, halted, step, initState, h1, h2, h3, h4] at hpc ⊢

theorem initState_Ord (w : World) (rs : List Record) (hin : w.input = stream rs)
    (hv : MonotoneStream w.bigEndian rs) : Ord w.bigEndian (initState w) :=
  ⟨rs, hv, hin, fun _ _ => Nat.zero_le _⟩

/-- C9 fails as stated.  On the input with the records 1 and 0, in this
order, the cursor is 2 at the head of the loop after the first record
(statement 11) and 1 at the head of the loop after the second record
(statement 8589934604, after `2^32 - 2` fill blocks). -/
theorem C9_counterexample :
    (run (sampleWorld (stream unorderedRecords)) 11
        (initState (sampleWorld (stream unorderedRecords)))).pc = .readLnum ∧
      (run (sampleWorld (stream unorderedRecords)) 11
        (initState (sampleWorld (stream unorderedRecords)))).i = 2 ∧
      (run (sampleWorld (stream unorderedRecords)) 8589934604
        (initState (sampleWorld (stream unorderedRecords)))).pc = .readLnum ∧
      (run (sampleWorld (stream unorderedRecords)) 8589934604
        (initState (sampleWorld (stream unorderedRecords)))).i = 1 := by
  have hw := sampleWorld_writesOk (stream unorderedRecords)
  obtain ⟨p1, p2, p3, _⟩ := prelude_steps _ (sampleWorld_filesOpen (stream unorderedRecords))
  have hwf := run_WF (sampleWorld (stream unorderedRecords)) 4 _
    (initState_WF (sampleWorld (stream unorderedRecords)))
  -- the record with index 1
  obtain ⟨t, hrt, h1, h2, h3, _⟩ := one_record_steps _ hw _ p1 hwf (sampleRecord 1 7)
    (sampleRecord_complete _ _) (stream [sampleRecord 0 9]) (by rw [p3]; rfl)
  rw [p2, sampleWorld_index _ 1 _ (by omega)] at hrt
  rw [sampleWorld_index _ 1 _ (by omega)] at h2
  have g1 : gap 0 1 = 1 := by decide
  rw [g1] at hrt
  have e11 : run (sampleWorld (stream unorderedRecords)) 11
      (initState (sampleWorld (stream unorderedRecords))) = t := by
    rw [show (11 : Nat) = 4 + (2 * 1 + 5) from rfl, run_add]
    exact hrt
  have hi2 : t.i = 2 := by rw [h2]; decide
  -- the record with index 0
  obtain ⟨u, hru, k1, k2, _, _⟩ := one_record_steps _ hw t h1 (e11 ▸ run_WF _ 11 _
    (initState_WF (sampleWorld (stream unorderedRecords)))) (sampleRecord 0 9) (sampleRecord_complete _ _) [] (by rw [h3]; rfl)
  rw [hi2, sampleWorld_index _ 0 _ (by omega)] at hru
  rw [sampleWorld_index _ 0 _ (by omega)] at k2
  have g2 : gap 2 0 = 4294967294 := by decide
  rw [g2] at hru
  have e2 : run (sampleWorld (stream unorderedRecords)) 8589934604
      (initState (sampleWorld (stream unorderedRecords))) = u := by
    rw [show (8589934604 : Nat) = 11 + (2 * 4294967294 + 5) from rfl, run_add, e11]
    exact hru
  rw [e11, e2]
  exact ⟨h1, hi2, k1, by rw [k2]; decide⟩

/-- At a head of the loop of a run on a monotone stream the pattern of the
cursor is at most `INT_MAX`. -/
theorem head_le_INT_MAX (w : World) (rs : List Record) (hin : w.input = stream rs)
    (hv : MonotoneStream w.bigEndian rs) (n : Nat)
    (hn : (run w n (initState w)).pc = .readLnum) :
    (run w n (initState w)).i ≤ INT_MAX := by
  obtain ⟨ho, _⟩ := run_Ord w n _ (initState_WF w) (initState_Ord w rs hin hv)
  unfold Ord at ho
  rw [hn] at ho
  exact ho.2

theorem intValue_of_le {p : Nat} (h : p ≤ INT_MAX) : intValue p = (p : Int) := by
  unfold INT_MAX at h
  unfold intValue
  rw [if_pos (by omega)]

/-- C9 as amended: the cursor is 0 at the first head of the loop, and on an
input that is a stream of complete records whose indices never decrease and
are below `INT_MAX = 2^31 - 1`, the value of the `int` cursor at a head of
the loop is between 0 and `INT_MAX` and is at least its value at every
earlier head of the loop. -/
theorem C9_cursor_monotone (w : World) (rs : List Record) (hin : w.input = stream rs)
    (hv : MonotoneStream w.bigEndian rs) :
    (∀ k, k ≤ 4 → (run w k (initState w)).pc = .readLnum →
        k = 4 ∧ (run w k (initState w)).i = 0) ∧
      (∀ n, (run w n (initState w)).pc = .readLnum →
        0 ≤ intValue (run w n (initState w)).i ∧
          intValue (run w n (initState w)).i ≤ (INT_MAX : Int)) ∧
      ∀ m n, m ≤ n → (run w m (initState w)).pc = .readLnum →
        (run w n (initState w)).pc = .readLnum →
        intValue (run w m (initState w)).i ≤ intValue (run w n (initState w)).i := by
  refine ⟨first_head w, ?_, ?_⟩
  · intro n hn
    have hb := head_le_INT_MAX w rs hin hv n hn
    rw [intValue_of_le hb]
    exact ⟨Int.ofNat_nonneg _, Int.ofNat_le.mpr hb⟩
  · intro m n hmn hm hn
    rw [intValue_of_le (head_le_INT_MAX w rs hin hv m hm),
      intValue_of_le (head_le_INT_MAX w rs hin hv n hn)]
    obtain ⟨k, rfl⟩ := Nat.exists_eq_add_of_le hmn
    obtain ⟨ho, _⟩ := run_Ord w m _ (initState_WF w) (initState_Ord w rs hin hv)
    obtain ⟨_, hle⟩ := run_Ord w k _ (run_WF w m _ (initState_WF w)) ho
    rw [← run_add] at hle
    exact Int.ofNat_le.mpr (by simpa [nextHead, hm, hn] using hle)

theorem sampleRecords_monotone : MonotoneStream false sampleRecords := by
  obtain ⟨h1, h2, h3⟩ := sampleRecords_valid
  exact ⟨h1, h2.imp (fun h => Nat.le_of_lt h), h3⟩

/-- On the stream with the records 2 and 5 the head of the loop is reached
again after 13 statements, with the cursor at 3. -/
theorem sample_second_head :
    (run (sampleWorld (stream sampleRecords)) 13
        (initState (sampleWorld (stream sampleRecords)))).pc = .readLnum ∧
      (run (sampleWorld (stream sampleRecords)) 13
        (initState (sampleWorld (stream sampleRecords)))).i = 3 := by
  have hw := sampleWorld_writesOk (stream sampleRecords)
  obtain ⟨p1, p2, p3, _⟩ := prelude_steps _ (sampleWorld_filesOpen (stream sampleRecords))
  have hwf := run_WF (sampleWorld (stream sampleRecords)) 4 _
    (initState_WF (sampleWorld (stream sampleRecords)))
  obtain ⟨t, hrt, h1, h2, _, _⟩ := one_record_steps _ hw _ p1 hwf (sampleRecord 2 7)
    (sampleRecord_complete _ _) (stream [sampleRecord 5 9]) (by rw [p3]; rfl)
  rw [p2, sampleWorld_index _ 2 _ (by omega)] at hrt
  rw [sampleWorld_index _ 2 _ (by omega)] at h2
  have g1 : gap 0 2 = 2 := by decide
  rw [g1] at hrt
  rw [show (13 : Nat) = 4 + (2 * 2 + 5) from rfl, run_add, hrt]
  exact ⟨h1, by rw [h2]; decide⟩

/-- C9 at the stream with the records 2 and 5: the cursor is 0 at the first
head of the loop (statement 4) and 3 at the second (statement 13). -/
theorem C9_cursor_monotone_witness :
    (sampleWorld (stream sampleRecords)).input = stream sampleRecords ∧
      MonotoneStream false sampleRecords ∧
      (run (sampleWorld (stream sampleRecords)) 4
        (initState (sampleWorld (stream sampleRecords)))).pc = .readLnum ∧
      (run (sampleWorld (stream sampleRecords)) 13
        (initState (sampleWorld (stream sampleRecords)))).pc = .readLnum ∧
      intValue (run (sampleWorld (stream sampleRecords)) 4
          (initState (sampleWorld (stream sampleRecords)))).i ≤
        intValue (run (sampleWorld (stream sampleRecords)) 13
          (initState (sampleWorld (stream sampleRecords)))).i :=
  ⟨rfl, sampleRecords_monotone,
    (prelude_steps _ (sampleWorld_filesOpen _)).1, sample_second_head.1,
    (C9_cursor_monotone (sampleWorld (stream sampleRecords)) sampleRecords rfl
      sampleRecords_monotone).2.2 4 13 (by omega)
      (prelude_steps _ (sampleWorld_filesOpen _)).1 sample_second_head.1⟩

/-- C8 at the input that holds the index 0 and no payload: when the payload
is about to be read nothing has been written and the cursor is 1. -/
theorem C8_blocks_written_vs_cursor_witness :
    (run (sampleWorld [0, 0, 0, 0]) 7 (initState (sampleWorld [0, 0, 0, 0]))).pc = .readData ∧
      (run (sampleWorld [0, 0, 0, 0]) 7 (initState (sampleWorld [0, 0, 0, 0]))).out.length
          % 516096 = 0 ∧
      (run (sampleWorld [0, 0, 0, 0]) 7 (initState (sampleWorld [0, 0, 0, 0]))).i =
        ((run (sampleWorld [0, 0, 0, 0]) 7
          (initState (sampleWorld [0, 0, 0, 0]))).out.length / 516096 + 1) % 4294967296 :=
  ⟨by decide,
    (C8_blocks_written_vs_cursor (sampleWorld [0, 0, 0, 0]) 7).2 (Or.inr (Or.inl (by decide)))⟩

/-- A failing write is followed by the message, the two `close` calls and the
return of -1. -/
theorem run_write_fail (w : World) (s : State) (hpc : s.pc = .fillWrite ∨ s.pc = .writeData)
    (hfail : w.wr s.nwr ≠ (UBI_LEB_SIZE : Int)) :
    run w 4 s =
      { s with pc := .done (-1), out := s.out ++ s.buf.take (w.wr s.nwr).toNat,
               nwr := s.nwr + 1,
               trace := s.trace ++ [.write UBI_LEB_SIZE (w.wr s.nwr), .printf .writeError,
                 .close .ofd, .close .ifd] } := by
  have e1 : step w s =
      { s with pc := .outClose1, out := s.out ++ s.buf.take (w.wr s.nwr).toNat,
               nwr := s.nwr + 1,
               trace := s.trace ++ [.write UBI_LEB_SIZE (w.wr s.nwr),
                 .printf .writeError] } := by
    rcases hpc with hpc | hpc
    · exact step_fillWrite_fail w s hpc hfail
    · exact step_writeData_fail w s hpc hfail
  rw [show (4 : Nat) = 3 + 1 from rfl, run_succ, run_outClose1 w _ (by rw [e1]), e1]
  simp

/-- C10: when a write of a fill block or of a payload block returns a count
other than 516096, `main` returns -1; after that write it only prints the
message and closes the two files, so it issues no further read or write; and
the destination keeps what it held before the write, followed by the bytes
that the failing write itself took. -/
theorem C10_write_failure_aborts (argc : Nat) (w : World) (n : Nat)
    (hpc : (run w n (initState w)).pc = .fillWrite ∨ (run w n (initState w)).pc = .writeData)
    (hfail : w.wr (run w n (initState w)).nwr ≠ 516096) :
    (main argc w).ret = some (-1) ∧
      (main argc w).trace =
        (run w n (initState w)).trace ++
          [.write 516096 (w.wr (run w n (initState w)).nwr), .printf .writeError,
            .close .ofd, .close .ifd] ∧
      (main argc w).out =
        (run w n (initState w)).out ++
          (run w n (initState w)).buf.take (w.wr (run w n (initState w)).nwr).toNat ∧
      halted (run w (n + 4) (initState w)) = true := by
  have e := run_write_fail w (run w n (initState w)) hpc hfail
  rw [← run_add] at e
  obtain ⟨m1, m2, m3⟩ := main_of_reach argc w _ (-1) ⟨n + 4, rfl⟩ (by rw [e])
  refine ⟨m1, ?_, ?_, ?_⟩
  · rw [m3, e]
    rfl
  · rw [m2, e]
  · rw [e]
    rfl

/-- C10 at the input that holds the index 1, when the write of the fill block
0 returns 100. -/
theorem C10_write_failure_aborts_witness :
    (run (shortWriteWorld [1, 0, 0, 0]) 7 (initState (shortWriteWorld [1, 0, 0, 0]))).pc =
        .fillWrite ∧
      (shortWriteWorld [1, 0, 0, 0]).wr
          (run (shortWriteWorld [1, 0, 0, 0]) 7
            (initState (shortWriteWorld [1, 0, 0, 0]))).nwr ≠ 516096 ∧
      (main 3 (shortWriteWorld [1, 0, 0, 0])).ret = some (-1) ∧
      (main 3 (shortWriteWorld [1, 0, 0, 0])).trace =
        (run (shortWriteWorld [1, 0, 0, 0]) 7 (initState (shortWriteWorld [1, 0, 0, 0]))).trace ++
          [.write 516096 100, .printf .writeError, .close .ofd, .close .ifd] := by
  have hpc : (run (shortWriteWorld [1, 0, 0, 0]) 7
      (initState (shortWriteWorld [1, 0, 0, 0]))).pc = .fillWrite := by decide
  have hfail : (shortWriteWorld [1, 0, 0, 0]).wr
      (run (shortWriteWorld [1, 0, 0, 0]) 7
        (initState (shortWriteWorld [1, 0, 0, 0]))).nwr ≠ 516096 := by decide
  have h := C10_write_failure_aborts 3 (shortWriteWorld [1, 0, 0, 0]) 7 (Or.inl hpc) hfail
  exact ⟨hpc, hfail, h.1, h.2.1⟩

/-! ## The arguments of `main` -/

/-- A statement only adds events to the trace. -/
theorem step_trace_append (w : World) (s : State) :
    ∃ es, (step w s).trace = s.trace ++ es := by
  cases hpc : s.pc <;> simp only [step, hpc] <;> (repeat' split) <;>
    first
      | exact ⟨[], (List.append_nil _).symm⟩
      | exact ⟨_, rfl⟩
      | exact ⟨_, List.append_assoc _ _ _⟩

theorem run_trace_append (w : World) (n : Nat) (s : State) :
    ∃ es, (run w n s).trace = s.trace ++ es := by
  induction n generalizing s with
  | zero => exact ⟨[], (List.append_nil _).symm⟩
  | succ n ih =>
    rw [run_succ]
    obtain ⟨e1, h1⟩ := step_trace_append w s
    obtain ⟨e2, h2⟩ := ih (step w s)
    exact ⟨e1 ++ e2, by rw [h2, h1, List.append_assoc]⟩

/-- When the buffer is allocated the first event of a run is the call of
`stat`. -/
theorem trace_starts_with_stat (w : World) (hm : w.mallocOk = true) :
    ∃ rest, (finalState w).trace = Event.stat w.statOk :: rest := by
  have h2 : ∃ es, (run w 2 (initState w)).trace = Event.stat w.statOk :: es := by
    cases hs : w.statOk <;> simp [run, halted, step, initState, hm, hs]
  have hf : 2 ≤ fuel (initState w) := by
    simp only [fuel, initState]
    omega
  obtain ⟨k, hk⟩ := Nat.exists_eq_add_of_le hf
  obtain ⟨es, hes⟩ := h2
  obtain ⟨es', hes'⟩ := run_trace_append w k (run w 2 (initState w))
  refine ⟨es ++ es', ?_⟩
  unfold finalState
  rw [hk, run_add, hes', hes]
  rfl

theorem MsgCause_mono {w : World} {tr tr2 : List Event} {m : Msg}
    (h : MsgCause w tr m) (hs : ∀ e ∈ tr, e ∈ tr2) : MsgCause w tr2 m := by
  cases m with
  | noMem => exact h
  | statFailed => exact hs _ h
  | cannotOpen => exact hs _ h
  | cannotCreate => exact hs _ h
  | readError =>
    obtain ⟨c, r, h1, h2⟩ := h
    exact ⟨c, r, hs _ h1, h2⟩
  | writeError =>
    obtain ⟨c, r, h1, h2⟩ := h
    exact ⟨c, r, hs _ h1, h2⟩

theorem Clean_append {w : World} {tr : List Event} (h : Clean w tr) (e : Event)
    (hf : e.failed = false) (hp : ∀ m, e ≠ Event.printf m) : Clean w (tr ++ [e]) := by
  obtain ⟨h1, h2, h3⟩ := h
  refine ⟨h1, ?_, ?_⟩
  · intro x hx
    rcases List.mem_append.mp hx with hx | hx
    · exact h2 x hx
    · rw [List.mem_singleton.mp hx]
      exact hf
  · intro m hm
    rcases List.mem_append.mp hm with hx | hx
    · exact h3 m hx
    · exact hp m (List.mem_singleton.mp hx).symm

/-- The way out after a failed call keeps what has been established. -/
theorem Failing_append {w : World} {tr : List Event} (h : Failing w tr) (e : Event)
    (hp : ∀ m, e ≠ Event.printf m) : Failing w (tr ++ [e]) := by
  obtain ⟨h1, ⟨m0, h2⟩, h3⟩ := h
  have sub : ∀ x ∈ tr, x ∈ tr ++ [e] := fun x hx => List.mem_append_left _ hx
  refine ⟨?_, ⟨m0, sub _ h2⟩, ?_⟩
  · rcases h1 with h1 | ⟨x, hx, hxf⟩
    · exact Or.inl h1
    · exact Or.inr ⟨x, sub _ hx, hxf⟩
  · intro m hm
    rcases List.mem_append.mp hm with hx | hx
    · exact MsgCause_mono (h3 m hx) sub
    · exact absurd (List.mem_singleton.mp hx).symm (hp m)

/-- A failed call followed by its message. -/
theorem Clean_fail {w : World} {tr : List Event} (h : Clean w tr) (e : Event) (m : Msg)
    (hf : e.failed = true) (hp : ∀ m, e ≠ Event.printf m) (hc : MsgCause w [e] m) :
    Failing w (tr ++ [e, Event.printf m]) := by
  obtain ⟨_, _, h3⟩ := h
  refine ⟨Or.inr ⟨e, by simp, hf⟩, ⟨m, by simp⟩, ?_⟩
  intro m2 hm2
  rcases List.mem_append.mp hm2 with hx | hx
  · exact absurd hx (h3 m2)
  · simp only [List.mem_cons, List.mem_singleton, List.not_mem_nil, or_false] at hx
    rcases hx with hx | hx
    · exact absurd hx.symm (hp m2)
    · have : m2 = m := Event.printf.inj hx
      rw [this]
      exact MsgCause_mono hc (fun x hx => by
        rw [List.mem_singleton.mp hx]
        simp)

theorem read_failed (c r : Nat) (h1 : r ≠ c) (h2 : ¬ (c = SIZEOF_UINT ∧ r = 0)) :
    (Event.read c r).failed = true := by
  have h3 : ¬ c = SIZEOF_UINT ∨ ¬ r = 0 := not_and_or.mp h2
  simp [Event.failed, h1, h3]

theorem two_append {α : Type} (l : List α) (a b : α) : l ++ [a, b] = l ++ [a] ++ [b] := by
  simp

theorem step_MsgInv (w : World) (s : State) (h : MsgInv w s) : MsgInv w (step w s) := by
  unfold MsgInv at h
  cases hpc : s.pc with
  | malloc =>
    rw [hpc] at h
    simp only [step, hpc]
    split
    · rename_i hm
      show Clean w s.trace
      rw [h]
      exact ⟨hm, by simp, by simp⟩
    · rename_i hm
      show Failing w (s.trace ++ [Event.printf Msg.noMem])
      rw [h]
      have hm2 : w.mallocOk = false := by simpa using hm
      refine ⟨Or.inl hm2, ⟨Msg.noMem, by simp⟩, ?_⟩
      intro m hx
      simp only [List.nil_append, List.mem_singleton] at hx
      rw [Event.printf.inj hx]
      exact hm2
  | stat =>
    rw [hpc] at h
    simp only [step, hpc]
    split
    · exact Clean_append h _ rfl (fun _ hc => by cases hc)
    · exact Clean_fail h _ _ rfl (fun _ hc => by cases hc) (by simp [MsgCause])
  | openIn =>
    rw [hpc] at h
    simp only [step, hpc]
    split
    · exact Clean_append h _ rfl (fun _ hc => by cases hc)
    · exact Clean_fail h _ _ rfl (fun _ hc => by cases hc) (by simp [MsgCause])
  | openOut =>
    rw [hpc] at h
    simp only [step, hpc]
    split
    · exact Clean_append h _ rfl (fun _ hc => by cases hc)
    · exact Clean_fail h _ _ rfl (fun _ hc => by cases hc) (by simp [MsgCause])
  | readLnum =>
    rw [hpc] at h
    simp only [step, hpc]
    split
    · rename_i h0
      exact Clean_append h _ (by simp [Event.failed, h0]) (fun _ hc => by cases hc)
    · rename_i h0
      split
      · rename_i h4
        show Failing w (s.trace ++ [_] ++ [_])
        rw [← two_append]
        exact Clean_fail h _ _ (read_failed _ _ h4 (fun hc => h0 hc.2)) (fun _ hc => by cases hc)
          ⟨_, _, List.mem_singleton_self _, h4, fun hc => h0 hc.2⟩
      · rename_i h4
        simp only [ne_eq, not_not] at h4
        exact Clean_append h _ (by simp [Event.failed, h4]) (fun _ hc => by cases hc)
  | cmpFill =>
    rw [hpc] at h
    simp only [step, hpc]
    split <;> exact h
  | fillTest =>
    rw [hpc] at h
    simp only [step, hpc]
    split <;> exact h
  | fillWrite =>
    rw [hpc] at h
    simp only [step, hpc]
    split
    · rename_i hr
      show Failing w (s.trace ++ [_] ++ [_])
      rw [← two_append]
      exact Clean_fail h _ _ (by simp [Event.failed, hr]) (fun _ hc => by cases hc)
        ⟨_, _, List.mem_singleton_self _, hr⟩
    · rename_i hr
      simp only [ne_eq, not_not] at hr
      exact Clean_append h _ (by simp [Event.failed, hr]) (fun _ hc => by cases hc)
  | readData =>
    rw [hpc] at h
    simp only [step, hpc]
    split
    · rename_i hr
      show Failing w (s.trace ++ [_] ++ [_])
      rw [← two_append]
      exact Clean_fail h _ _ (read_failed _ _ hr (fun hc => by
          simp [UBI_LEB_SIZE, SIZEOF_UINT] at hc))
        (fun _ hc => by cases hc)
        ⟨_, _, List.mem_singleton_self _, hr, fun hc => by
          simp [UBI_LEB_SIZE, SIZEOF_UINT] at hc⟩
    · rename_i hr
      simp only [ne_eq, not_not] at hr
      exact Clean_append h _ (by simp [Event.failed, hr]) (fun _ hc => by cases hc)
  | writeData =>
    rw [hpc] at h
    simp only [step, hpc]
    split
    · rename_i hr
      show Failing w (s.trace ++ [_] ++ [_])
      rw [← two_append]
      exact Clean_fail h _ _ (by simp [Event.failed, hr]) (fun _ hc => by cases hc)
        ⟨_, _, List.mem_singleton_self _, hr⟩
    · rename_i hr
      simp only [ne_eq, not_not] at hr
      exact Clean_append h _ (by simp [Event.failed, hr]) (fun _ hc => by cases hc)
  | exitOk =>
    rw [hpc] at h
    simp only [step, hpc]
    refine Or.inl ⟨rfl, ?_⟩
    show Clean w (s.trace ++ [_, _])
    rw [two_append]
    exact Clean_append (Clean_append h (.close .ifd) rfl (fun _ hc => by cases hc)) (.close .ofd) rfl
      (fun _ hc => by cases hc)
  | outClose1 =>
    rw [hpc] at h
    simp only [step, hpc]
    exact Failing_append h _ (fun _ hc => by cases hc)
  | outClose =>
    rw [hpc] at h
    simp only [step, hpc]
    exact Failing_append h _ (fun _ hc => by cases hc)
  | outFree =>
    rw [hpc] at h
    simp only [step, hpc]
    exact Or.inr ⟨rfl, h⟩
  | done r =>
    rw [step_of_halted w s (by simp [halted, hpc])]
    unfold MsgInv
    rw [hpc]
    rw [hpc] at h
    exact h

theorem run_MsgInv (w : World) (n : Nat) (s : State) (h : MsgInv w s) :
    MsgInv w (run w n s) := by
  induction n generalizing s with
  | zero => exact h
  | succ n ih =>
    rw [run_succ]
    exact ih _ (step_MsgInv w s h)

/-- What `main` has printed when it returns: nothing when it returns 0, and
when it returns -1 a message, after a call that failed. -/
theorem finalState_MsgInv (w : World) :
    ((finalState w).pc = .done 0 ∧ Clean w (finalState w).trace) ∨
      ((finalState w).pc = .done (-1) ∧ Failing w (finalState w).trace) := by
  have h := run_MsgInv w (fuel (initState w)) (initState w) rfl
  have hh := finalState_halted w
  unfold finalState at hh ⊢
  unfold MsgInv at h
  cases hpc : (run w (fuel (initState w)) (initState w)).pc <;>
    simp only [halted, hpc] at hh <;> try (exact absurd hh (by decide))
  rw [hpc] at h
  rcases h with ⟨rfl, h⟩ | ⟨rfl, h⟩
  · exact Or.inl ⟨rfl, h⟩
  · exact Or.inr ⟨rfl, h⟩

theorem Clean_not_callFailed {w : World} {tr : List Event} (h : Clean w tr) :
    ¬ CallFailed w tr := by
  rintro (hm | ⟨e, he, hf⟩)
  · rw [h.1] at hm
    exact absurd hm (by decide)
  · rw [h.2.1 e he] at hf
    exact absurd hf (by decide)

/-- C11 fails as stated.  With `argc = 4` (three path arguments), the files
present and the source empty, `main` reads the source and returns 0.  With
`argc = 1` and no file to be found, `main` calls `stat`, prints the message
of the failed `stat` and returns -1. -/
theorem C11_counterexample :
    ((main 4 (sampleWorld [])).ret = some 0 ∧
      (main 4 (sampleWorld [])).trace =
        [.stat true, .openIn true, .openOut true, .read 4 0, .close .ifd, .close .ofd]) ∧
    ((main 1 noFileWorld).ret = some (-1) ∧
      (main 1 noFileWorld).trace = [.stat false, .printf .statFailed]) := by
  decide

/-- C11 as amended: `main` never consults `argc`.  Whatever `argc` is, the
run is the run for `argc = 3`.  When the buffer is allocated the first event
of the run is the call of `stat` on `argv[1]`; when it is not, the only event
is the message of `malloc` and the value returned is -1.  `main` returns 0
or -1: it returns 0 when no call has failed, and then it has printed
nothing; it returns -1 when `malloc`, `stat`, an `open`, a `read` or a
`write` has failed, and then it has printed a message.  Every message that
it prints reports such a failed call, so that none of them reports the
arguments. -/
theorem C11_argc_ignored (argc : Nat) (w : World) :
    main argc w = main 3 w ∧
      (w.mallocOk = true → ∃ rest, (main argc w).trace = Event.stat w.statOk :: rest) ∧
      (w.mallocOk = false →
        (main argc w).ret = some (-1) ∧ (main argc w).trace = [Event.printf Msg.noMem]) ∧
      (((main argc w).ret = some 0 ∧ ¬ CallFailed w (main argc w).trace ∧
          ∀ m, Event.printf m ∉ (main argc w).trace) ∨
        ((main argc w).ret = some (-1) ∧ CallFailed w (main argc w).trace ∧
          ∃ m, Event.printf m ∈ (main argc w).trace)) ∧
      ∀ m, Event.printf m ∈ (main argc w).trace → MsgCause w (main argc w).trace m := by
  refine ⟨rfl, trace_starts_with_stat w, ?_, ?_, ?_⟩
  · intro hm
    have e : run w 2 (initState w) =
        { initState w with pc := .done (-1), trace := [.printf .noMem] } := by
      simp [run, halted, step, initState, hm]
    obtain ⟨m1, _, m3⟩ := main_of_reach argc w _ (-1) ⟨2, e⟩ rfl
    exact ⟨m1, m3⟩
  · show ((exitCode (finalState w) = some 0 ∧ ¬ CallFailed w (finalState w).trace ∧
          ∀ m, Event.printf m ∉ (finalState w).trace) ∨
        (exitCode (finalState w) = some (-1) ∧ CallFailed w (finalState w).trace ∧
          ∃ m, Event.printf m ∈ (finalState w).trace))
    rcases finalState_MsgInv w with ⟨hpc, hc⟩ | ⟨hpc, hf⟩
    · refine Or.inl ⟨by simp [exitCode, hpc], Clean_not_callFailed hc, hc.2.2⟩
    · exact Or.inr ⟨by simp [exitCode, hpc], hf.1, hf.2.1⟩
  · show ∀ m, Event.printf m ∈ (finalState w).trace → MsgCause w (finalState w).trace m
    rcases finalState_MsgInv w with ⟨_, hc⟩ | ⟨_, hf⟩
    · intro m hm
      exact absurd hm (hc.2.2 m)
    · exact hf.2.2

/-- C11 at `argc = 1` in a world where the buffer is allocated and no file
is found: the first event is the call of `stat`, and the message printed
reports the failed `stat`. -/
theorem C11_argc_ignored_witness :
    (noFileWorld.mallocOk = true ∧
      ∃ rest, (main 1 noFileWorld).trace = Event.stat noFileWorld.statOk :: rest) ∧
    (Event.printf Msg.statFailed ∈ (main 1 noFileWorld).trace ∧
      MsgCause noFileWorld (main 1 noFileWorld).trace Msg.statFailed) :=
  ⟨⟨rfl, (C11_argc_ignored 1 noFileWorld).2.1 rfl⟩,
    ⟨by decide, (C11_argc_ignored 1 noFileWorld).2.2.2.2 Msg.statFailed (by decide)⟩⟩

/-! ## The contents of the buffer -/

/-- The statements of `main` do not look at the initial contents of the
buffer. -/
theorem step_buf0 (w : World) (b : List Byte) (s : State) :
    step { w with buf0 := b } s = step w s := rfl

theorem run_buf0 (w : World) (b : List Byte) (n : Nat) (s : State) :
    run { w with buf0 := b } n s = run w n s := by
  induction n generalizing s with
  | zero => rfl
  | succ n ih => rw [run_succ, run_succ, ih, step_buf0]

theorem step_BufAgree (w : World) (s1 s2 : State) (h : BufAgree s1 s2) :
    BufAgree (step w s1) (step w s2) := by
  obtain ⟨pc, i, lnum, b1, inp, out, nwr, trace⟩ := s1
  obtain ⟨pc2, i2, lnum2, b2, inp2, out2, nwr2, trace2⟩ := s2
  obtain ⟨h1, h2, h3, h4, h5, h6, h7, l1, l2, hb⟩ := h
  simp only at h1 h2 h3 h4 h5 h6 h7 l1 l2 hb
  subst h1 h2 h3 h4 h5 h6 h7
  have hlen : ∀ (got b : List Byte), b.length = UBI_LEB_SIZE → got.length ≤ UBI_LEB_SIZE →
      (got ++ b.drop got.length).length = UBI_LEB_SIZE := by
    intro got b hb hg
    rw [List.length_append, List.length_drop]
    omega
  have htake : (List.take UBI_LEB_SIZE inp).length ≤ UBI_LEB_SIZE := by
    rw [List.length_take]
    exact Nat.min_le_left _ _
  cases pc with
  | malloc => simp only [step]; split <;> exact ⟨rfl, rfl, rfl, rfl, rfl, rfl, rfl, l1, l2, trivial⟩
  | stat => simp only [step]; split <;> exact ⟨rfl, rfl, rfl, rfl, rfl, rfl, rfl, l1, l2, trivial⟩
  | openIn => simp only [step]; split <;> exact ⟨rfl, rfl, rfl, rfl, rfl, rfl, rfl, l1, l2, trivial⟩
  | openOut => simp only [step]; split <;> exact ⟨rfl, rfl, rfl, rfl, rfl, rfl, rfl, l1, l2, trivial⟩
  | readLnum =>
    simp only [step]
    split
    · exact ⟨rfl, rfl, rfl, rfl, rfl, rfl, rfl, l1, l2, trivial⟩
    · split <;> exact ⟨rfl, rfl, rfl, rfl, rfl, rfl, rfl, l1, l2, trivial⟩
  | cmpFill =>
    simp only [step]
    split
    · exact ⟨rfl, rfl, rfl, rfl, rfl, rfl, rfl, List.length_replicate _ _,
        List.length_replicate _ _, fun _ => rfl⟩
    · rename_i hne
      exact ⟨rfl, rfl, rfl, rfl, rfl, rfl, rfl, l1, l2, fun hc => absurd hc hne⟩
  | fillTest =>
    simp only [step]
    split
    · rename_i hne
      exact ⟨rfl, rfl, rfl, rfl, rfl, rfl, rfl, l1, l2, hb hne⟩
    · exact ⟨rfl, rfl, rfl, rfl, rfl, rfl, rfl, l1, l2, trivial⟩
  | fillWrite =>
    simp only at hb
    subst hb
    simp only [step]
    split
    · exact ⟨rfl, rfl, rfl, rfl, rfl, rfl, rfl, l1, l2, trivial⟩
    · exact ⟨rfl, rfl, rfl, rfl, rfl, rfl, rfl, l1, l2, fun _ => rfl⟩
  | readData =>
    simp only [step]
    split
    · exact ⟨rfl, rfl, rfl, rfl, rfl, rfl, rfl, hlen _ _ l1 htake, hlen _ _ l2 htake, trivial⟩
    · rename_i hfull
      simp only [ne_eq, not_not] at hfull
      refine ⟨rfl, rfl, rfl, rfl, rfl, rfl, rfl, hlen _ _ l1 htake, hlen _ _ l2 htake, ?_⟩
      show List.take UBI_LEB_SIZE inp ++ List.drop (List.take UBI_LEB_SIZE inp).length b1 =
        List.take UBI_LEB_SIZE inp ++ List.drop (List.take UBI_LEB_SIZE inp).length b2
      rw [hfull, List.drop_of_length_le (Nat.le_of_eq l1),
        List.drop_of_length_le (Nat.le_of_eq l2)]
  | writeData =>
    simp only at hb
    subst hb
    simp only [step]
    split <;> exact ⟨rfl, rfl, rfl, rfl, rfl, rfl, rfl, l1, l2, trivial⟩
  | exitOk => exact ⟨rfl, rfl, rfl, rfl, rfl, rfl, rfl, l1, l2, trivial⟩
  | outClose1 => exact ⟨rfl, rfl, rfl, rfl, rfl, rfl, rfl, l1, l2, trivial⟩
  | outClose => exact ⟨rfl, rfl, rfl, rfl, rfl, rfl, rfl, l1, l2, trivial⟩
  | outFree => exact ⟨rfl, rfl, rfl, rfl, rfl, rfl, rfl, l1, l2, trivial⟩
  | done r => exact ⟨rfl, rfl, rfl, rfl, rfl, rfl, rfl, l1, l2, trivial⟩

theorem run_BufAgree (w : World) (n : Nat) (s1 s2 : State) (h : BufAgree s1 s2) :
    BufAgree (run w n s1) (run w n s2) := by
  induction n generalizing s1 s2 with
  | zero => exact h
  | succ n ih => rw [run_succ, run_succ]; exact ih _ _ (step_BufAgree w s1 s2 h)

theorem initState_BufInit (w : World) : BufInit w (initState w) :=
  ⟨⟨[], rfl⟩, trivial⟩

theorem step_BufInit (w : World) (s : State) (h : BufInit w s) : BufInit w (step w s) := by
  obtain ⟨⟨pre, hpre⟩, hb⟩ := h
  have hdrop : ∀ k, ∃ p, w.input = p ++ s.inp.drop k := by
    intro k
    refine ⟨pre ++ s.inp.take k, ?_⟩
    rw [List.append_assoc, List.take_append_drop]
    exact hpre
  cases hpc : s.pc with
  | malloc => simp only [step, hpc]; split <;> exact ⟨⟨pre, hpre⟩, trivial⟩
  | stat => simp only [step, hpc]; split <;> exact ⟨⟨pre, hpre⟩, trivial⟩
  | openIn => simp only [step, hpc]; split <;> exact ⟨⟨pre, hpre⟩, trivial⟩
  | openOut => simp only [step, hpc]; split <;> exact ⟨⟨pre, hpre⟩, trivial⟩
  | readLnum =>
    simp only [step, hpc]
    split
    · exact ⟨⟨pre, hpre⟩, trivial⟩
    · split <;> exact ⟨hdrop _, trivial⟩
  | cmpFill =>
    simp only [step, hpc]
    split
    · exact ⟨⟨pre, hpre⟩, fun _ => rfl⟩
    · rename_i hne
      exact ⟨⟨pre, hpre⟩, fun hc => absurd hc hne⟩
  | fillTest =>
    rw [hpc] at hb
    simp only [step, hpc]
    split
    · rename_i hne
      exact ⟨⟨pre, hpre⟩, hb hne⟩
    · exact ⟨⟨pre, hpre⟩, trivial⟩
  | fillWrite =>
    rw [hpc] at hb
    simp only [step, hpc]
    split
    · exact ⟨⟨pre, hpre⟩, trivial⟩
    · exact ⟨⟨pre, hpre⟩, fun _ => hb⟩
  | readData =>
    simp only [step, hpc]
    split
    · exact ⟨hdrop _, trivial⟩
    · rename_i hfull
      simp only [ne_eq, not_not] at hfull
      have ht : List.take UBI_LEB_SIZE
          (List.take UBI_LEB_SIZE s.inp ++
            List.drop (List.take UBI_LEB_SIZE s.inp).length s.buf) =
          List.take UBI_LEB_SIZE s.inp := List.take_left' hfull
      refine ⟨hdrop _, ?_, pre, ?_⟩
      · show (List.take UBI_LEB_SIZE (List.take UBI_LEB_SIZE s.inp ++ _)).length = UBI_LEB_SIZE
        rw [ht, hfull]
      · show w.input = pre ++ (List.take UBI_LEB_SIZE (List.take UBI_LEB_SIZE s.inp ++ _) ++
          List.drop UBI_LEB_SIZE s.inp)
        rw [ht, List.take_append_drop]
        exact hpre
  | writeData => simp only [step, hpc]; split <;> exact ⟨⟨pre, hpre⟩, trivial⟩
  | exitOk => simp only [step, hpc]; exact ⟨⟨pre, hpre⟩, trivial⟩
  | outClose1 => simp only [step, hpc]; exact ⟨⟨pre, hpre⟩, trivial⟩
  | outClose => simp only [step, hpc]; exact ⟨⟨pre, hpre⟩, trivial⟩
  | outFree => simp only [step, hpc]; exact ⟨⟨pre, hpre⟩, trivial⟩
  | done r =>
    rw [step_of_halted w s (by simp [halted, hpc])]
    exact ⟨⟨pre, hpre⟩, hb⟩

theorem run_BufInit (w : World) (n : Nat) (s : State) (h : BufInit w s) :
    BufInit w (run w n s) := by
  induction n generalizing s with
  | zero => exact h
  | succ n ih => rw [run_succ]; exact ih _ (step_BufInit w s h)

/-- C12: for every world and every two initial contents of the buffer (of
516096 bytes each), the two runs of `main` return the same value, write the
same bytes and issue the same events; and in every state of a run the buffer
that is about to be written holds either the fill pattern (line 71) or the
516096 bytes of the source file that were read last (line 85). -/
theorem C12_buffer_independence (argc : Nat) (w : World) (b1 b2 : List Byte)
    (h1 : b1.length = 516096) (h2 : b2.length = 516096) :
    main argc { w with buf0 := b1 } = main argc { w with buf0 := b2 } ∧
      ∀ n,
        ((run { w with buf0 := b1 } n (initState { w with buf0 := b1 })).pc = .fillWrite →
          (run { w with buf0 := b1 } n (initState { w with buf0 := b1 })).buf =
            List.replicate 516096 (255 : Byte)) ∧
        ((run { w with buf0 := b1 } n (initState { w with buf0 := b1 })).pc = .writeData →
          ((run { w with buf0 := b1 } n (initState { w with buf0 := b1 })).buf.take
              516096).length = 516096 ∧
            ∃ pre, w.input = pre ++
              ((run { w with buf0 := b1 } n (initState { w with buf0 := b1 })).buf.take 516096 ++
                (run { w with buf0 := b1 } n (initState { w with buf0 := b1 })).inp)) := by
  refine ⟨?_, ?_⟩
  · have hinit : BufAgree (initState { w with buf0 := b1 }) (initState { w with buf0 := b2 }) :=
      ⟨rfl, rfl, rfl, rfl, rfl, rfl, rfl, h1, h2, trivial⟩
    have hf : fuel (initState { w with buf0 := b1 }) = fuel (initState { w with buf0 := b2 }) :=
      rfl
    obtain ⟨g1, _, _, _, g5, _, g7, _⟩ :=
      run_BufAgree w (fuel (initState { w with buf0 := b1 })) _ _ hinit
    have e1 : finalState { w with buf0 := b1 } =
        run w (fuel (initState { w with buf0 := b1 })) (initState { w with buf0 := b1 }) :=
      run_buf0 w b1 _ _
    have e2 : finalState { w with buf0 := b2 } =
        run w (fuel (initState { w with buf0 := b1 })) (initState { w with buf0 := b2 }) := by
      unfold finalState
      rw [← hf]
      exact run_buf0 w b2 _ _
    simp only [main, e1, e2, exitCode, g1, g5, g7]
  · intro n
    have hi := run_BufInit { w with buf0 := b1 } n _ (initState_BufInit _)
    obtain ⟨_, hb⟩ := hi
    refine ⟨?_, ?_⟩
    · intro hpc
      rw [hpc] at hb
      exact hb
    · intro hpc
      rw [hpc] at hb
      exact hb

/-- C12 at two buffers, one of bytes 0 and one of bytes 1, on the stream
with the records 2 and 5. -/
theorem C12_buffer_independence_witness :
    (List.replicate 516096 (0 : Byte)).length = 516096 ∧
      (List.replicate 516096 (1 : Byte)).length = 516096 ∧
      main 3 { sampleWorld (stream sampleRecords) with buf0 := List.replicate 516096 0 } =
        main 3 { sampleWorld (stream sampleRecords) with buf0 := List.replicate 516096 1 } :=
  ⟨List.length_replicate _ _, List.length_replicate _ _,
    (C12_buffer_independence 3 (sampleWorld (stream sampleRecords)) _ _
      (List.length_replicate _ _) (List.length_replicate _ _)).1⟩

/-! ## Indices below the cursor -/

theorem gap_of_lt (i l : Nat) (hli : l < i) (hi : i < UINT_MOD) :
    gap i l = 4294967296 - (i - l) := by
  unfold gap UINT_MOD at *
  omega

theorem gap_after_same (d : Nat) : gap ((d + 1) % UINT_MOD) d = 4294967295 := by
  unfold gap UINT_MOD
  omega

/-- C13: a record whose index is below the cursor is not rejected.  From the
head of the loop, with every write succeeding, `main` writes
`2^32 - (i - lnum)` fill blocks, then the payload, and is back at the head of
the loop with the cursor at `lnum + 1`.  In particular two records with the
same index `d` make `main` return 0 with `2^32 - 1` fill blocks between the
two payloads. -/
theorem C13_index_below_cursor (argc : Nat) (w : World) (hw : WritesOk w) :
    (∀ (n : Nat) (r : Record) (rest : List Byte), r.Complete →
      (run w n (initState w)).pc = .readLnum →
      (run w n (initState w)).inp = r.hdr ++ (r.payload ++ rest) →
      r.index w.bigEndian < (run w n (initState w)).i →
      (run w (n + (2 * (4294967296 - ((run w n (initState w)).i - r.index w.bigEndian)) + 5))
          (initState w)).pc = .readLnum ∧
        (run w (n + (2 * (4294967296 - ((run w n (initState w)).i - r.index w.bigEndian)) + 5))
          (initState w)).i = r.index w.bigEndian + 1 ∧
        (run w (n + (2 * (4294967296 - ((run w n (initState w)).i - r.index w.bigEndian)) + 5))
          (initState w)).inp = rest ∧
        (run w (n + (2 * (4294967296 - ((run w n (initState w)).i - r.index w.bigEndian)) + 5))
          (initState w)).out =
          (run w n (initState w)).out ++
            (List.replicate
              ((4294967296 - ((run w n (initState w)).i - r.index w.bigEndian)) * 516096)
              (255 : Byte) ++ r.payload)) ∧
    (∀ (r1 r2 : Record), FilesOpen w → r1.Complete → r2.Complete →
      r2.index w.bigEndian = r1.index w.bigEndian → w.input = stream [r1, r2] →
      (main argc w).ret = some 0 ∧
        (main argc w).out =
          List.replicate (r1.index w.bigEndian * 516096) (255 : Byte) ++
            (r1.payload ++ (List.replicate (4294967295 * 516096) (255 : Byte) ++ r2.payload))) := by
  refine ⟨?_, ?_⟩
  · intro n r rest hr hpc hin hlt
    have hwf := run_WF w n _ (initState_WF w)
    obtain ⟨t, hrt, h1, h2, h3, h4⟩ := one_record_steps w hw _ hpc hwf r hr rest hin
    rw [gap_of_lt _ _ hlt hwf.1] at hrt h4
    rw [run_add, hrt]
    refine ⟨h1, ?_, h3, h4⟩
    rw [h2]
    apply Nat.mod_eq_of_lt
    have := hwf.1
    omega
  · intro r1 r2 ho c1 c2 heq hin
    obtain ⟨m1, m2⟩ := main_records argc w ho hw [r1, r2]
      (by
        intro r hr
        simp only [List.mem_cons, List.mem_singleton, List.not_mem_nil, or_false] at hr
        rcases hr with rfl | rfl
        · exact c1
        · exact c2)
      hin
    refine ⟨m1, ?_⟩
    have hd : r1.index w.bigEndian < UINT_MOD := lnumOf_lt _ _
    rw [m2]
    simp only [expand, List.append_nil]
    rw [heq, gap_after_same, gap_eq_sub 0 _ (Nat.zero_le _) hd]
    rfl

/-- C13 at the stream with two records of index 3: three fill blocks, the
first payload, `2^32 - 1` fill blocks, the second payload. -/
theorem C13_index_below_cursor_witness :
    WritesOk (sampleWorld (stream duplicateRecords)) ∧
      FilesOpen (sampleWorld (stream duplicateRecords)) ∧
      (main 3 (sampleWorld (stream duplicateRecords))).ret = some 0 ∧
      (main 3 (sampleWorld (stream duplicateRecords))).out =
        List.replicate (3 * 516096) (255 : Byte) ++
          ((sampleRecord 3 7).payload ++
            (List.replicate (4294967295 * 516096) (255 : Byte) ++ (sampleRecord 3 9).payload)) := by
  have h := (C13_index_below_cursor 3 (sampleWorld (stream duplicateRecords))
    (sampleWorld_writesOk _)).2 (sampleRecord 3 7) (sampleRecord 3 9) (sampleWorld_filesOpen _)
    (sampleRecord_complete _ _) (sampleRecord_complete _ _)
    (by rw [sampleWorld_index _ 3 _ (by omega), sampleWorld_index _ 3 _ (by omega)]) rfl
  rw [sampleWorld_index _ 3 _ (by omega)] at h
  exact ⟨sampleWorld_writesOk _, sampleWorld_filesOpen _, h⟩

/-! ## Termination of the two loops, whatever the writes return -/

end Unubirefimg

namespace Ubimkvol

/-! ## Conversions -/

theorem toInt32_range (n : Int) : -2147483648 ≤ toInt32 n ∧ toInt32 n < 2147483648 := by
  unfold toInt32
  omega

theorem toInt32_of_range (n : Int) (h1 : -2147483648 ≤ n) (h2 : n < 2147483648) :
    toInt32 n = n := by
  unfold toInt32
  omega

theorem toInt64_of_range (n : Int) (h1 : -9223372036854775808 ≤ n)
    (h2 : n < 9223372036854775808) : toInt64 n = n := by
  unfold toInt64
  omega

theorem strlenInt_of_lt (s : CString) (h : s.length < 2147483648) :
    strlenInt s = (s.length : Int) := by
  unfold strlenInt
  exact toInt32_of_range _ (by omega) (by omega)

/-! ## The check of the parameters -/

theorem moreThanOneOption_iff (a : Args) : moreThanOneOption a ↔ 2 ≤ sizeOptions a := by
  unfold moreThanOneOption sizeOptions
  by_cases hb : a.bytes = -1 <;> by_cases hl : a.lebs = -1 <;> by_cases hm : a.maxavs = 0 <;>
    simp [hb, hl, hm]

theorem noOption_iff (a : Args) :
    (a.bytes = -1 ∧ a.maxavs = 0 ∧ a.lebs = -1) ↔ sizeOptions a = 0 := by
  unfold sizeOptions
  by_cases hb : a.bytes = -1 <;> by_cases hl : a.lebs = -1 <;> by_cases hm : a.maxavs = 0 <;>
    simp [hb, hl, hm]

/-- The value of `param_sanity_check` in terms of the number of size options
and of the length of the name as `int`. -/
theorem param_sanity_check_eq (e : Env) (a : Args) :
    param_sanity_check e a =
      if sizeOptions a = 1 ∧ ∃ nm, a.name = some nm ∧ strlenInt nm ≤ e.UBI_MAX_VOLUME_NAME
      then 0 else -1 := by
  have h0 := noOption_iff a
  have h2 := moreThanOneOption_iff a
  unfold moreThanOneOption at h2
  unfold param_sanity_check
  by_cases c0 : a.bytes = -1 ∧ a.maxavs = 0 ∧ a.lebs = -1
  · rw [if_pos c0, if_neg]
    rintro ⟨h1, _⟩
    have := h0.1 c0
    omega
  · rw [if_neg c0]
    split
    · rename_i c2
      rw [if_neg]
      rintro ⟨h1, _⟩
      have := h2.1 c2
      omega
    · rename_i c2
      have hone : sizeOptions a = 1 := by
        have n0 : sizeOptions a ≠ 0 := fun h => c0 (h0.2 h)
        have n2 : ¬ 2 ≤ sizeOptions a := fun h => c2 (h2.2 h)
        omega
      cases hn : a.name with
      | none => simp
      | some nm =>
        simp only [hone, true_and, Option.some.injEq, exists_eq_left', gt_iff_lt]
        by_cases hl : e.UBI_MAX_VOLUME_NAME < strlenInt nm
        · rw [if_pos hl, if_neg (by omega)]
        · rw [if_neg hl, if_pos (by omega)]

theorem hugeName_length : hugeName.length = 2147483648 := List.length_replicate _ _

/-- The conversion of line 123 at a value that no string of `argv` reaches:
for a name of `2^31` characters the length stored in `int len` would be
`-2^31`, and the comparison with `UBI_MAX_VOLUME_NAME = 127` would pass. -/
theorem param_sanity_check_hugeName :
    sizeOptions hugeNameArgs = 1 ∧ hugeNameArgs.name = some hugeName ∧
      hugeName.length = 2147483648 ∧ sampleEnv.UBI_MAX_VOLUME_NAME = 127 ∧
      param_sanity_check sampleEnv hugeNameArgs = 0 := by
  have h1 : sizeOptions hugeNameArgs = 1 := by decide
  refine ⟨h1, rfl, hugeName_length, rfl, ?_⟩
  rw [param_sanity_check_eq, if_pos]
  refine ⟨h1, hugeName, rfl, ?_⟩
  unfold strlenInt
  rw [hugeName_length]
  decide

/-- The only assignment to `args.name` is `args.name = optarg` (line 199). -/
theorem switchKey_name (e : Env) (a a1 : Args) (key : Key) (optarg : CString)
    (h : switchKey e a key optarg = .ok a1) : a1.name = a.name ∨ a1.name = some optarg := by
  cases key <;> simp only [switchKey] at h <;> (repeat' split at h) <;>
    first
      | (have h1 := Except.ok.inj h; subst h1; exact Or.inl rfl)
      | (have h1 := Except.ok.inj h; subst h1; exact Or.inr rfl)
      | exact absurd h (by simp)

/-- After the loop of `parse_opt` the name is `NULL` or one of the option
arguments that `getopt_long` has returned. -/
theorem parseLoop_name (e : Env) (opts : List (Key × CString)) (a a1 : Args)
    (h : parseLoop e a opts = .ok a1) :
    a1.name = a.name ∨ ∃ o ∈ opts, a1.name = some o.2 := by
  induction opts generalizing a with
  | nil =>
    simp only [parseLoop] at h
    have h1 := Except.ok.inj h
    subst h1
    exact Or.inl rfl
  | cons o os ih =>
    obtain ⟨key, optarg⟩ := o
    simp only [parseLoop] at h
    cases hs : switchKey e a key optarg with
    | error o => rw [hs] at h; cases h
    | ok a2 =>
      rw [hs] at h
      rcases ih a2 h with h1 | ⟨o, ho, h1⟩
      · rcases switchKey_name e a a2 key optarg hs with h2 | h2
        · exact Or.inl (h1.trans h2)
        · exact Or.inr ⟨(key, optarg), List.mem_cons_self _ _, h1.trans h2⟩
      · exact Or.inr ⟨o, List.mem_cons_of_mem _ ho, h1⟩

/-- The value of `args` that `parse_opt` hands to `param_sanity_check` has a
name shorter than `2^31` characters when the option arguments, which are
strings of `argv`, are. -/
theorem parseLoop_name_length (e : Env) (opts : List (Key × CString)) (rest : List CString)
    (a : Args) (h : parseLoop e (args e) opts = .ok a)
    (hs : ∀ o ∈ opts, o.2.length < 2147483648) :
    ∀ nm, { a with node := rest.head? }.name = some nm → nm.length < 2147483648 := by
  intro nm hn
  have hn2 : a.name = some nm := hn
  rcases parseLoop_name e opts (args e) a h with h1 | ⟨o, ho, h1⟩
  · rw [h1] at hn2
    simp [args] at hn2
  · rw [h1] at hn2
    rw [← Option.some.inj hn2]
    exact hs o ho

/-- C15: `param_sanity_check` returns 0 if and only if exactly one of the
three size options is set, the name is not `NULL` and its length is at most
`UBI_MAX_VOLUME_NAME`; otherwise it returns -1.  The condition of lines
112-114 holds if and only if at least two of the three size options are
set.  The name is an option argument (line 199), a string of `argv`, which
is shorter than `2^31` characters: this is the hypothesis `hlen`, under
which `int len = strlen(args.name)` (line 123) is the length of the name. -/
theorem C15_param_sanity_check (e : Env) (a : Args)
    (hlen : ∀ nm, a.name = some nm → nm.length < 2147483648) :
    (param_sanity_check e a = 0 ↔
        sizeOptions a = 1 ∧
          ∃ nm, a.name = some nm ∧ (nm.length : Int) ≤ e.UBI_MAX_VOLUME_NAME) ∧
      (param_sanity_check e a ≠ 0 → param_sanity_check e a = -1) ∧
      (moreThanOneOption a ↔ 2 ≤ sizeOptions a) := by
  have hiff : (sizeOptions a = 1 ∧
        ∃ nm, a.name = some nm ∧ strlenInt nm ≤ e.UBI_MAX_VOLUME_NAME) ↔
      (sizeOptions a = 1 ∧
        ∃ nm, a.name = some nm ∧ (nm.length : Int) ≤ e.UBI_MAX_VOLUME_NAME) := by
    constructor
    · rintro ⟨h1, nm, hn, hl⟩
      exact ⟨h1, nm, hn, by rw [← strlenInt_of_lt nm (hlen nm hn)]; exact hl⟩
    · rintro ⟨h1, nm, hn, hl⟩
      exact ⟨h1, nm, hn, by rw [strlenInt_of_lt nm (hlen nm hn)]; exact hl⟩
  refine ⟨?_, ?_, moreThanOneOption_iff a⟩
  · rw [param_sanity_check_eq, ← hiff]
    split <;> simp_all
  · rw [param_sanity_check_eq]
    split <;> simp

/-- C15 at the size of 4 eraseblocks and the name `"vol"`: the check
passes. -/
theorem C15_param_sanity_check_witness :
    (∀ nm, sampleArgs.name = some nm → nm.length < 2147483648) ∧
      param_sanity_check sampleEnv sampleArgs = 0 := by
  have hlen : ∀ nm, sampleArgs.name = some nm → nm.length < 2147483648 := by
    intro nm hn
    have : nm = "vol".toList := by
      simp only [sampleArgs, Option.some.injEq] at hn
      exact hn.symm
    subst this
    decide
  refine ⟨hlen, ?_⟩
  rw [(C15_param_sanity_check sampleEnv sampleArgs hlen).1]
  exact ⟨by decide, "vol".toList, rfl, by decide⟩

/-! ## The options -/

theorem args_ParseInv (e : Env) : ParseInv (args e) := by
  unfold ParseInv args
  simp

theorem switchKey_ParseInv (e : Env) (a a1 : Args) (key : Key) (optarg : CString)
    (h : switchKey e a key optarg = .ok a1) (hi : ParseInv a) : ParseInv a1 := by
  obtain ⟨hl, ha1, ha2⟩ := hi
  cases key <;> simp only [switchKey] at h
  case t =>
    split at h
    · cases h; exact ⟨hl, ha1, ha2⟩
    · split at h
      · cases h; exact ⟨hl, ha1, ha2⟩
      · cases h
  case s =>
    split at h
    · cases h
    · split at h
      · split at h
        · cases h
        · cases h; exact ⟨hl, ha1, ha2⟩
      · cases h; exact ⟨hl, ha1, ha2⟩
  case S =>
    split at h
    · cases h
    · rename_i hc
      cases h
      have hr := toInt32_range (e.strtoull optarg).1
      simp only [not_or, not_le] at hc
      exact ⟨Or.inr ⟨hc.2.1, hr.2⟩, ha1, ha2⟩
  case a =>
    split at h
    · cases h
    · rename_i hc
      cases h
      have hr := toInt32_range (e.strtoul optarg).1
      simp only [not_or, not_le] at hc
      exact ⟨hl, by have := hc.2.2; show 1 ≤ toInt32 _; omega, hr.2⟩
  case n =>
    split at h
    · cases h
    · have h1 := Except.ok.inj h
      subst h1
      exact ⟨hl, ha1, ha2⟩
  case N => cases h; exact ⟨hl, ha1, ha2⟩
  case h => cases h
  case V => cases h
  case m => cases h; exact ⟨hl, ha1, ha2⟩
  case colon => cases h
  case other => cases h

theorem parseLoop_ParseInv (e : Env) (opts : List (Key × CString)) (a a1 : Args)
    (h : parseLoop e a opts = .ok a1) (hi : ParseInv a) : ParseInv a1 := by
  induction opts generalizing a with
  | nil =>
    simp only [parseLoop] at h
    cases h
    exact hi
  | cons o os ih =>
    obtain ⟨key, optarg⟩ := o
    simp only [parseLoop] at h
    cases hs : switchKey e a key optarg with
    | error o => rw [hs] at h; cases h
    | ok a2 =>
      rw [hs] at h
      exact ih a2 h (switchKey_ParseInv e a a2 key optarg hs hi)

/-- When the loop of `parse_opt` is left inside the `switch`, -1 is returned
or `exit(EXIT_SUCCESS)` is called. -/
theorem switchKey_error (e : Env) (a : Args) (key : Key) (optarg : CString) (o : Outcome)
    (h : switchKey e a key optarg = .error o) :
    (∃ a1, o = .returned (-1) a1) ∨ o = .exited 0 := by
  cases key <;> simp only [switchKey] at h
  case t =>
    split at h
    · cases h
    · split at h
      · cases h
      · cases h; exact Or.inl ⟨_, rfl⟩
  case s =>
    split at h
    · cases h; exact Or.inl ⟨_, rfl⟩
    · split at h
      · split at h
        · cases h; exact Or.inl ⟨_, rfl⟩
        · cases h
      · cases h
  case S =>
    split at h
    · cases h; exact Or.inl ⟨_, rfl⟩
    · cases h
  case a =>
    split at h
    · cases h; exact Or.inl ⟨_, rfl⟩
    · cases h
  case n =>
    split at h
    · cases h; exact Or.inl ⟨_, rfl⟩
    · cases h
  case N => cases h
  case h => cases h; exact Or.inr rfl
  case V => cases h; exact Or.inr rfl
  case m => cases h
  case colon => cases h; exact Or.inl ⟨_, rfl⟩
  case other => cases h; exact Or.inl ⟨_, rfl⟩

theorem parseLoop_error (e : Env) (opts : List (Key × CString)) (a : Args) (o : Outcome)
    (h : parseLoop e a opts = .error o) :
    (∃ a1, o = .returned (-1) a1) ∨ o = .exited 0 := by
  induction opts generalizing a with
  | nil => simp only [parseLoop] at h; cases h
  | cons x xs ih =>
    obtain ⟨key, optarg⟩ := x
    simp only [parseLoop] at h
    cases hs : switchKey e a key optarg with
    | error o1 =>
      rw [hs] at h
      cases h
      exact switchKey_error e a key optarg _ hs
    | ok a2 =>
      rw [hs] at h
      exact ih a2 h

/-- When `parse_opt` returns 0 the loop has ended with `break` on every key
and the value of `args` is the value after the loop with `node` set. -/
theorem parse_opt_zero (e : Env) (opts : List (Key × CString)) (rest : List CString)
    (a : Args) (h : parse_opt e opts rest = .returned 0 a) :
    ∃ a0, parseLoop e (args e) opts = .ok a0 ∧ a = { a0 with node := rest.head? } ∧
      param_sanity_check e a = 0 := by
  unfold parse_opt at h
  cases hl : parseLoop e (args e) opts with
  | error o =>
    rw [hl] at h
    simp only at h
    rcases parseLoop_error e opts _ o hl with ⟨a1, ho⟩ | ho
    · rw [ho] at h
      injection h with h1 _
      omega
    · rw [ho] at h
      cases h
  | ok a0 =>
    rw [hl] at h
    simp only at h
    split at h
    · cases h
    · split at h
      · cases h
      · split at h
        · cases h
        · rename_i hc
          simp only [ne_eq, not_not] at hc
          cases h
          exact ⟨a0, rfl, rfl, hc⟩

theorem parse_opt_ParseInv (e : Env) (opts : List (Key × CString)) (rest : List CString)
    (a : Args) (h : parse_opt e opts rest = .returned 0 a) : ParseInv a := by
  obtain ⟨a0, hl, ha, _⟩ := parse_opt_zero e opts rest a h
  have := parseLoop_ParseInv e opts _ a0 hl (args_ParseInv e)
  rw [ha]
  exact this

theorem parseLoop_append (e : Env) (xs ys : List (Key × CString)) (a : Args) :
    parseLoop e a (xs ++ ys) =
      match parseLoop e a xs with
      | .error o => .error o
      | .ok a1 => parseLoop e a1 ys := by
  induction xs generalizing a with
  | nil => rfl
  | cons x xs ih =>
    obtain ⟨key, optarg⟩ := x
    simp only [List.cons_append, parseLoop]
    cases switchKey e a key optarg with
    | error o => rfl
    | ok a2 => exact ih a2

/-- Only the key `a` changes `args.alignment`. -/
theorem switchKey_alignment (e : Env) (a a1 : Args) (key : Key) (optarg : CString)
    (h : switchKey e a key optarg = .ok a1) (hk : key ≠ Key.a) :
    a1.alignment = a.alignment := by
  cases key <;> simp only [switchKey] at h
  case a => exact absurd rfl hk
  case t =>
    split at h
    · cases h; rfl
    · split at h
      · cases h; rfl
      · cases h
  case s =>
    split at h
    · cases h
    · split at h
      · split at h
        · cases h
        · cases h; rfl
      · cases h; rfl
  case S =>
    split at h
    · cases h
    · have h1 := Except.ok.inj h
      subst h1
      rfl
  case n =>
    split at h
    · cases h
    · have h1 := Except.ok.inj h
      subst h1
      rfl
  case N => cases h; rfl
  case h => cases h
  case V => cases h
  case m => cases h; rfl
  case colon => cases h
  case other => cases h

theorem parseLoop_alignment (e : Env) (opts : List (Key × CString)) (a a1 : Args)
    (h : parseLoop e a opts = .ok a1) (hk : ∀ o ∈ opts, o.1 ≠ Key.a) :
    a1.alignment = a.alignment := by
  induction opts generalizing a with
  | nil =>
    simp only [parseLoop] at h
    cases h
    rfl
  | cons x xs ih =>
    obtain ⟨key, optarg⟩ := x
    simp only [parseLoop] at h
    cases hs : switchKey e a key optarg with
    | error o => rw [hs] at h; cases h
    | ok a2 =>
      rw [hs] at h
      rw [ih a2 h (fun o ho => hk o (List.mem_cons_of_mem _ ho)),
        switchKey_alignment e a a2 key optarg hs (hk (key, optarg) (List.mem_cons_self _ _))]

/-- The key `a` with a value that `strtoul` does not parse to its end, or
not at all, or that is not positive as an `int`, makes `parse_opt` return
-1. -/
theorem switchKey_bad_alignment (e : Env) (a : Args) (optarg : CString)
    (hbad : optarg.drop (e.strtoul optarg).2 ≠ [] ∨ (e.strtoul optarg).2 = 0 ∨
      toInt32 (e.strtoul optarg).1 ≤ 0) :
    switchKey e a Key.a optarg =
      .error (.returned (-1) { a with alignment := toInt32 (e.strtoul optarg).1 }) := by
  simp only [switchKey]
  rw [if_pos hbad]

theorem sizeArgs_isSome (a : Args) (di : DevInfo) (h : 1 ≤ a.alignment) :
    ∃ a2, sizeArgs a di = some a2 := by
  have key : ∀ a1 : Args, a1.alignment = a.alignment →
      ∃ a2, (if a1.lebs ≠ -1 then
          if a1.alignment = 0 then none
          else some { a1 with bytes := bytesOfLebs a1 di.leb_size }
        else some a1) = some a2 := by
    intro a1 h1
    split
    · rw [if_neg (by omega)]
      exact ⟨_, rfl⟩
    · exact ⟨_, rfl⟩
  unfold sizeArgs
  apply key
  split <;> rfl

theorem createVolume_defined (l : Libubi) (a : Args) (h : 1 ≤ a.alignment) :
    (createVolume l a).outcome ≠ .divisionByZero := by
  obtain ⟨a2, h2⟩ := sizeArgs_isSome a (l.ubi_get_dev_info a.node).2 h
  unfold createVolume
  simp only [h2]
  repeat' split
  all_goals simp

/-- C16: when `parse_opt` returns 0, `args.alignment` is at least 1; it is
the default 1 when no `-a` was given; a value of `-a` that `strtoul` does not
parse to its end, or not at all, or that is 0 or less after the conversion to
`int`, makes `parse_opt` return -1; and `main` never takes the remainder of
line 287 with a zero divisor. -/
theorem C16_alignment_positive (e : Env) (l : Libubi) (opts : List (Key × CString))
    (rest : List CString) :
    (∀ a, parse_opt e opts rest = .returned 0 a → 1 ≤ a.alignment) ∧
      (∀ a, parse_opt e opts rest = .returned 0 a → (∀ o ∈ opts, o.1 ≠ Key.a) →
        a.alignment = 1) ∧
      (∀ pre post optarg a1, opts = pre ++ (Key.a, optarg) :: post →
        parseLoop e (args e) pre = .ok a1 →
        (optarg.drop (e.strtoul optarg).2 ≠ [] ∨ (e.strtoul optarg).2 = 0 ∨
          toInt32 (e.strtoul optarg).1 ≤ 0) →
        ∃ a2, parse_opt e opts rest = .returned (-1) a2) ∧
      (main e l opts rest).outcome ≠ .divisionByZero := by
  refine ⟨?_, ?_, ?_, ?_⟩
  · intro a h
    exact (parse_opt_ParseInv e opts rest a h).2.1
  · intro a h hk
    obtain ⟨a0, hl, ha, _⟩ := parse_opt_zero e opts rest a h
    rw [ha]
    exact parseLoop_alignment e opts _ a0 hl hk
  · intro pre post optarg a1 hopts hpre hbad
    refine ⟨{ a1 with alignment := toInt32 (e.strtoul optarg).1 }, ?_⟩
    unfold parse_opt
    rw [hopts, parseLoop_append, hpre]
    simp only [parseLoop, switchKey_bad_alignment e a1 optarg hbad]
  · unfold main
    cases hp : parse_opt e opts rest with
    | exited st => simp
    | returned err a =>
      simp only
      by_cases herr : err = 0
      · subst herr
        rw [if_neg (by simp)]
        exact createVolume_defined l a (parse_opt_ParseInv e opts rest a hp).2.1
      · rw [if_pos herr]
        simp

/-- C16 at `-a 16 -S 16 -N vol /dev/ubi0`, where `parse_opt` returns 0 with
the alignment 16, and at `-a 4294967296`, a value that is 0 after the
conversion to `int` and makes `parse_opt` return -1. -/
theorem C16_alignment_positive_witness :
    (parse_opt sampleEnv sampleOpts ["/dev/ubi0".toList] = .returned 0 sampleParsed ∧
      1 ≤ sampleParsed.alignment) ∧
    (toInt32 (sampleEnv.strtoul "4294967296".toList).1 ≤ 0 ∧
      ∃ a2, parse_opt sampleEnv [(Key.a, "4294967296".toList)] ["/dev/ubi0".toList] =
        .returned (-1) a2) := by
  have h1 : parse_opt sampleEnv sampleOpts ["/dev/ubi0".toList] = .returned 0 sampleParsed := by
    decide
  have h2 : toInt32 (sampleEnv.strtoul "4294967296".toList).1 ≤ 0 := by decide
  exact ⟨⟨h1, (C16_alignment_positive sampleEnv sampleLibubi sampleOpts
      ["/dev/ubi0".toList]).1 sampleParsed h1⟩,
    h2, (C16_alignment_positive sampleEnv sampleLibubi [(Key.a, "4294967296".toList)]
      ["/dev/ubi0".toList]).2.2.1 [] [] "4294967296".toList (args sampleEnv) rfl rfl
      (Or.inr (Or.inr h2))⟩

/-! ## The size of the volume -/

theorem tmod_between (a b : Int) (hb : 0 < b) :
    (0 ≤ a → 0 ≤ Int.tmod a b ∧ Int.tmod a b ≤ a) ∧
      (a ≤ 0 → a ≤ Int.tmod a b ∧ Int.tmod a b ≤ 0) := by
  have hdef := Int.tmod_def a b
  refine ⟨?_, ?_⟩
  · intro ha
    have h1 := Int.tmod_nonneg b ha
    have h2 : 0 ≤ b * a.tdiv b := Int.mul_nonneg (Int.le_of_lt hb)
      (Int.tdiv_nonneg ha (Int.le_of_lt hb))
    exact ⟨h1, by omega⟩
  · intro ha
    have hn : 0 ≤ -a := by omega
    have h1 := Int.tmod_nonneg b hn
    have hdef2 := Int.tmod_def (-a) b
    have hq : (-a).tdiv b = -(a.tdiv b) := Int.neg_tdiv a b
    have h2 : 0 ≤ b * (-a).tdiv b := Int.mul_nonneg (Int.le_of_lt hb)
      (Int.tdiv_nonneg hn (Int.le_of_lt hb))
    rw [hq, Int.mul_neg] at hdef2 h2
    rw [hdef2] at h1
    exact ⟨by omega, by omega⟩

theorem mul_range (x y : Int) (hx1 : -2147483648 ≤ x) (hx2 : x ≤ 2147483648)
    (hy1 : 0 ≤ y) (hy2 : y ≤ 2147483648) :
    -9223372036854775808 ≤ x * y ∧ x * y < 9223372036854775808 := by
  constructor <;> nlinarith

/-- Lines 286-288 without overflow: for an `int` size of the eraseblock, a
positive `int` number of eraseblocks and a positive alignment. -/
theorem bytesOfLebs_eq (a : Args) (leb : Int) (hl1 : 0 < a.lebs) (hl2 : a.lebs < 2147483648)
    (ha : 1 ≤ a.alignment) (hr1 : -2147483648 ≤ leb) (hr2 : leb < 2147483648) :
    bytesOfLebs a leb = a.lebs * (leb - Int.tmod leb a.alignment) := by
  obtain ⟨hpos, hneg⟩ := tmod_between leb a.alignment (by omega)
  have hb : -2147483648 ≤ leb - Int.tmod leb a.alignment ∧
      leb - Int.tmod leb a.alignment ≤ 2147483648 := by
    rcases Int.le_total 0 leb with h | h
    · have := hpos h
      omega
    · have := hneg h
      omega
  obtain ⟨m1, m2⟩ := mul_range _ a.lebs hb.1 hb.2 (by omega) (by omega)
  unfold bytesOfLebs
  simp only
  rw [toInt64_of_range (leb - Int.tmod leb a.alignment) (by omega) (by omega),
    toInt64_of_range _ m1 m2, Int.mul_comm]

theorem sizeArgs_lebs (a : Args) (di : DevInfo) (hl : a.lebs ≠ -1) (ha : 1 ≤ a.alignment) :
    ∃ a2, sizeArgs a di = some a2 ∧ a2.node = a.node ∧
      requestOf a2 =
        { vol_id := a.vol_id, alignment := a.alignment, bytes := bytesOfLebs a di.leb_size,
          vol_type := a.vol_type, name := a.name } := by
  have key : ∀ a1 : Args, a1.alignment = a.alignment → a1.lebs = a.lebs →
      a1.vol_id = a.vol_id → a1.vol_type = a.vol_type → a1.name = a.name →
      a1.node = a.node →
      ∃ a2, (if a1.lebs ≠ -1 then
          if a1.alignment = 0 then none
          else some { a1 with bytes := bytesOfLebs a1 di.leb_size }
        else some a1) = some a2 ∧ a2.node = a.node ∧
        requestOf a2 =
          { vol_id := a.vol_id, alignment := a.alignment, bytes := bytesOfLebs a di.leb_size,
            vol_type := a.vol_type, name := a.name } := by
    intro a1 h1 h2 h3 h4 h5 h6
    rw [if_pos (by rw [h2]; exact hl), if_neg (by omega)]
    refine ⟨_, rfl, h6, ?_⟩
    simp only [requestOf, bytesOfLebs, h1, h2, h3, h4, h5]
  unfold sizeArgs
  apply key <;> split <;> rfl

theorem createVolume_req (l : Libubi) (a a2 : Args) (hopen : l.libubi_open = true)
    (hnt2 : l.ubi_node_type a.node ≠ 2) (hnt : 0 ≤ l.ubi_node_type a.node)
    (hdi : (l.ubi_get_dev_info a.node).1 = 0)
    (hs : sizeArgs a (l.ubi_get_dev_info a.node).2 = some a2) :
    (createVolume l a).req = some (requestOf a2) := by
  unfold createVolume
  rw [if_neg (by simp [hopen])]
  simp only
  rw [if_neg hnt2, if_neg (by omega), if_neg (by simp [hdi]), hs]
  simp only
  split
  · rfl
  · split <;> rfl

/-- C17: when `parse_opt` has returned 0 with the size given in eraseblocks
(`args.lebs` is not -1, hence positive) and the device information is
obtained, with a LEB size in the range of `int`, the request that `main`
passes to `ubi_mkvol` has `bytes = lebs * (leb_size - leb_size % alignment)`,
and `vol_id`, `alignment`, `vol_type` and `name` are those of `args`.  The
factor `leb_size - leb_size % alignment` is a multiple of the alignment, and
for a LEB size that is not negative it is the largest one that is at most the
LEB size. -/
theorem C17_request_from_lebs (e : Env) (l : Libubi) (opts : List (Key × CString))
    (rest : List CString) (a : Args)
    (hp : parse_opt e opts rest = .returned 0 a) (hl : a.lebs ≠ -1)
    (hopen : l.libubi_open = true)
    (hnt2 : l.ubi_node_type a.node ≠ 2) (hnt : 0 ≤ l.ubi_node_type a.node)
    (hdi : (l.ubi_get_dev_info a.node).1 = 0)
    (hr1 : -2147483648 ≤ (l.ubi_get_dev_info a.node).2.leb_size)
    (hr2 : (l.ubi_get_dev_info a.node).2.leb_size < 2147483648) :
    0 < a.lebs ∧
      (main e l opts rest).req =
        some { vol_id := a.vol_id, alignment := a.alignment,
               bytes := a.lebs * ((l.ubi_get_dev_info a.node).2.leb_size -
                 Int.tmod (l.ubi_get_dev_info a.node).2.leb_size a.alignment),
               vol_type := a.vol_type, name := a.name } ∧
      a.alignment ∣ (l.ubi_get_dev_info a.node).2.leb_size -
        Int.tmod (l.ubi_get_dev_info a.node).2.leb_size a.alignment ∧
      (0 ≤ (l.ubi_get_dev_info a.node).2.leb_size →
        (l.ubi_get_dev_info a.node).2.leb_size -
            Int.tmod (l.ubi_get_dev_info a.node).2.leb_size a.alignment ≤
          (l.ubi_get_dev_info a.node).2.leb_size ∧
        (l.ubi_get_dev_info a.node).2.leb_size - a.alignment <
          (l.ubi_get_dev_info a.node).2.leb_size -
            Int.tmod (l.ubi_get_dev_info a.node).2.leb_size a.alignment) := by
  obtain ⟨hlebs, hal1, hal2⟩ := parse_opt_ParseInv e opts rest a hp
  have hpos : 0 < a.lebs ∧ a.lebs < 2147483648 := by
    rcases hlebs with h | h
    · exact absurd h hl
    · exact h
  obtain ⟨a2, hs, _, hreq⟩ :=
    sizeArgs_lebs a (l.ubi_get_dev_info a.node).2 hl hal1
  refine ⟨hpos.1, ?_, ?_, ?_⟩
  · have hm : main e l opts rest = createVolume l a := by
      unfold main
      rw [hp]
      simp
    rw [hm, createVolume_req l a a2 hopen hnt2 hnt hdi hs, hreq,
      bytesOfLebs_eq a _ hpos.1 hpos.2 hal1 hr1 hr2]
  · rw [Int.tmod_def]
    exact ⟨Int.tdiv (l.ubi_get_dev_info a.node).2.leb_size a.alignment, by omega⟩
  · intro h0
    obtain ⟨t1, _⟩ := (tmod_between _ a.alignment (by omega)).1 h0
    have t2 := Int.tmod_lt_of_pos (l.ubi_get_dev_info a.node).2.leb_size
      (show 0 < a.alignment by omega)
    omega

/-- C17 at `-a 16 -S 16 -N vol /dev/ubi0` on a device with eraseblocks of
129030 bytes: the request asks for `16 * 129024` bytes. -/
theorem C17_request_from_lebs_witness :
    parse_opt sampleEnv sampleOpts ["/dev/ubi0".toList] = .returned 0 sampleParsed ∧
      sampleParsed.lebs ≠ -1 ∧
      (main sampleEnv sampleLibubi sampleOpts ["/dev/ubi0".toList]).req =
        some { vol_id := -1, alignment := 16, bytes := 16 * (129030 - 6), vol_type := 3,
               name := some "vol".toList } := by
  have hp : parse_opt sampleEnv sampleOpts ["/dev/ubi0".toList] = .returned 0 sampleParsed := by
    decide
  have hl : sampleParsed.lebs ≠ -1 := by decide
  have h := C17_request_from_lebs sampleEnv sampleLibubi sampleOpts ["/dev/ubi0".toList]
    sampleParsed hp hl rfl (by decide) (by decide) rfl (by decide) (by decide)
  exact ⟨hp, hl, h.2.1⟩

end Ubimkvol
